import Mathlib

/-!
Verification development for the webloom Text-DAG synchronization engine.

The definitions below are a shallow embedding of the engine's data model and
operations, translated from `src/tree.js` (the DAG version of the module) and
`src/tree-view.js` (which holds the current editor/classifier code:
`applyChangesToTree`, `handleInsert`, `splitNodeForInsertion`,
`handleBranchingEdit`, `handleDestructiveDelete`, `maybeRemoveEmptyNode`,
`handleLiveSplitBackspace`, `refreshSegments`, `findChanges`, `undo`, `redo`),
plus the persistence entry point `loadTree` from the app bootstrap file.

Modelling conventions:
- Texts are `List Char` (JS strings, indexed by code unit; the engine only
  uses index/substring/concat operations, which agree with list take/drop/append).
- The node map is a `List Node` in insertion order: JS objects with string
  (uuid) keys enumerate in insertion order, `delete` preserves the order of
  the remaining keys, and re-insertion appends.  `Object.values(...).filter`
  and `.find` therefore correspond to list `filter`/`find?`.
- Node ids are `Nat`.  `generateUUID` yields fresh ids; that is modelled by a
  `nextId` counter carried in the state, incremented at each creation.
- Rendering-only fields (`position`, `loading`, `error`, the sampling
  parameters) never influence the behaviour covered by the claims and are
  omitted; `model` and `splitFrom` are kept because the classifier reads them.
- `getPathToNode`'s `while` loop can diverge on cyclic inputs; it is embedded
  with explicit fuel (`nodes.length + 1` at the call sites, which suffices on
  acyclic graphs; fuel-independence is proved for acyclic closed graphs).
-/

namespace Webloom

inductive NType where
  | human
  | ai
deriving DecidableEq, Repr

/-- Node record (tree.js DAG version).  `parent_ids` empty means root.
`parent_id` legacy fields are normalised to `parent_ids` by `getParentIds`
in the source; the model stores the normalised list directly. -/
structure Node where
  id : Nat
  parent_ids : List Nat
  text : List Char
  ntype : NType
  model : Option String
  splitFrom : Option Nat
deriving DecidableEq, Repr

/-- `nodes[id]` on the JS object map. -/
def lookupNode (nodes : List Node) (i : Nat) : Option Node :=
  nodes.find? (fun n => n.id == i)

def hasNode (nodes : List Node) (i : Nat) : Bool :=
  (lookupNode nodes i).isSome

/-- tree.js `getParentIds` (legacy normalisation folded into the model). -/
def getParentIds (n : Node) : List Nat := n.parent_ids

/-- tree.js `getChildren`: all nodes having `i` among their parents,
in insertion order. -/
def getChildren (nodes : List Node) (i : Nat) : List Node :=
  nodes.filter (fun n => n.parent_ids.contains i)

/-- tree.js `findRoot`: first node with no parents. -/
def findRoot (nodes : List Node) : Option Node :=
  nodes.find? (fun n => n.parent_ids.isEmpty)

/-- In-place mutation of the node object stored under id `i`. -/
def updateNode (nodes : List Node) (i : Nat) (f : Node → Node) : List Node :=
  nodes.map (fun n => if n.id == i then f n else n)

/-- JS `delete nodes[i]` (keeps the order of the remaining entries). -/
def removeNode (nodes : List Node) (i : Nat) : List Node :=
  nodes.filter (fun n => n.id != i)

/-- `text.replace(/\r\n/g, '\n').replace(/\r/g, '\n')`: every CRLF pair
becomes one LF, then every remaining CR becomes LF. -/
def normalizeText : List Char → List Char
  | [] => []
  | '\r' :: '\n' :: rest => '\n' :: normalizeText rest
  | '\r' :: rest => '\n' :: normalizeText rest
  | c :: rest => c :: normalizeText rest

/-- The parent the path walk follows at `pids` (nonempty):
`parentIds.find(pid => pathHint.includes(pid)) || parentIds[0]`.
A `null` hint behaves exactly like the empty list (both fall back to
`parentIds[0]`), so the hint is a plain list here. -/
def chooseParentId (hint : List Nat) (pids : List Nat) : Nat :=
  match pids.find? (fun pid => hint.contains pid) with
  | some p => p
  | none => pids.headD 0

/-- The `while (current)` loop of tree.js `getPathToNode`, with fuel.
Each iteration prepends `current`, stops at a root, otherwise follows the
chosen parent (a missing parent id ends the loop on the next test). -/
def getPathLoop (nodes : List Node) (hint : List Nat) :
    Nat → Option Node → List Node → List Node
  | _, none, acc => acc
  | 0, some _, acc => acc
  | fuel + 1, some c, acc =>
    if c.parent_ids.isEmpty then c :: acc
    else getPathLoop nodes hint fuel
      (lookupNode nodes (chooseParentId hint c.parent_ids)) (c :: acc)

/-- tree.js `getPathToNode(nodes, nodeId, pathHint)`. -/
def getPathToNode (nodes : List Node) (nodeId : Nat) (hint : List Nat) : List Node :=
  getPathLoop nodes hint (nodes.length + 1) (lookupNode nodes nodeId) []

/-- tree.js `getFullText` (no path hint). -/
def getFullText (nodes : List Node) (nodeId : Nat) : List Char :=
  ((getPathToNode nodes nodeId []).map (fun n => n.text)).flatten

/-- tree.js `deleteNodePreserveChildren` (DAG version): every child drops
`nodeId` from its parents and gains the node's parents (without duplicates),
then the node is removed. -/
def deleteNodePreserveChildren (nodes : List Node) (nodeId : Nat) : List Node :=
  match lookupNode nodes nodeId with
  | none => nodes
  | some node =>
    let children := getChildren nodes nodeId
    let pids := getParentIds node
    let nodes1 := children.foldl (fun acc c =>
      updateNode acc c.id (fun n =>
        let kept := n.parent_ids.filter (fun pid => pid != nodeId)
        let merged := pids.foldl (fun l pid => if l.contains pid then l else l ++ [pid]) kept
        { n with parent_ids := merged })) nodes
    removeNode nodes1 nodeId

/-- Derived text segment (tree-view.js `refreshSegments`).  Source field names
`start`/`end` become `startPos`/`endPos` (`end` is reserved in Lean). -/
structure Segment where
  nodeId : Nat
  startPos : Nat
  endPos : Nat
  text : List Char
deriving DecidableEq, Repr

/-- The `path.forEach` body of `refreshSegments`/`updateEditor`: one segment
per node with nonempty normalised text, positions accumulating. -/
def buildSegments : List Node → Nat → List Segment
  | [], _ => []
  | n :: rest, pos =>
    let t := normalizeText n.text
    if t.isEmpty then buildSegments rest pos
    else { nodeId := n.id, startPos := pos, endPos := pos + t.length, text := t }
      :: buildSegments rest (pos + t.length)

/-- `appState.tree`: the persistent graph plus selection state. -/
structure TreeState where
  nodes : List Node
  selected_node_id : Option Nat
  selected_path : List Nat
deriving DecidableEq, Repr

/-- The parts of `editorState` the classifier reads/writes. -/
structure EditorState where
  segments : List Segment
  liveSplitMode : Bool
  liveSplitNodeId : Option Nat
  liveSplitHiddenId : Option Nat
  cursorNodeId : Option Nat
  inlineEditNodeId : Option Nat
  structureChanged : Bool
deriving DecidableEq, Repr

/-- Whole engine state: tree, editor state, and the fresh-id counter that
models `generateUUID`. -/
structure St where
  tree : TreeState
  ed : EditorState
  nextId : Nat
deriving DecidableEq, Repr

/-- tree.js `createNode` with an explicit id.  Call sites pass the normalised
parent list directly (`null` becomes `[]`, a single parent becomes `[p]`),
mirroring the source's normalisation. -/
def createNode (id : Nat) (parentIds : List Nat) (text : List Char)
    (t : NType) (model : Option String) : Node :=
  { id := id, parent_ids := parentIds, text := text, ntype := t,
    model := model, splitFrom := none }

def setNodes (s : St) (nodes : List Node) : St :=
  { s with tree := { s.tree with nodes := nodes } }

def markStructureChanged (s : St) : St :=
  { s with ed := { s.ed with structureChanged := true } }

/-- tree-view.js `exitLiveSplitMode`. -/
def exitLiveSplitMode (s : St) : St :=
  if s.ed.liveSplitMode then
    { s with ed := { s.ed with
        liveSplitMode := false, liveSplitNodeId := none, liveSplitHiddenId := none } }
  else s

/-- tree-view.js `updateSelectedNode`: select a node and re-resolve the
stored path, using the old path as hint; a missing/absent id clears both. -/
def updateSelectedNode (s : St) (nodeId : Option Nat) : St :=
  match nodeId with
  | none =>
    { s with tree := { s.tree with selected_node_id := none, selected_path := [] } }
  | some nid =>
    if hasNode s.tree.nodes nid then
      let newPath := getPathToNode s.tree.nodes nid s.tree.selected_path
      { s with tree := { s.tree with
          selected_node_id := some nid, selected_path := newPath.map (fun n => n.id) } }
    else
      { s with tree := { s.tree with selected_node_id := none, selected_path := [] } }

/-- tree-view.js `refreshSegments`: re-derive the segments from the resolved
path of the selected node (stored path as hint). -/
def refreshSegments (s : St) : St :=
  match s.tree.selected_node_id with
  | none => { s with ed := { s.ed with segments := [] } }
  | some sel =>
    let path := getPathToNode s.tree.nodes sel s.tree.selected_path
    { s with ed := { s.ed with segments := buildSegments path 0 } }

/-- tree-view.js `findSegmentAtPosition`: first segment containing the
position (end exclusive), else the last segment, else none. -/
def findSegmentAtPosition (segs : List Segment) (pos : Nat) : Option Segment :=
  match segs.find? (fun sg => decide (sg.startPos ≤ pos) && decide (pos < sg.endPos)) with
  | some sg => some sg
  | none => segs.getLast?

/-- Total length of the current segments
(`segments.reduce((sum, s) => sum + s.text.length, 0)`). -/
def segmentsTotalLen (segs : List Segment) : Nat :=
  (segs.map (fun sg => sg.text.length)).sum

/-- JS regex `\s` on the characters the engine can meet (space, tab, LF, CR,
vertical tab, form feed, NBSP). -/
def jsWhitespace (c : Char) : Bool :=
  c == ' ' || c == '\t' || c == '\n' || c == '\r' ||
  c == '\x0b' || c == '\x0c' || c == ' '

/-- `String.prototype.trim`. -/
def jsTrim (l : List Char) : List Char :=
  ((l.dropWhile jsWhitespace).reverse.dropWhile jsWhitespace).reverse

/-- tree.js `getDescendants`, with fuel (the source recursion terminates on
acyclic graphs; `nodes.length` fuel suffices there). -/
def getDescendants (nodes : List Node) : Nat → Nat → List Node
  | 0, _ => []
  | fuel + 1, nodeId =>
    ((getChildren nodes nodeId).map
      (fun c => c :: getDescendants nodes fuel c.id)).flatten

/-- tree-view.js `handleEmptyLiveSplitNode`: a live-split node whose text ran
out is removed; the hidden child takes its place under the grandparent, or
becomes the new root. -/
def handleEmptyLiveSplitNode (s : St) (emptyId hiddenId : Nat) : St :=
  match lookupNode s.tree.nodes emptyId with
  | none => s
  | some emptyNode =>
    let pids := getParentIds emptyNode
    if pids.isEmpty then
      let s1 := setNodes s (updateNode s.tree.nodes hiddenId
        (fun n => { n with parent_ids := [] }))
      let s2 := updateSelectedNode s1 (some hiddenId)
      let s3 := exitLiveSplitMode s2
      setNodes s3 (removeNode s3.tree.nodes emptyId)
    else
      let s1 := setNodes s (updateNode s.tree.nodes hiddenId
        (fun n => { n with parent_ids := pids }))
      let s2 := updateSelectedNode s1 (some (pids.headD 0))
      let s3 := { s2 with ed := { s2.ed with liveSplitNodeId := some (pids.headD 0) } }
      setNodes s3 (removeNode s3.tree.nodes emptyId)

/-- tree-view.js `handleLiveSplitBackspace(position)`.  Returns whether the
backspace was handled, plus the resulting state. -/
def handleLiveSplitBackspace (s : St) (position : Nat) : Bool × St :=
  match findSegmentAtPosition s.ed.segments position with
  | none => (false, s)
  | some segment =>
    match lookupNode s.tree.nodes segment.nodeId with
    | none => (false, s)
    | some node =>
      let children := getChildren s.tree.nodes node.id
      let shouldLiveSplit := node.ntype == NType.ai ||
        (node.ntype == NType.human && !children.isEmpty)
      if !shouldLiveSplit then (false, s)
      else
        let offsetInNode := position - segment.startPos
        if offsetInNode == 0 then (false, s)
        else
          let ntext := normalizeText node.text
          let s0 := setNodes s (updateNode s.tree.nodes node.id
            (fun n => { n with text := ntext }))
          let deletedChar := ntext.getD (offsetInNode - 1) ' '
          let beforeText := ntext.take (offsetInNode - 1)
          let afterText := ntext.drop offsetInNode
          let newText := beforeText ++ afterText
          if node.ntype == NType.ai && offsetInNode == 1 && jsWhitespace deletedChar then
            -- AI boundary whitespace: silent edit; the character is dropped
            (true, setNodes s0 (updateNode s0.tree.nodes node.id
              (fun n => { n with text := newText })))
          else if node.ntype == NType.human && !children.isEmpty && newText.isEmpty then
            -- spec 2.2b: emptying a human node with children is destructive
            let s1 := exitLiveSplitMode (markStructureChanged s0)
            let pids := getParentIds node
            let nodes2 := children.foldl (fun acc c =>
              updateNode acc c.id (fun n => { n with parent_ids := pids })) s1.tree.nodes
            let s2 := setNodes s1 nodes2
            let s3 :=
              if !pids.isEmpty then updateSelectedNode s2 (some (pids.headD 0))
              else
                match children.head? with
                | some fc =>
                  let s2a := setNodes s2 (updateNode s2.tree.nodes fc.id
                    (fun n => { n with parent_ids := [] }))
                  updateSelectedNode s2a (some fc.id)
                | none => s2
            (true, setNodes s3 (removeNode s3.tree.nodes node.id))
          else if s.ed.liveSplitMode && s.ed.liveSplitNodeId == some node.id &&
              s.ed.liveSplitHiddenId.isSome &&
              (hasNode s0.tree.nodes (s.ed.liveSplitHiddenId.getD 0)) then
            -- continue in live-split mode: prepend the char to the hidden child
            let hiddenId := s.ed.liveSplitHiddenId.getD 0
            let nodes1 := updateNode s0.tree.nodes hiddenId
              (fun n => { n with text := deletedChar :: n.text })
            let nodes2 := updateNode nodes1 node.id (fun n => { n with text := newText })
            let s1 := setNodes s0 nodes2
            let s2 := if newText.isEmpty && node.ntype == NType.ai then
                handleEmptyLiveSplitNode s1 node.id hiddenId
              else s1
            (true, markStructureChanged s2)
          else
            -- enter live-split mode: create the hidden child holding the char
            let s1 := markStructureChanged s0
            let nodes1 := updateNode s1.tree.nodes node.id (fun n => { n with text := newText })
            let existingChildren := getChildren nodes1 node.id
            let hid := s.nextId
            let hiddenChild := createNode hid [node.id] [deletedChar] node.ntype node.model
            let nodes2 := nodes1 ++ [hiddenChild]
            let nodes3 := existingChildren.foldl (fun acc c =>
              updateNode acc c.id (fun n => { n with parent_ids := [hid] })) nodes2
            let s2 := { s1 with
              tree := { s1.tree with nodes := nodes3 },
              nextId := s.nextId + 1,
              ed := { s1.ed with
                liveSplitMode := true, liveSplitNodeId := some node.id,
                liveSplitHiddenId := some hid } }
            let s3 := if newText.isEmpty && node.ntype == NType.ai then
                handleEmptyLiveSplitNode s2 node.id hid
              else s2
            (true, s3)

/-- tree-view.js `splitNodeForInsertion(node, offset, insertText)`. -/
def splitNodeForInsertion (s : St) (nodeId : Nat) (offset : Nat)
    (insertText : List Char) : St :=
  match lookupNode s.tree.nodes nodeId with
  | none => s
  | some node =>
    let s0 := markStructureChanged s
    let ntext := normalizeText node.text
    let s1 := setNodes s0 (updateNode s0.tree.nodes node.id
      (fun n => { n with text := ntext }))
    let beforeText := ntext.take offset
    let afterText := ntext.drop offset
    let originalSelectedId := s.tree.selected_node_id
    if afterText.isEmpty then
      -- inserting at the end: create a human child (the guard
      -- `beforeText === node.text` always holds when afterText is empty)
      if beforeText == ntext then
        let nid := s.nextId
        let newNode := createNode nid [node.id] insertText NType.human none
        let s2 := { s1 with
          tree := { s1.tree with nodes := s1.tree.nodes ++ [newNode] },
          nextId := s.nextId + 1 }
        if originalSelectedId == some node.id then updateSelectedNode s2 (some nid) else s2
      else s1
    else
      let pids := getParentIds node
      if beforeText.isEmpty && !pids.isEmpty then
        -- inserting at the very start: create a human sibling
        let nid := s.nextId
        let humanNode := createNode nid [pids.headD 0] insertText NType.human none
        let s2 := { s1 with
          tree := { s1.tree with nodes := s1.tree.nodes ++ [humanNode] },
          nextId := s.nextId + 1 }
        if originalSelectedId == some node.id then updateSelectedNode s2 (some nid) else s2
      else
        -- split: before stays, human node holds the insertion, continuation
        -- (tagged splitFrom) takes the remainder and the children
        let nodes2 := updateNode s1.tree.nodes node.id (fun n => { n with text := beforeText })
        let existingChildren := getChildren nodes2 node.id
        let hidH := s.nextId
        let hidA := s.nextId + 1
        let humanNode := createNode hidH [node.id] insertText NType.human none
        let afterNode0 := createNode hidA [hidH] afterText node.ntype node.model
        let afterNode := { afterNode0 with splitFrom := some node.id }
        let nodes3 := nodes2 ++ [humanNode, afterNode]
        let nodes4 := existingChildren.foldl (fun acc c =>
          updateNode acc c.id (fun n => { n with parent_ids := [hidA] })) nodes3
        let s2 := { s1 with
          tree := { s1.tree with nodes := nodes4 },
          nextId := s.nextId + 2 }
        if originalSelectedId == some node.id then updateSelectedNode s2 (some hidA) else s2

/-- tree-view.js `handleInsert(position, text)`. -/
def handleInsert (s : St) (position : Nat) (text : List Char) : St :=
  let segment0 := findSegmentAtPosition s.ed.segments position
  let segment :=
    match s.ed.cursorNodeId, segment0 with
    | some cid, some sg0 =>
      match s.ed.segments.find? (fun (x : Segment) => x.nodeId == cid) with
      | some cseg => if position == cseg.endPos then some cseg else some sg0
      | none => some sg0
    | _, sg0 => sg0
  match segment with
  | none =>
    match s.tree.selected_node_id with
    | some sel =>
      match lookupNode s.tree.nodes sel with
      | some _ =>
        setNodes s (updateNode s.tree.nodes sel (fun n => { n with text := n.text ++ text }))
      | none => s
    | none =>
      let s1 := markStructureChanged s
      let rid := s.nextId
      let root := createNode rid [] text NType.human none
      let s2 := { s1 with
        tree := { s1.tree with nodes := s1.tree.nodes ++ [root] },
        nextId := s.nextId + 1 }
      updateSelectedNode s2 (some rid)
  | some seg =>
    match lookupNode s.tree.nodes seg.nodeId with
    | none =>
      -- stale segment: create a fresh root
      let s1 := markStructureChanged s
      let rid := s.nextId
      let root := createNode rid [] text NType.human none
      let s2 := { s1 with
        tree := { s1.tree with nodes := s1.tree.nodes ++ [root] },
        nextId := s.nextId + 1 }
      updateSelectedNode s2 (some rid)
    | some node =>
      let nodeOffset := position - seg.startPos
      if node.ntype == NType.human then
        let nodeText := normalizeText node.text
        let s1 := setNodes s (updateNode s.tree.nodes node.id
          (fun n => { n with text := nodeText }))
        let atEnd := decide (nodeText.length ≤ nodeOffset)
        let children := getChildren s1.tree.nodes node.id
        let hasChildren := !children.isEmpty
        if atEnd && hasChildren && !(s.ed.inlineEditNodeId == some node.id) then
          let s2 := markStructureChanged s1
          let nid := s.nextId
          let newNode := createNode nid [node.id] text NType.human none
          let s3 := { s2 with
            tree := { s2.tree with nodes := s2.tree.nodes ++ [newNode] },
            nextId := s.nextId + 1 }
          updateSelectedNode s3 (some nid)
        else
          setNodes s1 (updateNode s1.tree.nodes node.id (fun n =>
            { n with text := nodeText.take nodeOffset ++ text ++ nodeText.drop nodeOffset }))
      else
        let segmentIndex := s.ed.segments.findIdx (fun (x : Segment) => x == seg)
        if nodeOffset == 0 && decide (0 < segmentIndex) then
          match s.ed.segments.get? (segmentIndex - 1) with
          | some prevSeg =>
            match lookupNode s.tree.nodes prevSeg.nodeId with
            | some prevNode =>
              setNodes s (updateNode s.tree.nodes prevNode.id
                (fun n => { n with text := n.text ++ text }))
            | none =>
              -- fall through to normalisation + split
              let ntext := normalizeText node.text
              let s1 := setNodes s (updateNode s.tree.nodes node.id
                (fun n => { n with text := ntext }))
              splitNodeForInsertion s1 node.id nodeOffset text
          | none =>
            let ntext := normalizeText node.text
            let s1 := setNodes s (updateNode s.tree.nodes node.id
              (fun n => { n with text := ntext }))
            splitNodeForInsertion s1 node.id nodeOffset text
        else
          let ntext := normalizeText node.text
          let s1 := setNodes s (updateNode s.tree.nodes node.id
            (fun n => { n with text := ntext }))
          if nodeOffset == ntext.length &&
              decide (segmentIndex + 1 < s.ed.segments.length) then
            match s.ed.segments.get? (segmentIndex + 1) with
            | some nextSeg =>
              match lookupNode s1.tree.nodes nextSeg.nodeId with
              | some nextNode =>
                if nextNode.ntype == NType.human then
                  setNodes s1 (updateNode s1.tree.nodes nextNode.id
                    (fun n => { n with text := text ++ n.text }))
                else splitNodeForInsertion s1 node.id nodeOffset text
              | none => splitNodeForInsertion s1 node.id nodeOffset text
            | none => splitNodeForInsertion s1 node.id nodeOffset text
          else
            splitNodeForInsertion s1 node.id nodeOffset text

/-- The child promoted when a root empties (the `newRoot` computation of
tree-view.js `maybeRemoveEmptyNode`): the second element of the resolved
path of the current selection when that path starts at the emptied root and
the selection is not the root itself; otherwise the default (first child). -/
def promotedChildId (t : TreeState) (rootId : Nat) (defId : Nat) : Nat :=
  match t.selected_node_id with
  | some sel =>
    if sel != rootId then
      match getPathToNode t.nodes sel t.selected_path with
      | a :: b :: _ => if a.id == rootId then b.id else defId
      | _ => defId
    else defId
  | none => defId

/-- tree-view.js `maybeRemoveEmptyNode(node)`: drop a node whose text became
empty.  An emptied root promotes the child on the selected branch (or the
first child) and reparents the remaining children onto it, or clears the
whole graph when childless.  An emptied human bridge between an AI parent and
its single `splitFrom`-tagged AI child triggers recombination; otherwise the
node is deleted with its children reparented to the grandparents. -/
def maybeRemoveEmptyNode (s : St) (nodeId : Nat) : St :=
  match lookupNode s.tree.nodes nodeId with
  | none => s
  | some node =>
    let s := markStructureChanged s
    let pids := getParentIds node
    if pids.isEmpty then
      let children := getChildren s.tree.nodes node.id
      if children.isEmpty then
        let s1 := setNodes s []
        updateSelectedNode s1 none
      else
        let defRootId := (children.headD node).id
        let newRootId := promotedChildId s.tree node.id defRootId
        let nodes1 := updateNode s.tree.nodes newRootId
          (fun n => { n with parent_ids := [] })
        let nodes2 := children.foldl (fun acc c =>
          if c.id != newRootId then
            updateNode acc c.id (fun n => { n with parent_ids := [newRootId] })
          else acc) nodes1
        let nodes3 := removeNode nodes2 node.id
        let s1 := setNodes s nodes3
        if s.tree.selected_node_id == some node.id then
          updateSelectedNode s1 (some newRootId)
        else s1
    else
      let parentOpt := lookupNode s.tree.nodes (pids.headD 0)
      let children := getChildren s.tree.nodes node.id
      let recombine :=
        match parentOpt, children with
        | some parent, [c] =>
          node.ntype == NType.human && parent.ntype == NType.ai &&
          c.ntype == NType.ai && c.splitFrom == some parent.id
        | _, _ => false
      if recombine then
        match parentOpt, children with
        | some parent, [c] =>
          let nodes1 := updateNode s.tree.nodes parent.id
            (fun n => { n with text := n.text ++ c.text })
          let contChildren := getChildren nodes1 c.id
          let nodes2 := contChildren.foldl (fun acc g =>
            updateNode acc g.id (fun n => { n with parent_ids := [parent.id] })) nodes1
          let s1 := setNodes s nodes2
          let s2 :=
            if s.tree.selected_node_id == some node.id ||
                s.tree.selected_node_id == some c.id then
              updateSelectedNode s1 (some parent.id)
            else s1
          setNodes s2 (removeNode (removeNode s2.tree.nodes node.id) c.id)
        | _, _ => s
      else
        let s1 :=
          if s.tree.selected_node_id == some node.id then
            updateSelectedNode s (some (pids.headD 0))
          else s
        setNodes s1 (deleteNodePreserveChildren s1.tree.nodes node.id)

/-- One planned deletion of `handleDestructiveDelete` (per overlapped segment). -/
structure Deletion where
  nodeId : Nat
  startOffset : Nat
  endOffset : Nat
deriving DecidableEq, Repr

/-- tree-view.js `handleDestructiveDelete(position, count)`: delete the
overlap with each segment from the corresponding node, removing nodes whose
text becomes empty. -/
def handleDestructiveDelete (s : St) (position count : Nat) : St :=
  let endPosition := position + count
  let deletions := s.ed.segments.filterMap (fun seg =>
    let overlapStart := max position seg.startPos
    let overlapEnd := min endPosition seg.endPos
    if overlapStart < overlapEnd then
      some { nodeId := seg.nodeId, startOffset := overlapStart - seg.startPos,
             endOffset := overlapEnd - seg.startPos : Deletion }
    else none)
  deletions.foldl (fun st del =>
    match lookupNode st.tree.nodes del.nodeId with
    | none => st
    | some node =>
      let ntext := normalizeText node.text
      let newText := ntext.take del.startOffset ++ ntext.drop del.endOffset
      let st1 := setNodes st (updateNode st.tree.nodes node.id
        (fun n => { n with text := newText }))
      if newText.isEmpty then maybeRemoveEmptyNode st1 node.id else st1) s

/-- tree-view.js `handleBranchingEdit(position, deleteCount, insertText)`:
split the tree at the selection start, keep the selected text reachable on a
hidden branch, continue the visible path with the remainder (and the typed
text, if any), possibly converging both branches on the continuation node. -/
def handleBranchingEdit (s : St) (position deleteCount : Nat)
    (insertText : List Char) : St :=
  let s := markStructureChanged s
  match findSegmentAtPosition s.ed.segments position with
  | none =>
    if !insertText.isEmpty then
      let rid := s.nextId
      let root := createNode rid [] insertText NType.human none
      let s2 := { s with
        tree := { s.tree with nodes := s.tree.nodes ++ [root] },
        nextId := s.nextId + 1 }
      updateSelectedNode s2 (some rid)
    else s
  | some segment =>
    match lookupNode s.tree.nodes segment.nodeId with
    | none =>
      if !insertText.isEmpty then
        let rid := s.nextId
        let root := createNode rid [] insertText NType.human none
        let s2 := { s with
          tree := { s.tree with nodes := s.tree.nodes ++ [root] },
          nextId := s.nextId + 1 }
        updateSelectedNode s2 (some rid)
      else s
    | some node =>
      let endPosition := position + deleteCount
      let endSegment := findSegmentAtPosition s.ed.segments
        (if 0 < endPosition then endPosition - 1 else 0)
      let remainder0 : List Char :=
        match endSegment with
        | some es =>
          if 0 < deleteCount then
            let endOffsetInSeg := endPosition - es.startPos
            if endOffsetInSeg < es.text.length then es.text.drop endOffsetInSeg
            else []
          else []
        | none => []
      let ntext := normalizeText node.text
      let nodesN := updateNode s.tree.nodes node.id (fun n => { n with text := ntext })
      let offsetInNode := position - segment.startPos
      let deleteCountInNode := min deleteCount (ntext.length - offsetInNode)
      -- stage 1: split at the selection start
      let stage :
          List Node × Option Nat × List Node × Option Nat × List Char × Nat :=
        -- (nodes, branchPointId, existingChildren, hiddenNodeId, remainderText, nextId)
        if 0 < offsetInNode then
          let textBefore := ntext.take offsetInNode
          let selectedText := (ntext.take (offsetInNode + deleteCountInNode)).drop offsetInNode
          let textAfterSelection := ntext.drop (offsetInNode + deleteCountInNode)
          let nodes1 := updateNode nodesN node.id (fun n => { n with text := textBefore })
          let existingChildren := getChildren nodes1 node.id
          let (nodes2, hiddenNodeId, nid2) :=
            if !selectedText.isEmpty then
              let hidId := s.nextId
              let hiddenNode0 := createNode hidId [node.id] selectedText node.ntype node.model
              let hiddenNode := { hiddenNode0 with splitFrom := some node.id }
              (nodes1 ++ [hiddenNode], some hidId, s.nextId + 1)
            else (nodes1, none, s.nextId)
          let remainderText := if !textAfterSelection.isEmpty then textAfterSelection else remainder0
          (nodes2, some node.id, existingChildren, hiddenNodeId, remainderText, nid2)
        else
          let existingChildren := getChildren nodesN node.id
          let pids := getParentIds node
          let (nodes1, branchPointId, nid1) :=
            if !pids.isEmpty then
              (nodesN, (lookupNode nodesN (pids.headD 0)).map (fun p => p.id), s.nextId)
            else
              let erId := s.nextId
              let emptyRoot := createNode erId [] [] NType.human none
              let nodesA := nodesN ++ [emptyRoot]
              let nodesB := updateNode nodesA node.id (fun n => { n with parent_ids := [erId] })
              (nodesB, some erId, s.nextId + 1)
          let selectedTextInNode := ntext.take deleteCountInNode
          let textAfterSelection := ntext.drop deleteCountInNode
          if !textAfterSelection.isEmpty then
            let nodes2 := updateNode nodes1 node.id
              (fun n => { n with text := selectedTextInNode })
            (nodes2, branchPointId, existingChildren, some node.id, textAfterSelection, nid1)
          else
            (nodes1, branchPointId, existingChildren, none, remainder0, nid1)
      match stage with
      | (nodesS, branchPointId, existingChildren, hiddenNodeId, remainderText, nidS) =>
        -- stage 2: rebuild the visible path
        let sS := { s with
          tree := { s.tree with nodes := nodesS }, nextId := nidS }
        if !insertText.isEmpty && branchPointId.isSome then
          let bp := branchPointId.getD 0
          let humanId := sS.nextId
          let humanNode := createNode humanId [bp] insertText NType.human none
          let nodesH := sS.tree.nodes ++ [humanNode]
          let sH := { sS with
            tree := { sS.tree with nodes := nodesH }, nextId := sS.nextId + 1 }
          if !remainderText.isEmpty then
            let aiId := sH.nextId
            let aiNode0 := createNode aiId [humanId] remainderText NType.ai node.model
            let aiNode :=
              match hiddenNodeId with
              | some hid => { aiNode0 with parent_ids := [humanId, hid] }
              | none => aiNode0
            let nodesA := sH.tree.nodes ++ [aiNode]
            let nodesB := existingChildren.foldl (fun acc c =>
              updateNode acc c.id (fun n => { n with parent_ids := [aiId] })) nodesA
            let sA := { sH with
              tree := { sH.tree with nodes := nodesB }, nextId := sH.nextId + 1 }
            let originalSelectedId := s.tree.selected_node_id
            let keepOriginal :=
              match originalSelectedId with
              | some orig =>
                orig != node.id &&
                existingChildren.any (fun child =>
                  child.id == orig ||
                  (getDescendants sA.tree.nodes sA.tree.nodes.length child.id).any
                    (fun d => d.id == orig))
              | none => false
            let newSelectedId := if keepOriginal then originalSelectedId.getD 0 else aiId
            let sB := { sA with ed := { sA.ed with
              cursorNodeId := some humanId, inlineEditNodeId := some humanId } }
            updateSelectedNode sB (some newSelectedId)
          else
            updateSelectedNode sH (some humanId)
        else if !remainderText.isEmpty && branchPointId.isSome then
          let bp := branchPointId.getD 0
          let aiId := sS.nextId
          let aiNode0 := createNode aiId [bp] remainderText NType.ai node.model
          let aiNode :=
            match hiddenNodeId with
            | some hid => { aiNode0 with parent_ids := [bp, hid] }
            | none => aiNode0
          let nodesA := sS.tree.nodes ++ [aiNode]
          let nodesB := existingChildren.foldl (fun acc c =>
            updateNode acc c.id (fun n => { n with parent_ids := [aiId] })) nodesA
          let sA := { sS with
            tree := { sS.tree with nodes := nodesB }, nextId := sS.nextId + 1 }
          updateSelectedNode sA (some aiId)
        else
          match branchPointId with
          | some bp =>
            -- pure split, selection reaches the end of the document
            let bpText :=
              match lookupNode sS.tree.nodes bp with
              | some bpNode => jsTrim bpNode.text
              | none => []
            if bpText.isEmpty then
              match getChildren sS.tree.nodes bp with
              | c :: _ => updateSelectedNode sS (some c.id)
              | [] => updateSelectedNode sS (some bp)
            else updateSelectedNode sS (some bp)
          | none => sS

/-- The edit description produced by `findChanges`. -/
inductive Changes where
  | cnone
  | insert (start : Nat) (text : List Char)
  | delete (start : Nat) (count : Nat)
  | replace (start : Nat) (deleteCount : Nat) (insertText : List Char)
deriving DecidableEq, Repr

/-- tree-view.js `applyChangesToTree(changes, oldText, newText)` (the two text
arguments are only read by logging code). -/
def applyChangesToTree (s : St) (changes : Changes) : St :=
  let selectedNode :=
    match s.tree.selected_node_id with
    | some sid => lookupNode s.tree.nodes sid
    | none => none
  match selectedNode, changes with
  | none, Changes.insert _ text =>
    let s1 := markStructureChanged (exitLiveSplitMode s)
    let rid := s1.nextId
    let root := createNode rid [] text NType.human none
    let s2 := { s1 with
      tree := { s1.tree with nodes := s1.tree.nodes ++ [root] },
      nextId := s1.nextId + 1 }
    let s3 := updateSelectedNode s2 (some rid)
    refreshSegments s3
  | none, _ => s
  | some _, _ =>
    let segment := findSegmentAtPosition s.ed.segments (Changes.start changes)
    let nodeOpt :=
      match segment with
      | some sg => lookupNode s.tree.nodes sg.nodeId
      | none => none
    let needsLiveSplit :=
      match nodeOpt with
      | some node =>
        node.ntype == NType.ai ||
        (node.ntype == NType.human &&
          !(getChildren s.tree.nodes node.id).isEmpty)
      | none => false
    match changes with
    | Changes.cnone => refreshSegments s
    | Changes.insert start text =>
      refreshSegments (handleInsert (exitLiveSplitMode s) start text)
    | Changes.delete start count =>
      let attempt :=
        if count == 1 && needsLiveSplit then
          handleLiveSplitBackspace s (start + count)
        else (false, s)
      if attempt.fst then refreshSegments attempt.snd
      else
        let s1 := exitLiveSplitMode s
        let deleteEnd := start + count
        let totalLen := segmentsTotalLen s1.ed.segments
        let isSelectAll := start == 0 && decide (totalLen ≤ deleteEnd)
        let spansMultipleNodes := s1.ed.segments.enum.any (fun pr =>
          let startsInSeg := decide (pr.snd.startPos ≤ start) && decide (start < pr.snd.endPos)
          let endsInDiffSeg := s1.ed.segments.enum.any (fun pr2 =>
            pr2.fst != pr.fst && decide (pr2.snd.startPos < deleteEnd) &&
              decide (deleteEnd ≤ pr2.snd.endPos))
          startsInSeg && endsInDiffSeg)
        let wouldEmptyOneNode :=
          match segment, nodeOpt with
          | some sg, some _ => start == sg.startPos && deleteEnd == sg.endPos
          | _, _ => false
        let nodeParentIds :=
          match nodeOpt with
          | some node => getParentIds node
          | none => []
        let nodeHasParent := !nodeParentIds.isEmpty
        let isSelectionDelete := decide (1 < count)
        let fullNodeWithParent := wouldEmptyOneNode && nodeHasParent && isSelectionDelete
        let isAIBridge :=
          match nodeOpt with
          | some node =>
            if fullNodeWithParent && node.ntype == NType.human then
              match lookupNode s1.tree.nodes (nodeParentIds.headD 0) with
              | some parent =>
                parent.ntype == NType.ai &&
                (getChildren s1.tree.nodes node.id).any (fun c => c.ntype == NType.ai)
              | none => false
            else false
          | none => false
        let nodeIsAI :=
          match nodeOpt with
          | some node => node.ntype == NType.ai
          | none => false
        let shouldBranch := !isSelectAll && !isAIBridge &&
          (nodeIsAI || spansMultipleNodes || fullNodeWithParent)
        if isSelectAll then
          let s2 := updateSelectedNode (setNodes s1 []) none
          refreshSegments (markStructureChanged s2)
        else if shouldBranch then
          refreshSegments (handleBranchingEdit s1 start count [])
        else
          refreshSegments (handleDestructiveDelete s1 start count)
    | Changes.replace start deleteCount insertText =>
      let s1 := exitLiveSplitMode s
      let totalLen := segmentsTotalLen s1.ed.segments
      let isSelectAllReplace := start == 0 && decide (totalLen ≤ deleteCount)
      if isSelectAllReplace then
        let s2 := markStructureChanged (setNodes s1 [])
        let rid := s2.nextId
        let root := createNode rid [] insertText NType.human none
        let s3 := { s2 with
          tree := { s2.tree with nodes := s2.tree.nodes ++ [root] },
          nextId := s2.nextId + 1 }
        refreshSegments (updateSelectedNode s3 (some rid))
      else
        let nodeIsAI :=
          match nodeOpt with
          | some node => node.ntype == NType.ai
          | none => false
        if nodeIsAI then
          refreshSegments (handleBranchingEdit s1 start deleteCount insertText)
        else
          let s2 := refreshSegments (handleDestructiveDelete s1 start deleteCount)
          refreshSegments (handleInsert s2 start insertText)
where
  /-- `changes.start` (0 for `none`, matching JS `undefined` coerced reads
  never occurring because the `none` case returns earlier). -/
  Changes.start : Changes → Nat
    | Changes.cnone => 0
    | Changes.insert st _ => st
    | Changes.delete st _ => st
    | Changes.replace st _ _ => st

/-! ### Undo/redo (tree-view.js `pushUndoState`, `undo`, `redo`)

Snapshots are `JSON.stringify(appState.tree)` deep copies; the model keeps
the `TreeState` value itself (value equality is exactly deep equality).
The JS arrays push/pop at the end, so the last list element is the top. -/

def MAX_UNDO_STATES : Nat := 50

structure Hist where
  undoStack : List TreeState
  redoStack : List TreeState
  tree : TreeState
deriving DecidableEq, Repr

/-- `pushUndoState`: snapshot the tree (skipping duplicates of the top),
bound the depth by dropping the oldest, clear the redo stack. -/
def pushUndoState (h : Hist) : Hist :=
  if !h.undoStack.isEmpty && h.undoStack.getLast? == some h.tree then h
  else
    let u1 := h.undoStack ++ [h.tree]
    let u2 := if MAX_UNDO_STATES < u1.length then u1.drop 1 else u1
    { h with undoStack := u2, redoStack := [] }

/-- `undo`: push the live tree onto redo, restore the top undo snapshot. -/
def undo (h : Hist) : Hist :=
  if h.undoStack.isEmpty then h
  else
    { undoStack := h.undoStack.dropLast,
      redoStack := h.redoStack ++ [h.tree],
      tree := (h.undoStack.getLast?).getD h.tree }

/-- `redo`: push the live tree onto undo, restore the top redo snapshot. -/
def redo (h : Hist) : Hist :=
  if h.redoStack.isEmpty then h
  else
    { undoStack := h.undoStack ++ [h.tree],
      redoStack := h.redoStack.dropLast,
      tree := (h.redoStack.getLast?).getD h.tree }

/-- A user-initiated mutation as performed by the event handlers: snapshot
first (`pushUndoState`), then replace the live tree. -/
def userMutation (f : TreeState → TreeState) (h : Hist) : Hist :=
  let h1 := pushUndoState h
  { h1 with tree := f h1.tree }

/-! ### Diff engine (`findChanges`, identical in tree-view.js and editor.js) -/

/-- Length of the longest common prefix (the first `while` loop). -/
def commonPrefixLen : List Char → List Char → Nat
  | a :: as, b :: bs => if a == b then commonPrefixLen as bs + 1 else 0
  | _, _ => 0

/-- Matching length from the front of two lists, capped at `bound`
(used on the reversed lists for the suffix `while` loop, whose guards
`oldSuffixStart > prefixLen && newSuffixStart > prefixLen` are the cap). -/
def commonPrefixLenB : List Char → List Char → Nat → Nat
  | a :: as, b :: bs, bound + 1 => if a == b then commonPrefixLenB as bs bound + 1 else 0
  | _, _, _ => 0

/-- `findChanges(oldText, newText)`: trim the common prefix and suffix; the
region between classifies the edit. -/
def findChanges (oldText newText : List Char) : Changes :=
  if oldText == newText then Changes.cnone
  else
    let p := commonPrefixLen oldText newText
    let k := commonPrefixLenB oldText.reverse newText.reverse
      (min (oldText.length - p) (newText.length - p))
    let oldSuffixStart := oldText.length - k
    let newSuffixStart := newText.length - k
    let deletedText := (oldText.take oldSuffixStart).drop p
    let insertedText := (newText.take newSuffixStart).drop p
    if !deletedText.isEmpty && !insertedText.isEmpty then
      Changes.replace p deletedText.length insertedText
    else if !insertedText.isEmpty then
      Changes.insert p insertedText
    else if !deletedText.isEmpty then
      Changes.delete p deletedText.length
    else Changes.cnone

/-! ### Persistence boundary (`importTree` in tree.js, `loadTree` in the app
bootstrap file) -/

/-- The parsed `tree.nodes` field of a stored document.  `jobj` is a proper
node map.  (JSON arrays are also `typeof 'object'` in JS and enumerate their
elements under `Object.values`, so they are subsumed by `jobj`.) -/
inductive NodesField where
  | jnull
  | jundef
  | jbool (b : Bool)
  | jnum (n : Int)
  | jstr (sv : List Char)
  | jobj (nodes : List Node)
deriving DecidableEq, Repr

/-- A parsed stored document `{ nodes, selected_node_id, selected_path }`;
the selection fields may be absent. -/
structure RawDoc where
  nodesField : NodesField
  selected_node_id : Option Nat
  selected_path : Option (List Nat)
deriving DecidableEq, Repr

/-- JS truthiness of the `nodes` field. -/
def nodesFieldTruthy : NodesField → Bool
  | NodesField.jnull => false
  | NodesField.jundef => false
  | NodesField.jbool b => b
  | NodesField.jnum n => decide (n ≠ 0)
  | NodesField.jstr sv => !sv.isEmpty
  | NodesField.jobj _ => true

/-- `typeof tree.nodes === 'object'` (true for `null` and objects). -/
def nodesFieldTypeofObject : NodesField → Bool
  | NodesField.jnull => true
  | NodesField.jobj _ => true
  | _ => false

/-- tree.js `importTree` after JSON parsing: reject unless the `nodes` field
is truthy and of object type, otherwise return the document unchanged. -/
def importTree (d : RawDoc) : Except Unit RawDoc :=
  if nodesFieldTruthy d.nodesField && nodesFieldTypeofObject d.nodesField then
    Except.ok d
  else Except.error ()

/-- `loadTree` (app bootstrap): adopt a saved document if its node map passes
the `importTree`-style check; if the adopted map has nodes but no root, clear
it entirely; repair a dangling selection (falling back to the pre-clear
root); recompute the selected path. -/
def loadTree (cur : TreeState) (saved : Option RawDoc) : TreeState :=
  match saved with
  | none => cur
  | some d =>
    match d.nodesField with
    | NodesField.jobj nodes =>
      let rootOpt := findRoot nodes
      let (nodes1, sel1, path1) :=
        if rootOpt.isNone && !nodes.isEmpty then
          (([] : List Node), (none : Option Nat), ([] : List Nat))
        else (nodes, d.selected_node_id, d.selected_path.getD [])
      let sel2 :=
        match sel1 with
        | some sid => if hasNode nodes1 sid then some sid else rootOpt.map (fun (r : Node) => r.id)
        | none => rootOpt.map (fun (r : Node) => r.id)
      match sel2 with
      | some sid =>
        let p := getPathToNode nodes1 sid path1
        { nodes := nodes1, selected_node_id := some sid,
          selected_path := p.map (fun (n : Node) => n.id) }
      | none =>
        { nodes := nodes1, selected_node_id := none, selected_path := path1 }
    | _ => cur

/-- Splicing an edit description into the old text: delete the described span
and insert the described text at `start` (the claim's splice semantics). -/
def spliceEdit (o : List Char) : Changes → List Char
  | Changes.cnone => o
  | Changes.insert st t => o.take st ++ t ++ o.drop st
  | Changes.delete st c => o.take st ++ o.drop (st + c)
  | Changes.replace st dc it => o.take st ++ it ++ o.drop (st + dc)

/-! ## Concrete states used by the witness theorems -/

/-- The editor state at startup (live-split `Idle`, no segments). -/
def emptyEditorState : EditorState :=
  { segments := [], liveSplitMode := false, liveSplitNodeId := none,
    liveSplitHiddenId := none, cursorNodeId := none, inlineEditNodeId := none,
    structureChanged := false }

/-- A node with only the claim-relevant fields set. -/
def mkNode (i : Nat) (ps : List Nat) (t : List Char) (ty : NType) : Node :=
  { id := i, parent_ids := ps, text := t, ntype := ty, model := none,
    splitFrom := none }

/-- An engine state over `nodes` with `sel` selected via `path`, segments
freshly derived. -/
def mkSt (nodes : List Node) (sel : Option Nat) (path : List Nat) : St :=
  refreshSegments
    { tree := { nodes := nodes, selected_node_id := sel, selected_path := path },
      ed := emptyEditorState, nextId := 100 }

/-- Witness graph: Human root "ab" with an AI child "cd"; the child is
selected. -/
def w2St : St :=
  mkSt [mkNode 0 [] ['a', 'b'] NType.human, mkNode 1 [0] ['c', 'd'] NType.ai]
    (some 1) [0, 1]

/-! ## Graph invariants and path-walk specification vocabulary -/

/-- Every parent reference resolves to a node in the map (the spec's
well-formedness assumption for traversals). -/
def Closed (nodes : List Node) : Prop :=
  ∀ n ∈ nodes, ∀ p ∈ n.parent_ids, hasNode nodes p = true

/-- A rank function witnessing acyclicity: every parent ranks strictly below
its child.  A graph admitting such a rank has no node that is its own
ancestor. -/
def RankedBy (nodes : List Node) (r : Nat → Rat) : Prop :=
  ∀ n ∈ nodes, ∀ p ∈ n.parent_ids, r p < r n.id

instance (nodes : List Node) : Decidable (Closed nodes) := by
  unfold Closed; infer_instance

instance (nodes : List Node) (r : Nat → Rat) : Decidable (RankedBy nodes r) := by
  unfold RankedBy; infer_instance

/-- Number of nodes ranking strictly below `c`: the termination measure of
the `getPathToNode` walk. -/
def rankMeasure (nodes : List Node) (r : Nat → Rat) (c : Node) : Nat :=
  (nodes.filter (fun m => decide (r m.id < r c.id))).length

/-- The path returned by `getPathToNode` is linked: each element is the
parent the walk chooses for the next one (`hint` member if any, else the
first parent). -/
def consecChain (nodes : List Node) (hint : List Nat) : List Node → Prop
  | a :: b :: rest =>
    lookupNode nodes (chooseParentId hint b.parent_ids) = some a ∧
    b.parent_ids ≠ [] ∧ consecChain nodes hint (b :: rest)
  | _ => True

/-- Witness graph for the path resolver: node 2 is a convergence node with
parents 0 and 1. -/
def w9nodes : List Node :=
  [mkNode 0 [] ['a'] NType.human, mkNode 1 [0] ['b'] NType.ai,
   mkNode 2 [0, 1] ['c'] NType.ai]

/-- Witness state for the root-promotion claim: an (emptied) human root with
two AI children; the selection path reaches child 2. -/
def w7St : St :=
  mkSt [mkNode 0 [] [] NType.human, mkNode 1 [0] ['a'] NType.ai,
    mkNode 2 [0] ['b'] NType.ai] (some 2) [0, 2]

/-- Witness documents for the persistence boundary. -/
def w8cur : TreeState := { nodes := [], selected_node_id := none, selected_path := [] }

/-- A stored document whose only node is its own parent: a node map with no
root node. -/
def w8noRootDoc : RawDoc :=
  { nodesField := NodesField.jobj [mkNode 0 [0] ['x'] NType.human],
    selected_node_id := some 0, selected_path := none }

/-- A well-formed stored document with a root, a valid selection and a
missing selected path. -/
def w8goodDoc : RawDoc :=
  { nodesField := NodesField.jobj
      [mkNode 0 [] ['x'] NType.human, mkNode 1 [0] ['y'] NType.ai],
    selected_node_id := some 1, selected_path := none }

/-- A lone selected AI root with text `t`. -/
def c1Base (t : List Char) : St := mkSt [mkNode 0 [] t NType.ai] (some 0) [0]

/-- One backspace handled by the live-split handler at position `pos`,
followed by the segment refresh of the render cycle. -/
def bsAt (s : St) (pos : Nat) : St :=
  refreshSegments (handleLiveSplitBackspace s pos).snd

/-- A sequence of backspaces at the given positions. -/
def bsSeq (ps : List Nat) (s : St) : St := ps.foldl bsAt s

/-- The position lands exactly at the end of the rendered text of node `nid`
in the current segments. -/
def EndOfNode (nid : Nat) (s : St) (pos : Nat) : Prop :=
  ∃ seg node, findSegmentAtPosition s.ed.segments pos = some seg ∧
    seg.nodeId = nid ∧ lookupNode s.tree.nodes nid = some node ∧
    pos - seg.startPos = (normalizeText node.text).length

/-- The live-split shrink invariant: the visible node holds the first `m`
characters of the pre-edit text `t`, the hidden child `hid` holds the removed
suffix with `nid` as sole parent, live-split mode is active on the pair, and
the id allocator sits at `b`. -/
def ShrinkState (nid hid : Nat) (node0 : Node) (t : List Char) (m : Nat)
    (b : Nat) (s : St) : Prop :=
  lookupNode s.tree.nodes nid = some { node0 with text := t.take m } ∧
  (∃ hn : Node, lookupNode s.tree.nodes hid = some hn ∧
    hn.text = t.drop m ∧ hn.parent_ids = [nid] ∧ hn.ntype = node0.ntype) ∧
  s.ed.liveSplitMode = true ∧
  s.ed.liveSplitNodeId = some nid ∧
  s.ed.liveSplitHiddenId = some hid ∧
  s.nextId = b

/-- Counterexample state for the no-silent-loss claim: a lone selected AI
root whose text begins with a whitespace character. -/
def c1ws : St := mkSt [mkNode 0 [] [' ', 'a'] NType.ai] (some 0) [0]

/-! ## Acyclicity invariant vocabulary -/

/-- Every node id and every parent reference lies below the id allocator:
nodes added by a mutation reference only previously allocated ids. -/
def Bounded (nodes : List Node) (b : Nat) : Prop :=
  ∀ n ∈ nodes, n.id < b ∧ ∀ p ∈ n.parent_ids, p < b

/-- A well-formed node map: allocator-bounded and acyclic (rank witness). -/
def GoodNodes (nodes : List Node) (b : Nat) : Prop :=
  Bounded nodes b ∧ ∃ r : Nat → Rat, RankedBy nodes r

/-- The full engine invariant: the node map is allocator-bounded and ranked,
live-split bookkeeping is cleared whenever live-split mode is off, and the
live-split hidden node (if any) ranks strictly above the live-split node. -/
def StInv (s : St) : Prop :=
  Bounded s.tree.nodes s.nextId ∧
  (s.ed.liveSplitMode = false →
    s.ed.liveSplitNodeId = none ∧ s.ed.liveSplitHiddenId = none) ∧
  ∃ r : Nat → Rat, RankedBy s.tree.nodes r ∧
    (∀ i j, s.ed.liveSplitNodeId = some i → s.ed.liveSplitHiddenId = some j →
      r i < r j)

/-- The invariant in the regime where live-split bookkeeping is cleared (all
mutations except the live-split backspace run here). -/
def GoodA (s : St) : Prop :=
  Bounded s.tree.nodes s.nextId ∧
  s.ed.liveSplitNodeId = none ∧ s.ed.liveSplitHiddenId = none ∧
  ∃ r : Nat → Rat, RankedBy s.tree.nodes r

/-- `a` is a parent of the node with id `b`. -/
def Edge (nodes : List Node) (a b : Nat) : Prop :=
  ∃ n ∈ nodes, n.id = b ∧ a ∈ n.parent_ids

/-- Override a rank function at one id (used to rank freshly created
nodes). -/
def rext (r : Nat → Rat) (i : Nat) (v : Rat) : Nat → Rat :=
  fun j => if j = i then v else r j

/-- Minimum of a rank list with default (the promotion ceiling for nodes
spliced in below a node's children). -/
def listMinD : List Rat → Rat → Rat
  | [], d => d
  | x :: xs, d => min x (listMinD xs d)

/-- Maximum of a rank list with default (the floor for a fresh leaf ranked
above all its parents). -/
def listMaxD : List Rat → Rat → Rat
  | [], d => d
  | x :: xs, d => max x (listMaxD xs d)

/-- One classifier edit after another: the §4.3 operation sequences. -/
def applySeq (chs : List Changes) (s : St) : St :=
  chs.foldl applyChangesToTree s

/-- Counterexample state for recombination: AI parent (0, text a), Human
bridge (1, text x), AI continuation (2, text c, splitFrom 0); the bridge is
the selected node. -/
def c4A : Node := mkNode 0 [] ['a'] NType.ai
def c4B : Node := mkNode 1 [0] ['x'] NType.human
def c4C : Node := { mkNode 2 [1] ['c'] NType.ai with splitFrom := some 0 }
def c4St : St := mkSt [c4A, c4B, c4C] (some 1) [0, 1]

/-! ## Helper lemmas for the diff engine -/

theorem commonPrefixLen_le_left : ∀ a b : List Char, commonPrefixLen a b ≤ a.length
  | [], _ => by simp [commonPrefixLen]
  | _ :: _, [] => by simp [commonPrefixLen]
  | x :: xs, y :: ys => by
    simp only [commonPrefixLen]
    split
    · simpa using commonPrefixLen_le_left xs ys
    · simp

theorem commonPrefixLen_le_right : ∀ a b : List Char, commonPrefixLen a b ≤ b.length
  | [], _ => by simp [commonPrefixLen]
  | _ :: _, [] => by simp [commonPrefixLen]
  | x :: xs, y :: ys => by
    simp only [commonPrefixLen]
    split
    · simpa using commonPrefixLen_le_right xs ys
    · simp

theorem take_commonPrefixLen_eq : ∀ a b : List Char,
    a.take (commonPrefixLen a b) = b.take (commonPrefixLen a b)
  | [], b => by simp [commonPrefixLen]
  | _ :: _, [] => by simp [commonPrefixLen]
  | x :: xs, y :: ys => by
    simp only [commonPrefixLen]
    split
    · next h =>
      simp [List.take_succ_cons, take_commonPrefixLen_eq xs ys, eq_of_beq h]
    · simp

theorem commonPrefixLenB_le_bound : ∀ (a b : List Char) (bound : Nat),
    commonPrefixLenB a b bound ≤ bound
  | [], _, _ => by simp [commonPrefixLenB]
  | _ :: _, [], _ => by simp [commonPrefixLenB]
  | _ :: _, _ :: _, 0 => by simp [commonPrefixLenB]
  | x :: xs, y :: ys, bound + 1 => by
    simp only [commonPrefixLenB]
    split
    · simpa using commonPrefixLenB_le_bound xs ys bound
    · simp

theorem take_commonPrefixLenB_eq : ∀ (a b : List Char) (bound : Nat),
    a.take (commonPrefixLenB a b bound) = b.take (commonPrefixLenB a b bound)
  | [], b, _ => by simp [commonPrefixLenB]
  | _ :: _, [], _ => by simp [commonPrefixLenB]
  | _ :: _, _ :: _, 0 => by simp [commonPrefixLenB]
  | x :: xs, y :: ys, bound + 1 => by
    simp only [commonPrefixLenB]
    split
    · next h =>
      simp [List.take_succ_cons, take_commonPrefixLenB_eq xs ys bound, eq_of_beq h]
    · simp

theorem drop_len_sub_eq_reverse (l : List Char) (k : Nat) :
    l.drop (l.length - k) = (l.reverse.take k).reverse := by
  have h := @List.reverse_take Char l.reverse k
  rw [List.reverse_reverse, List.length_reverse] at h
  exact h.symm

theorem suffix_drop_eq (o n : List Char) (k : Nat)
    (h : o.reverse.take k = n.reverse.take k) :
    o.drop (o.length - k) = n.drop (n.length - k) := by
  rw [drop_len_sub_eq_reverse, drop_len_sub_eq_reverse, h]

theorem decompose_take (l : List Char) (p m : Nat) (hpm : p ≤ m) :
    l.take m = l.take p ++ (l.take m).drop p := by
  conv_lhs => rw [← List.take_append_drop p (l.take m)]
  rw [List.take_take, Nat.min_eq_left hpm]

/-- C10: `findChanges(oldText, newText)` returns `{type:'none'}` exactly when
the two texts are equal, and otherwise an edit description whose splice into
the old text (delete the described span, insert the described text at its
start) yields exactly the new text. -/
theorem C10_findChanges_none_iff_and_splice (o n : List Char) :
    (findChanges o n = Changes.cnone ↔ o = n) ∧ spliceEdit o (findChanges o n) = n := by
  by_cases heq : o = n
  · subst heq; simp [findChanges, spliceEdit]
  · have hne : (o == n) = false := by simp [heq]
    unfold findChanges
    rw [hne]
    simp only [Bool.false_eq_true, if_false]
    set p := commonPrefixLen o n with hp
    set k := commonPrefixLenB o.reverse n.reverse (min (o.length - p) (n.length - p)) with hkdef
    set oldS := o.length - k with holdS
    set newS := n.length - k with hnewS
    have hkb : k ≤ min (o.length - p) (n.length - p) :=
      commonPrefixLenB_le_bound _ _ _
    have hpo : p ≤ o.length := commonPrefixLen_le_left o n
    have hpn : p ≤ n.length := commonPrefixLen_le_right o n
    have hko : k ≤ o.length - p := le_trans hkb (Nat.min_le_left _ _)
    have hkn : k ≤ n.length - p := le_trans hkb (Nat.min_le_right _ _)
    have hpoldS : p ≤ oldS := by omega
    have hpnewS : p ≤ newS := by omega
    have hsfx : o.drop oldS = n.drop newS :=
      suffix_drop_eq o n k (take_commonPrefixLenB_eq _ _ _)
    have hpfx : o.take p = n.take p := take_commonPrefixLen_eq o n
    set deletedText := (o.take oldS).drop p with hdel
    set insertedText := (n.take newS).drop p with hins
    have hdlen : deletedText.length = oldS - p := by
      rw [hdel]; simp [List.length_drop, List.length_take]; omega
    have hilen : insertedText.length = newS - p := by
      rw [hins]; simp [List.length_drop, List.length_take]; omega
    have hodec : o = (o.take p ++ deletedText) ++ o.drop oldS := by
      rw [← decompose_take o p oldS hpoldS, List.take_append_drop]
    have hndec : n = (n.take p ++ insertedText) ++ n.drop newS := by
      rw [← decompose_take n p newS hpnewS, List.take_append_drop]
    cases hde : deletedText.isEmpty with
    | true =>
      cases hie : insertedText.isEmpty with
      | true =>
        exfalso
        apply heq
        rw [List.isEmpty_iff] at hde hie
        rw [hodec, hndec, hde, hie, hpfx, hsfx]
      | false =>
        simp only [hde, hie, Bool.not_true, Bool.not_false, Bool.false_and,
          Bool.false_eq_true, if_false, if_true]
        refine ⟨⟨fun hc => Changes.noConfusion hc, fun hc => absurd hc heq⟩, ?_⟩
        simp only [spliceEdit]
        rw [List.isEmpty_iff] at hde
        have holdSp : oldS = p := by
          have h := hdlen; rw [hde] at h; simp at h; omega
        have hdp : o.drop p = n.drop newS := by rw [← holdSp]; exact hsfx
        rw [hdp, hpfx]
        exact hndec.symm
    | false =>
      cases hie : insertedText.isEmpty with
      | true =>
        simp only [hde, hie, Bool.not_true, Bool.not_false, Bool.true_and,
          Bool.and_false, Bool.false_eq_true, if_false, if_true]
        refine ⟨⟨fun hc => Changes.noConfusion hc, fun hc => absurd hc heq⟩, ?_⟩
        simp only [spliceEdit]
        rw [List.isEmpty_iff] at hie
        have hnewSp : newS = p := by
          have h := hilen; rw [hie] at h; simp at h; omega
        have hsum : p + deletedText.length = oldS := by omega
        rw [hsum, hsfx, hnewSp, hpfx, List.take_append_drop]
      | false =>
        simp only [hde, hie, Bool.not_true, Bool.not_false, Bool.true_and,
          Bool.and_true, if_true]
        refine ⟨⟨fun hc => Changes.noConfusion hc, fun hc => absurd hc heq⟩, ?_⟩
        simp only [spliceEdit]
        have hsum : p + deletedText.length = oldS := by omega
        rw [hsum, hsfx, hpfx]
        exact hndec.symm

/-! ## Undo/redo helper lemmas -/

theorem pushUndoState_undoStack_ne (h : Hist) : (pushUndoState h).undoStack ≠ [] := by
  unfold pushUndoState
  split
  · next hcond =>
    simp only [Bool.and_eq_true, Bool.not_eq_true'] at hcond
    simp only [List.isEmpty_eq_false] at hcond
    exact hcond.1
  · simp only
    split
    · next hlen =>
      intro habs
      have h2 := congrArg List.length habs
      have h3 : MAX_UNDO_STATES = 50 := rfl
      rw [h3] at hlen
      simp only [List.length_drop, List.length_nil] at h2
      omega
    · simp

theorem undo_redo_restores (h : Hist) (hne : h.undoStack ≠ []) :
    (redo (undo h)).tree = h.tree := by
  unfold undo
  rw [if_neg (by simpa using hne)]
  unfold redo
  rw [if_neg (by simp)]
  simp

/-- C5: after any user mutation (which snapshots the tree first), `undo()`
followed immediately by `redo()` leaves the live tree (node map plus
selection state) deep-equal to the state that held just before `undo()`. -/
theorem C5_undo_then_redo_restores (h : Hist) (f : TreeState → TreeState) :
    (redo (undo (userMutation f h))).tree = (userMutation f h).tree := by
  apply undo_redo_restores
  show (userMutation f h).undoStack ≠ []
  unfold userMutation
  simpa using pushUndoState_undoStack_ne h

/-! ## Path and segment lemmas -/

theorem lookupNode_mem {nodes : List Node} {i : Nat} {n : Node}
    (h : lookupNode nodes i = some n) : n ∈ nodes :=
  List.mem_of_find?_eq_some h

theorem getPathLoop_mem (nodes : List Node) (hint : List Nat) :
    ∀ (fuel : Nat) (cur : Option Node) (acc : List Node),
    (∀ c, cur = some c → c ∈ nodes) →
    ∀ x ∈ getPathLoop nodes hint fuel cur acc, x ∈ nodes ∨ x ∈ acc := by
  intro fuel
  induction fuel with
  | zero =>
    intro cur acc hcur x hx
    cases cur with
    | none => exact Or.inr hx
    | some c => exact Or.inr hx
  | succ m ih =>
    intro cur acc hcur x hx
    cases cur with
    | none => exact Or.inr hx
    | some c =>
      have hc : c ∈ nodes := hcur c rfl
      simp only [getPathLoop] at hx
      split at hx
      · rcases List.mem_cons.mp hx with h | h
        · exact Or.inl (h ▸ hc)
        · exact Or.inr h
      · rcases ih _ _ (fun d hd => lookupNode_mem hd) x hx with h | h
        · exact Or.inl h
        · rcases List.mem_cons.mp h with h2 | h2
          · exact Or.inl (h2 ▸ hc)
          · exact Or.inr h2

theorem getPathToNode_mem {nodes : List Node} {hint : List Nat} {nodeId : Nat}
    {x : Node} (hx : x ∈ getPathToNode nodes nodeId hint) : x ∈ nodes := by
  rcases getPathLoop_mem nodes hint _ _ [] (fun c hc => lookupNode_mem hc) x hx with h | h
  · exact h
  · cases h

theorem normalizeText_cons_ne (c : Char) (rest : List Char) (hc : c ≠ '\r') :
    normalizeText (c :: rest) = c :: normalizeText rest := by
  rw [normalizeText.eq_def]
  split
  · next h => simp_all
  · next h => simp_all
  · next h => simp_all
  · next h => simp_all

theorem normalizeText_eq_self : ∀ t : List Char, (∀ c ∈ t, c ≠ '\r') → normalizeText t = t
  | [], _ => rfl
  | c :: rest, h => by
    have hc : c ≠ '\r' := h c (List.mem_cons_self _ _)
    rw [normalizeText_cons_ne c rest hc,
      normalizeText_eq_self rest (fun d hd => h d (List.mem_cons_of_mem _ hd))]

theorem buildSegments_text_flatten : ∀ (path : List Node) (pos : Nat),
    (((buildSegments path pos).map (fun sg => sg.text)).flatten : List Char)
      = ((path.map (fun n => normalizeText n.text)).flatten : List Char)
  | [], _ => rfl
  | n :: rest, pos => by
    simp only [buildSegments, List.map_cons, List.flatten_cons]
    split
    · next hemp =>
      rw [List.isEmpty_iff] at hemp
      rw [hemp]
      simpa using buildSegments_text_flatten rest pos
    · simp only [List.map_cons, List.flatten_cons]
      rw [buildSegments_text_flatten rest _]

/-- C2: after re-deriving segments with `refreshSegments`, the concatenation
of the segment texts equals the flat text of the resolved path of the
selected node (the concatenation of the node texts from root to selection),
for every graph whose node texts are line-ending normalised (the data-model
invariant; `refreshSegments` normalises per segment, the flat text does not). -/
theorem C2_refreshSegments_concat_eq_flat_text (s : St) (sel : Nat)
    (hsel : s.tree.selected_node_id = some sel)
    (hnorm : ∀ n ∈ s.tree.nodes, ∀ c ∈ n.text, c ≠ '\r') :
    (((refreshSegments s).ed.segments.map (fun sg => sg.text)).flatten : List Char)
      = ((getPathToNode s.tree.nodes sel s.tree.selected_path).map
          (fun n => n.text)).flatten := by
  unfold refreshSegments
  rw [hsel]
  simp only
  rw [buildSegments_text_flatten]
  congr 1
  apply List.map_congr_left
  intro n hn
  exact normalizeText_eq_self n.text (hnorm n (getPathToNode_mem hn))

/-- Witness for C2 at a concrete two-node graph. -/
theorem C2_witness :
    (((refreshSegments w2St).ed.segments.map (fun sg => sg.text)).flatten : List Char)
      = ((getPathToNode w2St.tree.nodes 1 w2St.tree.selected_path).map
          (fun n => n.text)).flatten :=
  C2_refreshSegments_concat_eq_flat_text w2St 1 (by rfl) (by decide)



/-! ## Path resolver correctness (claim C9 toolkit) -/

theorem filter_length_lt {α : Type} (l : List α) (p q : α → Bool)
    (hpq : ∀ x ∈ l, p x = true → q x = true)
    (y : α) (hy : y ∈ l) (hqy : q y = true) (hpy : p y = false) :
    (l.filter p).length < (l.filter q).length := by
  rw [← List.countP_eq_length_filter, ← List.countP_eq_length_filter]
  induction l with
  | nil => cases hy
  | cons a l ih =>
    rw [List.countP_cons, List.countP_cons]
    rcases List.mem_cons.mp hy with h | h
    · subst h
      rw [hpy, hqy]
      simp only [Bool.false_eq_true, if_false, if_true]
      have hle : List.countP p l ≤ List.countP q l :=
        List.countP_mono_left (fun x hx => hpq x (List.mem_cons_of_mem _ hx))
      omega
    · have ih2 := ih (fun x hx => hpq x (List.mem_cons_of_mem _ hx)) h
      cases hpa : p a with
      | true =>
        have hqa : q a = true := hpq a (List.mem_cons_self _ _) hpa
        rw [hqa]
        simp only [if_true]
        omega
      | false =>
        simp only [Bool.false_eq_true, if_false]
        cases hqa : q a <;> simp only [Bool.false_eq_true, if_false, if_true] <;> omega

theorem chooseParentId_mem (hint : List Nat) (pids : List Nat) (h : pids ≠ []) :
    chooseParentId hint pids ∈ pids := by
  unfold chooseParentId
  split
  · next hp => exact List.mem_of_find?_eq_some hp
  · cases pids with
    | nil => exact absurd rfl h
    | cons a l => exact List.mem_cons_self _ _

theorem lookupNode_id {nodes : List Node} {i : Nat} {n : Node}
    (h : lookupNode nodes i = some n) : n.id = i := by
  have := List.find?_some h
  simpa using this

theorem rankMeasure_le_length (nodes : List Node) (r : Nat → Rat) (c : Node) :
    rankMeasure nodes r c ≤ nodes.length := by
  unfold rankMeasure
  exact List.length_filter_le _ _

theorem pathStep (nodes : List Node) (hint : List Nat) (r : Nat → Rat)
    (hcl : Closed nodes) (hrk : RankedBy nodes r)
    (c : Node) (hc : c ∈ nodes) (hpar : c.parent_ids ≠ []) :
    ∃ p, lookupNode nodes (chooseParentId hint c.parent_ids) = some p ∧ p ∈ nodes ∧
      rankMeasure nodes r p < rankMeasure nodes r c := by
  have hmem := chooseParentId_mem hint c.parent_ids hpar
  have hsome := hcl c hc _ hmem
  rw [hasNode] at hsome
  rcases Option.isSome_iff_exists.mp hsome with ⟨p, hp⟩
  refine ⟨p, hp, lookupNode_mem hp, ?_⟩
  have hpid : p.id = chooseParentId hint c.parent_ids := lookupNode_id hp
  have hrank : r p.id < r c.id := by
    rw [hpid]
    exact hrk c hc _ hmem
  unfold rankMeasure
  apply filter_length_lt nodes _ _ ?_ p (lookupNode_mem hp) ?_ ?_
  · intro x hx hpx
    simp only [decide_eq_true_eq] at hpx ⊢
    exact lt_trans hpx hrank
  · simp only [decide_eq_true_eq]
    exact hrank
  · simp only [decide_eq_false_iff_not]
    exact lt_irrefl _

theorem getPathLoop_spec (nodes : List Node) (hint : List Nat) (r : Nat → Rat)
    (hcl : Closed nodes) (hrk : RankedBy nodes r) :
    ∀ (μc : Nat) (c : Node) (acc : List Node),
      c ∈ nodes → rankMeasure nodes r c = μc →
      ∃ q : List Node, q ≠ [] ∧ q.getLast? = some c ∧
        (∃ hd tl, q = hd :: tl ∧ hd.parent_ids = ([] : List Nat)) ∧
        (∀ fuel2, μc < fuel2 →
          getPathLoop nodes hint fuel2 (some c) acc = q ++ acc) ∧
        (consecChain nodes hint (c :: acc) → consecChain nodes hint (q ++ acc)) := by
  intro μc
  induction μc using Nat.strong_induction_on with
  | _ μc ih =>
    intro c acc hc hμ
    by_cases hpar : c.parent_ids = []
    · refine ⟨[c], by simp, by simp, ⟨c, [], rfl, hpar⟩, ?_, ?_⟩
      · intro fuel2 hf
        cases fuel2 with
        | zero => omega
        | succ m =>
          simp only [getPathLoop]
          rw [if_pos (by simpa using hpar)]
          simp
      · intro hch
        simpa using hch
    · rcases pathStep nodes hint r hcl hrk c hc hpar with ⟨p, hp, hpm, hplt⟩
      rw [hμ] at hplt
      rcases ih _ hplt p (c :: acc) hpm rfl with ⟨q1, hq1ne, hq1last, hq1head, hq1fuel, hq1chain⟩
      refine ⟨q1 ++ [c], by simp, ?_, ?_, ?_, ?_⟩
      · rw [List.getLast?_append]
        simp
      · rcases hq1head with ⟨hd, tl, hqeq, hhd⟩
        exact ⟨hd, tl ++ [c], by rw [hqeq]; simp, hhd⟩
      · intro fuel2 hf
        cases fuel2 with
        | zero => omega
        | succ m =>
          simp only [getPathLoop]
          rw [if_neg (by simpa using hpar), hp]
          rw [hq1fuel m (by omega)]
          simp
      · intro hch
        have : consecChain nodes hint (p :: c :: acc) := ⟨hp, hpar, hch⟩
        have h2 := hq1chain this
        simpa [List.append_assoc] using h2

/-- C9: `getPathToNode` is a pure deterministic resolver: an absent id
gives the empty path; otherwise, on a closed acyclic graph, the result is a
nonempty linked path from a root to the node, choosing at every node the
parent contained in the hint if any, else the first parent; and the walk is
fuel-independent beyond `nodes.length` steps (the `while` loop terminates
even without a hint). -/
theorem C9_getPathToNode_resolver (nodes : List Node) (nodeId : Nat) (hint : List Nat)
    (r : Nat → Rat) (hcl : Closed nodes) (hrk : RankedBy nodes r) :
    (lookupNode nodes nodeId = none → getPathToNode nodes nodeId hint = []) ∧
    (∀ tgt, lookupNode nodes nodeId = some tgt →
      getPathToNode nodes nodeId hint ≠ [] ∧
      (getPathToNode nodes nodeId hint).getLast? = some tgt ∧
      (∃ hd tl, getPathToNode nodes nodeId hint = hd :: tl ∧
        hd.parent_ids = ([] : List Nat)) ∧
      consecChain nodes hint (getPathToNode nodes nodeId hint)) ∧
    (∀ fuel, nodes.length < fuel →
      getPathLoop nodes hint fuel (lookupNode nodes nodeId) [] =
        getPathToNode nodes nodeId hint) := by
  refine ⟨?_, ?_, ?_⟩
  · intro h
    unfold getPathToNode
    rw [h]
    rfl
  · intro tgt h
    rcases getPathLoop_spec nodes hint r hcl hrk (rankMeasure nodes r tgt) tgt []
      (lookupNode_mem h) rfl with ⟨q, hqne, hqlast, hqhead, hqfuel, hqchain⟩
    have hμ : rankMeasure nodes r tgt < nodes.length + 1 :=
      Nat.lt_succ_of_le (rankMeasure_le_length nodes r tgt)
    have hpath : getPathToNode nodes nodeId hint = q := by
      unfold getPathToNode
      rw [h, hqfuel _ hμ]
      simp
    rw [hpath]
    refine ⟨hqne, hqlast, hqhead, ?_⟩
    have := hqchain (by simp [consecChain])
    simpa using this
  · intro fuel hf
    unfold getPathToNode
    cases h : lookupNode nodes nodeId with
    | none =>
      cases fuel with
      | zero => omega
      | succ m => rfl
    | some tgt =>
      rcases getPathLoop_spec nodes hint r hcl hrk (rankMeasure nodes r tgt) tgt []
        (lookupNode_mem h) rfl with ⟨q, hqne, hqlast, hqhead, hqfuel, hqchain⟩
      have hμ1 : rankMeasure nodes r tgt < fuel :=
        lt_of_le_of_lt (rankMeasure_le_length nodes r tgt) hf
      have hμ2 : rankMeasure nodes r tgt < nodes.length + 1 :=
        Nat.lt_succ_of_le (rankMeasure_le_length nodes r tgt)
      rw [hqfuel _ hμ1, hqfuel _ hμ2]

/-- Witness for C9: the convergence node 2 (parents 0 and 1) resolved with
hint `[1]` on a concrete closed acyclic graph. -/
theorem C9_witness :
    getPathToNode w9nodes 2 [1] ≠ [] ∧
    (getPathToNode w9nodes 2 [1]).getLast? = some (mkNode 2 [0, 1] ['c'] NType.ai) ∧
    (∃ hd tl, getPathToNode w9nodes 2 [1] = hd :: tl ∧
      hd.parent_ids = ([] : List Nat)) ∧
    consecChain w9nodes [1] (getPathToNode w9nodes 2 [1]) :=
  (C9_getPathToNode_resolver w9nodes 2 [1] (fun i => (i : Rat))
    (by decide) (by decide)).2.1 (mkNode 2 [0, 1] ['c'] NType.ai) (by decide)

/-! ## Lookup calculus -/

theorem lookup_updateNode_ne (nodes : List Node) (i : Nat) (f : Node → Node)
    (hf : ∀ n, (f n).id = n.id) (j : Nat) (hij : j ≠ i) :
    lookupNode (updateNode nodes i f) j = lookupNode nodes j := by
  induction nodes with
  | nil => rfl
  | cons n rest ih =>
    simp only [updateNode, List.map_cons, lookupNode, List.find?]
    by_cases hni : n.id = i
    · have : ((if (n.id == i) = true then f n else n).id == j) = false := by
        rw [if_pos (by simpa using hni), hf]
        simp [hni, Ne.symm hij, hni ▸ (Ne.symm hij)]
      rw [this]
      have hnj : (n.id == j) = false := by simp [hni, Ne.symm hij]
      rw [hnj]
      exact ih
    · rw [if_neg (by simpa using hni)]
      by_cases hnj : n.id = j
      · simp [hnj]
      · rw [show (n.id == j) = false by simp [hnj]]
        exact ih

theorem lookup_updateNode_self (nodes : List Node) (i : Nat) (f : Node → Node)
    (hf : ∀ n, (f n).id = n.id) :
    lookupNode (updateNode nodes i f) i = (lookupNode nodes i).map f := by
  induction nodes with
  | nil => rfl
  | cons n rest ih =>
    simp only [updateNode, List.map_cons, lookupNode, List.find?]
    by_cases hni : n.id = i
    · rw [if_pos (by simpa using hni)]
      rw [show ((f n).id == i) = true by rw [hf]; simpa using hni]
      rw [show (n.id == i) = true by simpa using hni]
      rfl
    · rw [if_neg (by simpa using hni)]
      rw [show (n.id == i) = false by simpa using hni]
      exact ih

theorem lookup_removeNode_self (nodes : List Node) (i : Nat) :
    lookupNode (removeNode nodes i) i = none := by
  induction nodes with
  | nil => rfl
  | cons n rest ih =>
    simp only [removeNode, List.filter]
    by_cases hni : n.id = i
    · rw [show (n.id != i) = false by simp [hni]]
      exact ih
    · rw [show (n.id != i) = true by simp [hni]]
      simp only [lookupNode, List.find?]
      rw [show (n.id == i) = false by simpa using hni]
      exact ih

theorem lookup_removeNode_ne (nodes : List Node) (i j : Nat) (hij : j ≠ i) :
    lookupNode (removeNode nodes i) j = lookupNode nodes j := by
  induction nodes with
  | nil => rfl
  | cons n rest ih =>
    simp only [removeNode, List.filter]
    by_cases hni : n.id = i
    · rw [show (n.id != i) = false by simp [hni]]
      simp only [lookupNode, List.find?]
      rw [show (n.id == j) = false by simp [hni, Ne.symm hij]]
      exact ih
    · rw [show (n.id != i) = true by simp [hni]]
      simp only [lookupNode, List.find?]
      by_cases hnj : n.id = j
      · simp [hnj]
      · rw [show (n.id == j) = false by simpa using hnj]
        exact ih

theorem lookup_eq_of_mem {nodes : List Node} (hnd : (nodes.map (fun n => n.id)).Nodup)
    {n : Node} (hn : n ∈ nodes) : lookupNode nodes n.id = some n := by
  induction nodes with
  | nil => cases hn
  | cons m rest ih =>
    simp only [List.map_cons, List.nodup_cons] at hnd
    rcases List.mem_cons.mp hn with h | h
    · subst h
      simp [lookupNode, List.find?]
    · simp only [lookupNode, List.find?]
      have hmn : m.id ≠ n.id := by
        intro he
        exact hnd.1 (he ▸ (List.mem_map.mpr ⟨n, h, rfl⟩))
      rw [show (m.id == n.id) = false by simpa using hmn]
      exact ih hnd.2 h

theorem mem_unique_of_nodup {nodes : List Node}
    (hnd : (nodes.map (fun n => n.id)).Nodup)
    {a b : Node} (ha : a ∈ nodes) (hb : b ∈ nodes) (hab : a.id = b.id) : a = b := by
  have h1 := lookup_eq_of_mem hnd ha
  have h2 := lookup_eq_of_mem hnd hb
  rw [hab] at h1
  rw [h1] at h2
  exact Option.some_injective _ h2

theorem lookup_foldl_guardUpdate (cs : List Node) (nodes : List Node)
    (g : Node → Node) (P : Node → Bool) (hg : ∀ n, (g n).id = n.id)
    (hnd : (cs.map (fun c => c.id)).Nodup) (j : Nat) :
    lookupNode (cs.foldl (fun acc c => if P c then updateNode acc c.id g else acc) nodes) j =
      if cs.any (fun c => c.id == j && P c) then (lookupNode nodes j).map g
      else lookupNode nodes j := by
  induction cs generalizing nodes with
  | nil => simp
  | cons c rest ih =>
    simp only [List.map_cons, List.nodup_cons] at hnd
    simp only [List.foldl_cons, List.any_cons]
    by_cases hcj : c.id = j
    · have hrest : rest.any (fun d => d.id == j && P d) = false := by
        rw [List.any_eq_false]
        intro d hd
        have : d.id ≠ j := by
          intro he
          exact hnd.1 (hcj ▸ he ▸ (List.mem_map.mpr ⟨d, hd, rfl⟩))
        simp [this]
      subst hcj
      rw [ih _ hnd.2]
      simp only [hrest, Bool.false_eq_true, if_false, Bool.or_false]
      cases hP : P c with
      | true =>
        simp only [hP, if_true, Bool.and_true, beq_self_eq_true, if_pos]
        exact lookup_updateNode_self nodes c.id g hg
      | false =>
        simp [hP]
    · have hhd : (c.id == j && P c) = false := by
        cases P c <;> simp [hcj]
      rw [ih _ hnd.2]
      simp only [hhd, Bool.false_or]
      cases hP : P c with
      | true =>
        simp only [hP, if_true]
        rw [lookup_updateNode_ne nodes c.id g hg j (Ne.symm hcj)]
      | false =>
        simp

theorem mem_getChildren_iff (nodes : List Node) (i : Nat) (c : Node) :
    c ∈ getChildren nodes i ↔ c ∈ nodes ∧ i ∈ c.parent_ids := by
  simp [getChildren, List.mem_filter]

theorem getChildren_ids_nodup {nodes : List Node}
    (hnd : (nodes.map (fun n => n.id)).Nodup) (i : Nat) :
    ((getChildren nodes i).map (fun c => c.id)).Nodup := by
  apply List.Nodup.sublist _ hnd
  exact List.Sublist.map _ (List.filter_sublist _)

theorem getPathLoop_consec (nodes : List Node) (hint : List Nat) :
    ∀ (fuel : Nat) (cur : Option Node) (acc : List Node),
    (∀ c, cur = some c → consecChain nodes hint (c :: acc)) →
    consecChain nodes hint acc →
    consecChain nodes hint (getPathLoop nodes hint fuel cur acc) := by
  intro fuel
  induction fuel with
  | zero =>
    intro cur acc hcur hacc
    cases cur with
    | none => exact hacc
    | some c => exact hacc
  | succ m ih =>
    intro cur acc hcur hacc
    cases cur with
    | none => exact hacc
    | some c =>
      simp only [getPathLoop]
      split
      · exact hcur c rfl
      · next hpar =>
        apply ih
        · intro p hp
          refine ⟨hp, ?_, hcur c rfl⟩
          simpa using hpar
        · exact hcur c rfl

theorem getPathToNode_consec (nodes : List Node) (nodeId : Nat) (hint : List Nat) :
    consecChain nodes hint (getPathToNode nodes nodeId hint) := by
  unfold getPathToNode
  apply getPathLoop_consec
  · intro c _
    simp [consecChain]
  · simp [consecChain]

/-- C7: a destructive delete that empties the root node promotes a child to
be the new root: when the root has children, the promoted child is the one on
the current selection path (the second element of the resolved path when it
starts at the root) or else the first child; its parent list becomes empty,
every remaining child of the old root is reparented onto it, the old root is
removed and no other node is lost; the selection moves to the promoted node
when it was on the root.  When the root has no children, the whole graph is
cleared and the selection becomes empty. -/
theorem C7_root_emptied_promote_or_clear (s : St) (rootId : Nat) (root : Node)
    (hnd : (s.tree.nodes.map (fun n => n.id)).Nodup)
    (hlk : lookupNode s.tree.nodes rootId = some root)
    (hroot : root.parent_ids = []) :
    (getChildren s.tree.nodes rootId = [] →
      (maybeRemoveEmptyNode s rootId).tree.nodes = [] ∧
      (maybeRemoveEmptyNode s rootId).tree.selected_node_id = none) ∧
    (∀ c0 cs, getChildren s.tree.nodes rootId = c0 :: cs →
      ∃ nr ∈ getChildren s.tree.nodes rootId,
        nr.id = promotedChildId s.tree rootId c0.id ∧
        lookupNode (maybeRemoveEmptyNode s rootId).tree.nodes nr.id
          = some { nr with parent_ids := [] } ∧
        (∀ c ∈ getChildren s.tree.nodes rootId, c.id ≠ nr.id →
          lookupNode (maybeRemoveEmptyNode s rootId).tree.nodes c.id
            = some { c with parent_ids := [nr.id] }) ∧
        lookupNode (maybeRemoveEmptyNode s rootId).tree.nodes rootId = none ∧
        (∀ m ∈ s.tree.nodes, m.id ≠ rootId →
          hasNode (maybeRemoveEmptyNode s rootId).tree.nodes m.id = true) ∧
        (s.tree.selected_node_id = some rootId →
          (maybeRemoveEmptyNode s rootId).tree.selected_node_id = some nr.id)) := by
  constructor
  · intro hch
    have hrootid : root.id = rootId := lookupNode_id hlk
    unfold maybeRemoveEmptyNode
    rw [hlk]
    simp only [markStructureChanged, getParentIds, hroot, List.isEmpty_nil, if_true]
    rw [hrootid, hch]
    simp [updateSelectedNode, setNodes]
  · intro c0 cs hch
    have hrootid : root.id = rootId := lookupNode_id hlk
    have hrootmem : root ∈ s.tree.nodes := lookupNode_mem hlk
    have hchildne : ∀ c ∈ getChildren s.tree.nodes rootId, c.id ≠ rootId := by
      intro c hc he
      have hcn := (mem_getChildren_iff _ _ _).mp hc
      have : c = root := mem_unique_of_nodup hnd hcn.1 hrootmem (he.trans hrootid.symm)
      rw [this, hroot] at hcn
      cases hcn.2
    have hc0 : c0 ∈ getChildren s.tree.nodes rootId := by rw [hch]; exact List.mem_cons_self _ _
    -- the promoted child exists among the children
    have hpc : ∃ nr ∈ getChildren s.tree.nodes rootId,
        nr.id = promotedChildId s.tree rootId c0.id := by
      unfold promotedChildId
      cases hsel : s.tree.selected_node_id with
      | none => exact ⟨c0, hc0, rfl⟩
      | some sel =>
        dsimp only
        by_cases hselroot : (sel != rootId) = true
        · rw [if_pos hselroot]
          cases hpath : getPathToNode s.tree.nodes sel s.tree.selected_path with
          | nil => exact ⟨c0, hc0, rfl⟩
          | cons a rest =>
            cases rest with
            | nil => exact ⟨c0, hc0, rfl⟩
            | cons b rest2 =>
              dsimp only
              by_cases haid : (a.id == rootId) = true
              · rw [if_pos haid]
                have hchain := getPathToNode_consec s.tree.nodes sel s.tree.selected_path
                rw [hpath] at hchain
                rcases hchain with ⟨hlink, hbpar, _⟩
                have hbmem : b ∈ s.tree.nodes :=
                  @getPathToNode_mem s.tree.nodes s.tree.selected_path sel b
                    (by rw [hpath]; exact List.mem_cons_of_mem _ (List.mem_cons_self _ _))
                have hchoose : chooseParentId s.tree.selected_path b.parent_ids ∈ b.parent_ids :=
                  chooseParentId_mem _ _ hbpar
                have haid2 : a.id = chooseParentId s.tree.selected_path b.parent_ids :=
                  lookupNode_id hlink
                have hrootpar : rootId ∈ b.parent_ids := by
                  rw [← (by simpa using haid : a.id = rootId), haid2]
                  exact hchoose
                exact ⟨b, (mem_getChildren_iff _ _ _).mpr ⟨hbmem, hrootpar⟩, rfl⟩
              · rw [if_neg haid]
                exact ⟨c0, hc0, rfl⟩
        · rw [if_neg hselroot]
          exact ⟨c0, hc0, rfl⟩
    rcases hpc with ⟨nr, hnrch, hnrid⟩
    have hnrnodes : nr ∈ s.tree.nodes := ((mem_getChildren_iff _ _ _).mp hnrch).1
    have hnrne : nr.id ≠ rootId := hchildne nr hnrch
    refine ⟨nr, hnrch, hnrid, ?_⟩
    -- now compute the result
    unfold maybeRemoveEmptyNode
    rw [hlk]
    simp only [markStructureChanged, getParentIds, hroot, List.isEmpty_nil, if_true]
    rw [hrootid, hch]
    simp only [List.isEmpty_cons, List.headD_cons, Bool.false_eq_true, if_false]
    rw [← hch]
    rw [← hnrid]
    set f0 : Node → Node := (fun n => { n with parent_ids := ([] : List Nat) }) with hf0
    set g0 : Node → Node := (fun n => { n with parent_ids := [nr.id] }) with hg0
    set nodes1 := updateNode s.tree.nodes nr.id f0 with hn1
    set nodes2 := (getChildren s.tree.nodes rootId).foldl
      (fun acc c => if (c.id != nr.id) = true then updateNode acc c.id g0 else acc) nodes1 with hn2
    set nodes3 := removeNode nodes2 rootId with hn3
    have hf0id : ∀ n : Node, (f0 n).id = n.id := fun n => rfl
    have hg0id : ∀ n : Node, (g0 n).id = n.id := fun n => rfl
    have hndch := getChildren_ids_nodup hnd rootId
    have hfold := lookup_foldl_guardUpdate (getChildren s.tree.nodes rootId) nodes1 g0
      (fun c => c.id != nr.id) hg0id hndch
    have hlknr : lookupNode s.tree.nodes nr.id = some nr := by
      have := lookup_eq_of_mem hnd hnrnodes
      exact this
    have ha : lookupNode nodes3 nr.id = some (f0 nr) := by
      rw [hn3, lookup_removeNode_ne _ _ _ hnrne, hn2, hfold nr.id]
      have hanyf : ((getChildren s.tree.nodes rootId).any
          (fun c => c.id == nr.id && (fun c => c.id != nr.id) c)) = false := by
        rw [List.any_eq_false]
        intro c hc
        by_cases h : c.id = nr.id <;> simp [h]
      rw [hanyf]
      simp only [Bool.false_eq_true, if_false, hn1]
      rw [lookup_updateNode_self _ _ _ hf0id, hlknr]
      rfl
    have hb : ∀ c ∈ getChildren s.tree.nodes rootId, c.id ≠ nr.id →
        lookupNode nodes3 c.id = some (g0 c) := by
      intro c hcch hcnr
      have hcne : c.id ≠ rootId := hchildne c hcch
      have hcm : c ∈ s.tree.nodes := ((mem_getChildren_iff _ _ _).mp hcch).1
      rw [hn3, lookup_removeNode_ne _ _ _ hcne, hn2, hfold c.id]
      have hanyt : ((getChildren s.tree.nodes rootId).any
          (fun d => d.id == c.id && (fun d => d.id != nr.id) d)) = true := by
        rw [List.any_eq_true]
        exact ⟨c, hcch, by simp [hcnr]⟩
      rw [hanyt]
      simp only [if_true, hn1]
      rw [lookup_updateNode_ne _ _ _ hf0id _ hcnr, lookup_eq_of_mem hnd hcm]
      rfl
    have hcroot : lookupNode nodes3 rootId = none := by
      rw [hn3]
      exact lookup_removeNode_self _ _
    have hdall : ∀ m ∈ s.tree.nodes, m.id ≠ rootId → hasNode nodes3 m.id = true := by
      intro m hm hmne
      have hlkm : lookupNode s.tree.nodes m.id = some m := lookup_eq_of_mem hnd hm
      rw [hasNode, hn3, lookup_removeNode_ne _ _ _ hmne, hn2, hfold m.id]
      by_cases hmnr : m.id = nr.id
      · have hl1 : lookupNode nodes1 m.id = some (f0 nr) := by
          rw [hn1, hmnr, lookup_updateNode_self _ _ _ hf0id, hlknr]
          rfl
        split <;> simp [hl1]
      · have hl1 : lookupNode nodes1 m.id = some m := by
          rw [hn1, lookup_updateNode_ne _ _ _ hf0id _ hmnr, hlkm]
        split <;> simp [hl1]
    have hnodeseq : ∀ (st : St) (x : Option Nat),
        (updateSelectedNode st x).tree.nodes = st.tree.nodes := by
      intro st x
      unfold updateSelectedNode
      cases x with
      | none => rfl
      | some nid =>
        dsimp only
        split
        · rfl
        · rfl
    refine ⟨?_, ?_, ?_, ?_, ?_⟩
    · split
      · rw [hnodeseq]
        exact ha
      · exact ha
    · intro c hcch hcnr
      split
      · rw [hnodeseq]
        exact hb c hcch hcnr
      · exact hb c hcch hcnr
    · split
      · rw [hnodeseq]
        exact hcroot
      · exact hcroot
    · intro m hm hmne
      split
      · rw [hnodeseq]
        exact hdall m hm hmne
      · exact hdall m hm hmne
    · intro hselroot
      rw [if_pos (by simp [hselroot])]
      have hsel2 : ∀ st : St, st.tree.nodes = nodes3 →
          (updateSelectedNode st (some nr.id)).tree.selected_node_id = some nr.id := by
        intro st hst
        unfold updateSelectedNode
        dsimp only
        rw [if_pos (by rw [hasNode, hst, ha]; rfl)]
      exact hsel2 _ rfl

/-- Witness for C7 at a concrete root with two children, the selection path
running through the second child. -/
theorem C7_witness :
    ∃ nr ∈ getChildren w7St.tree.nodes 0,
      nr.id = promotedChildId w7St.tree 0 (mkNode 1 [0] ['a'] NType.ai).id ∧
      lookupNode (maybeRemoveEmptyNode w7St 0).tree.nodes nr.id
        = some { nr with parent_ids := [] } ∧
      (∀ c ∈ getChildren w7St.tree.nodes 0, c.id ≠ nr.id →
        lookupNode (maybeRemoveEmptyNode w7St 0).tree.nodes c.id
          = some { c with parent_ids := [nr.id] }) ∧
      lookupNode (maybeRemoveEmptyNode w7St 0).tree.nodes 0 = none ∧
      (∀ m ∈ w7St.tree.nodes, m.id ≠ 0 →
        hasNode (maybeRemoveEmptyNode w7St 0).tree.nodes m.id = true) ∧
      (w7St.tree.selected_node_id = some 0 →
        (maybeRemoveEmptyNode w7St 0).tree.selected_node_id = some nr.id) :=
  (C7_root_emptied_promote_or_clear w7St 0 (mkNode 0 [] [] NType.human)
    (by decide) (by decide) (by decide)).2
    (mkNode 1 [0] ['a'] NType.ai) [mkNode 2 [0] ['b'] NType.ai] (by decide)


/-- C8 (amended): `importTree` rejects a document exactly when its node map
is not an object; when the accepted document's node map has nodes but no
root, `loadTree` clears the node map and the selection (discarding the
document's nodes) instead of synthesizing a root; when a root exists and the
stored selected path is missing, `loadTree` keeps the nodes, keeps a valid
selection and recomputes the selected path from the graph. -/
theorem C8_importTree_loadTree (d : RawDoc) (cur : TreeState) :
    ((importTree d = Except.error ()) ↔ ∀ nodes, d.nodesField ≠ NodesField.jobj nodes) ∧
    (∀ nodes, d.nodesField = NodesField.jobj nodes → findRoot nodes = none → nodes ≠ [] →
      loadTree cur (some d)
        = { nodes := [], selected_node_id := none, selected_path := [] }) ∧
    (∀ nodes sel, d.nodesField = NodesField.jobj nodes → d.selected_node_id = some sel →
      hasNode nodes sel = true → d.selected_path = none → (findRoot nodes).isSome = true →
      (loadTree cur (some d)).nodes = nodes ∧
      (loadTree cur (some d)).selected_node_id = some sel ∧
      (loadTree cur (some d)).selected_path
        = (getPathToNode nodes sel []).map (fun n => n.id)) := by
  refine ⟨?_, ?_, ?_⟩
  · constructor
    · intro herr nodes habs
      rw [importTree, habs] at herr
      simp [nodesFieldTruthy, nodesFieldTypeofObject] at herr
    · intro hnobj
      rw [importTree]
      cases hnf : d.nodesField with
      | jobj nodes => exact absurd hnf (hnobj nodes)
      | jnull => simp [nodesFieldTruthy]
      | jundef => simp [nodesFieldTruthy]
      | jbool b => simp [nodesFieldTypeofObject]
      | jnum n => simp [nodesFieldTypeofObject]
      | jstr sv => simp [nodesFieldTypeofObject]
  · intro nodes hnf hnoroot hne
    rw [loadTree, hnf]
    have h1 : ((findRoot nodes).isNone && !nodes.isEmpty) = true := by
      rw [hnoroot]
      simp [List.isEmpty_iff, hne]
    dsimp only
    rw [if_pos h1]
    simp [hnoroot]
  · intro nodes sel hnf hsel hhas hpath hroot
    rw [loadTree, hnf]
    have h1 : ((findRoot nodes).isNone && !nodes.isEmpty) = false := by
      rcases Option.isSome_iff_exists.mp hroot with ⟨rt, hrt⟩
      rw [hrt]
      rfl
    dsimp only
    rw [if_neg (by simp [h1])]
    simp [hsel, hpath, hhas]


/-- Counterexample to C8 as stated: a stored document whose single node is
its own parent (no root anywhere).  `loadTree` accepts it and then clears the
node map entirely — the document's nodes are discarded and no root is
synthesized. -/
theorem C8_counterexample :
    w8noRootDoc.nodesField = NodesField.jobj [mkNode 0 [0] ['x'] NType.human] ∧
    [mkNode 0 [0] ['x'] NType.human] ≠ [] ∧
    findRoot [mkNode 0 [0] ['x'] NType.human] = none ∧
    (loadTree w8cur (some w8noRootDoc)).nodes = [] := by
  refine ⟨rfl, by decide, by decide, ?_⟩
  decide

/-- Witness for C8 (amended) at the two concrete documents. -/
theorem C8_witness :
    loadTree w8cur (some w8noRootDoc)
      = { nodes := [], selected_node_id := none, selected_path := [] } ∧
    ((loadTree w8cur (some w8goodDoc)).nodes
        = [mkNode 0 [] ['x'] NType.human, mkNode 1 [0] ['y'] NType.ai] ∧
      (loadTree w8cur (some w8goodDoc)).selected_node_id = some 1 ∧
      (loadTree w8cur (some w8goodDoc)).selected_path
        = (getPathToNode [mkNode 0 [] ['x'] NType.human, mkNode 1 [0] ['y'] NType.ai]
            1 []).map (fun n => n.id)) :=
  ⟨(C8_importTree_loadTree w8noRootDoc w8cur).2.1
      [mkNode 0 [0] ['x'] NType.human] (by decide) (by decide) (by decide),
   (C8_importTree_loadTree w8goodDoc w8cur).2.2
      [mkNode 0 [] ['x'] NType.human, mkNode 1 [0] ['y'] NType.ai] 1
      (by decide) (by decide) (by decide) (by decide) (by decide)⟩


theorem refreshSegments_tree (z : St) : (refreshSegments z).tree = z.tree := by
  unfold refreshSegments
  split <;> rfl

theorem exitLiveSplitMode_tree (z : St) : (exitLiveSplitMode z).tree = z.tree := by
  unfold exitLiveSplitMode
  split <;> rfl

theorem exitLiveSplitMode_nextId (z : St) : (exitLiveSplitMode z).nextId = z.nextId := by
  unfold exitLiveSplitMode
  split <;> rfl

theorem exitLiveSplitMode_segments (z : St) :
    (exitLiveSplitMode z).ed.segments = z.ed.segments := by
  unfold exitLiveSplitMode
  split <;> rfl

theorem updateSelectedNode_tree_nodes (z : St) (x : Option Nat) :
    (updateSelectedNode z x).tree.nodes = z.tree.nodes := by
  unfold updateSelectedNode
  cases x with
  | none => rfl
  | some nid =>
    dsimp only
    split <;> rfl

theorem updateSelectedNode_sel_some (z : St) (nid : Nat)
    (h : hasNode z.tree.nodes nid = true) :
    (updateSelectedNode z (some nid)).tree.selected_node_id = some nid := by
  unfold updateSelectedNode
  dsimp only
  rw [if_pos h]

/-- Counterexample to C4 as stated: the bridge node 1 satisfies the claim's
condition (Human, AI parent 0, only child the AI node 2 tagged
splitFrom = 0), and the single-character backspace that empties it while it
is the selected node deletes it destructively: the parent keeps its text,
the continuation survives unmerged (reparented onto the parent) — no
recombination. -/
theorem C4_counterexample :
    lookupNode c4St.tree.nodes 1 = some c4B ∧
    c4B.ntype = NType.human ∧
    lookupNode c4St.tree.nodes 0 = some c4A ∧ c4A.ntype = NType.ai ∧
    getChildren c4St.tree.nodes 1 = [c4C] ∧
    c4C.ntype = NType.ai ∧ c4C.splitFrom = some c4A.id ∧
    (applyChangesToTree c4St (Changes.delete 1 1)).tree.nodes
      = [c4A, { c4C with parent_ids := [0] }] := by
  exact ⟨by decide, by decide, by decide, by decide, by decide, by decide, by decide, by decide⟩

/-! ## Recombination of a split bridge -/

theorem setNodes_sel (z : St) (ns : List Node) :
    (setNodes z ns).tree.selected_node_id = z.tree.selected_node_id := rfl

theorem getChildren_updateNode_eq (nodes : List Node) (i j : Nat) (f : Node → Node)
    (hfp : ∀ n, (f n).parent_ids = n.parent_ids)
    (hno : ∀ c ∈ getChildren nodes j, c.id ≠ i) :
    getChildren (updateNode nodes i f) j = getChildren nodes j := by
  unfold getChildren updateNode
  rw [List.filter_map]
  have hpu : ((fun (n : Node) => n.parent_ids.contains j) ∘
      (fun (n : Node) => if n.id == i then f n else n))
      = (fun (n : Node) => n.parent_ids.contains j) := by
    funext n
    by_cases h : (n.id == i) = true
    · simp only [Function.comp_apply, if_pos h, hfp]
    · simp only [Function.comp_apply, if_neg h]
  rw [hpu]
  have hid : ∀ c ∈ nodes.filter (fun (n : Node) => n.parent_ids.contains j),
      (fun (n : Node) => if n.id == i then f n else n) c = id c := by
    intro c hc
    have hci : (c.id == i) = false := by simpa using hno c hc
    simp only [hci, Bool.false_eq_true, if_false, id]
  rw [List.map_congr_left hid, List.map_id]

theorem lookup_foldl_update (cs : List Node) (nodes : List Node)
    (g : Node → Node) (hg : ∀ n, (g n).id = n.id)
    (hnd : (cs.map (fun c => c.id)).Nodup) (j : Nat) :
    lookupNode (cs.foldl (fun acc c => updateNode acc c.id g) nodes) j =
      if cs.any (fun c => c.id == j) then (lookupNode nodes j).map g
      else lookupNode nodes j := by
  induction cs generalizing nodes with
  | nil => simp
  | cons c rest ih =>
    simp only [List.map_cons, List.nodup_cons] at hnd
    simp only [List.foldl_cons, List.any_cons]
    by_cases hcj : c.id = j
    · have hrest : rest.any (fun d => d.id == j) = false := by
        rw [List.any_eq_false]
        intro d hd
        have hdj : d.id ≠ j := by
          intro he
          exact hnd.1 (hcj ▸ he ▸ (List.mem_map.mpr ⟨d, hd, rfl⟩))
        simp [hdj]
      subst hcj
      rw [ih _ hnd.2]
      simp only [hrest, Bool.false_eq_true, if_false, beq_self_eq_true, Bool.true_or, if_true]
      exact lookup_updateNode_self nodes c.id g hg
    · rw [ih _ hnd.2]
      have hne : (c.id == j) = false := by simpa using hcj
      simp only [hne, Bool.false_or]
      by_cases hr : rest.any (fun d => d.id == j) = true
      · simp only [hr, if_true]
        rw [lookup_updateNode_ne nodes c.id g hg j (Ne.symm hcj)]
      · simp only [Bool.not_eq_true] at hr
        simp only [hr, Bool.false_eq_true, if_false]
        rw [lookup_updateNode_ne nodes c.id g hg j (Ne.symm hcj)]

/-- C4 (amended): recombination as implemented.  When the empty bridge node
is processed by `maybeRemoveEmptyNode` — the destructive-delete removal
path — and it is a Human node whose hint parent is an AI node and whose only
child is an AI node tagged `splitFrom = parent`, the engine recombines:
the continuation text is appended to the parent, the continuation's children
are reparented onto the parent, bridge and continuation are removed, every
other node survives, and a selection on the bridge or continuation moves to
the parent.  (The claim's original "whenever the node is being emptied"
is too strong: a single-character backspace that empties the bridge while it
is selected is intercepted by the live-split handler, which deletes it
without merging — see the counterexample.) -/
theorem C4_recombination (s : St) (bid : Nat) (bridge parent cont : Node)
    (r : Nat → Rat)
    (hnd : (s.tree.nodes.map (fun n => n.id)).Nodup)
    (hrk : RankedBy s.tree.nodes r)
    (hlk : lookupNode s.tree.nodes bid = some bridge)
    (hbh : bridge.ntype = NType.human)
    (hpne : bridge.parent_ids ≠ [])
    (hplk : lookupNode s.tree.nodes (bridge.parent_ids.headD 0) = some parent)
    (hpai : parent.ntype = NType.ai)
    (hch : getChildren s.tree.nodes bid = [cont])
    (hcai : cont.ntype = NType.ai)
    (hsf : cont.splitFrom = some parent.id) :
    lookupNode (maybeRemoveEmptyNode s bid).tree.nodes parent.id
      = some { parent with text := parent.text ++ cont.text } ∧
    lookupNode (maybeRemoveEmptyNode s bid).tree.nodes bid = none ∧
    lookupNode (maybeRemoveEmptyNode s bid).tree.nodes cont.id = none ∧
    (∀ gn ∈ getChildren s.tree.nodes cont.id,
      lookupNode (maybeRemoveEmptyNode s bid).tree.nodes gn.id
        = some { gn with parent_ids := [parent.id] }) ∧
    (∀ m ∈ s.tree.nodes, m.id ≠ bid → m.id ≠ cont.id →
      hasNode (maybeRemoveEmptyNode s bid).tree.nodes m.id = true) ∧
    ((s.tree.selected_node_id = some bid ∨ s.tree.selected_node_id = some cont.id) →
      (maybeRemoveEmptyNode s bid).tree.selected_node_id = some parent.id) := by
  have hbid : bridge.id = bid := lookupNode_id hlk
  have hbmem : bridge ∈ s.tree.nodes := lookupNode_mem hlk
  have hpmem : parent ∈ s.tree.nodes := lookupNode_mem hplk
  have hpid : parent.id = bridge.parent_ids.headD 0 := lookupNode_id hplk
  have hcch : cont ∈ getChildren s.tree.nodes bid := by
    rw [hch]; exact List.mem_cons_self _ _
  have hcmem : cont ∈ s.tree.nodes := ((mem_getChildren_iff _ _ _).mp hcch).1
  have hbin : bid ∈ cont.parent_ids := ((mem_getChildren_iff _ _ _).mp hcch).2
  have hheadmem : bridge.parent_ids.headD 0 ∈ bridge.parent_ids := by
    cases hbp : bridge.parent_ids with
    | nil => exact absurd hbp hpne
    | cons p ps => rw [List.headD_cons]; exact List.mem_cons_self _ _
  have r1 : r parent.id < r bid := by
    have h := hrk bridge hbmem _ hheadmem
    rw [hbid] at h
    rw [hpid]
    exact h
  have r2 : r bid < r cont.id := hrk cont hcmem _ hbin
  have hpb : parent.id ≠ bid := by
    intro he
    rw [he] at r1
    exact lt_irrefl _ r1
  have hcb : cont.id ≠ bid := by
    intro he
    rw [he] at r2
    exact lt_irrefl _ r2
  have hpc : parent.id ≠ cont.id := by
    intro he
    have h := r1.trans r2
    rw [he] at h
    exact lt_irrefl _ h
  have hrkc : ∀ gn ∈ getChildren s.tree.nodes cont.id, r cont.id < r gn.id := by
    intro gn hgn
    rcases (mem_getChildren_iff _ _ _).mp hgn with ⟨hm, hp⟩
    exact hrk gn hm _ hp
  have hgP : ∀ gn ∈ getChildren s.tree.nodes cont.id, gn.id ≠ parent.id := by
    intro gn hgn he
    have h := (r1.trans r2).trans (hrkc gn hgn)
    rw [he] at h
    exact lt_irrefl _ h
  have hgB : ∀ gn ∈ getChildren s.tree.nodes cont.id, gn.id ≠ bid := by
    intro gn hgn he
    have h := r2.trans (hrkc gn hgn)
    rw [he] at h
    exact lt_irrefl _ h
  have hgC : ∀ gn ∈ getChildren s.tree.nodes cont.id, gn.id ≠ cont.id := by
    intro gn hgn he
    have h := hrkc gn hgn
    rw [he] at h
    exact lt_irrefl _ h
  unfold maybeRemoveEmptyNode
  rw [hlk]
  simp only [markStructureChanged, getParentIds]
  rw [if_neg (by simpa [List.isEmpty_iff] using hpne)]
  rw [hplk, hbid, hch]
  dsimp only
  rw [if_pos (by simp [hbh, hpai, hcai, hsf])]
  set ft : Node → Node := (fun n => { n with text := n.text ++ cont.text }) with hft
  set gp : Node → Node := (fun n => { n with parent_ids := [parent.id] }) with hgp
  set nodes1 := updateNode s.tree.nodes parent.id ft with hn1
  set contCh := getChildren nodes1 cont.id with hcc
  set nodes2 := contCh.foldl (fun acc g => updateNode acc g.id gp) nodes1 with hn2
  have hftid : ∀ n : Node, (ft n).id = n.id := fun n => rfl
  have hftpar : ∀ n : Node, (ft n).parent_ids = n.parent_ids := fun n => rfl
  have hgid : ∀ n : Node, (gp n).id = n.id := fun n => rfl
  have hccEq : contCh = getChildren s.tree.nodes cont.id := by
    rw [hcc, hn1]
    exact getChildren_updateNode_eq _ _ _ _ hftpar hgP
  have hndcc : (contCh.map (fun c => c.id)).Nodup := by
    rw [hccEq]
    exact getChildren_ids_nodup hnd cont.id
  have hfold := lookup_foldl_update contCh nodes1 gp hgid hndcc
  have hlkp : lookupNode s.tree.nodes parent.id = some parent := lookup_eq_of_mem hnd hpmem
  have ha2 : lookupNode nodes2 parent.id = some (ft parent) := by
    rw [hn2, hfold parent.id]
    have hany : (contCh.any (fun c => c.id == parent.id)) = false := by
      rw [List.any_eq_false]
      intro c hcm
      rw [hccEq] at hcm
      simp [hgP c hcm]
    rw [hany]
    simp only [Bool.false_eq_true, if_false, hn1]
    rw [lookup_updateNode_self _ _ _ hftid, hlkp]
    rfl
  have haf : lookupNode (removeNode (removeNode nodes2 bid) cont.id) parent.id
      = some (ft parent) := by
    rw [lookup_removeNode_ne _ _ _ hpc, lookup_removeNode_ne _ _ _ hpb]
    exact ha2
  have hbf : lookupNode (removeNode (removeNode nodes2 bid) cont.id) bid = none := by
    rw [lookup_removeNode_ne _ _ _ (Ne.symm hcb)]
    exact lookup_removeNode_self _ _
  have hcf : lookupNode (removeNode (removeNode nodes2 bid) cont.id) cont.id = none :=
    lookup_removeNode_self _ _
  have hdf : ∀ gn ∈ getChildren s.tree.nodes cont.id,
      lookupNode (removeNode (removeNode nodes2 bid) cont.id) gn.id = some (gp gn) := by
    intro gn hgn
    rw [lookup_removeNode_ne _ _ _ (hgC gn hgn), lookup_removeNode_ne _ _ _ (hgB gn hgn)]
    rw [hn2, hfold gn.id]
    have hany : (contCh.any (fun c => c.id == gn.id)) = true := by
      rw [List.any_eq_true]
      exact ⟨gn, by rw [hccEq]; exact hgn, by simp⟩
    rw [hany]
    simp only [if_true, hn1]
    rw [lookup_updateNode_ne _ _ _ hftid _ (hgP gn hgn),
      lookup_eq_of_mem hnd ((mem_getChildren_iff _ _ _).mp hgn).1]
    rfl
  have hef : ∀ m ∈ s.tree.nodes, m.id ≠ bid → m.id ≠ cont.id →
      hasNode (removeNode (removeNode nodes2 bid) cont.id) m.id = true := by
    intro m hm hmb hmc
    rw [hasNode, lookup_removeNode_ne _ _ _ hmc, lookup_removeNode_ne _ _ _ hmb]
    rw [hn2, hfold m.id]
    have hl1 : (lookupNode nodes1 m.id).isSome = true := by
      rw [hn1]
      by_cases hmp : m.id = parent.id
      · rw [hmp, lookup_updateNode_self _ _ _ hftid, hlkp]
        rfl
      · rw [lookup_updateNode_ne _ _ _ hftid _ hmp, lookup_eq_of_mem hnd hm]
        rfl
    rcases Option.isSome_iff_exists.mp hl1 with ⟨v, hv⟩
    split <;> simp [hv]
  refine ⟨?_, ?_, ?_, ?_, ?_, ?_⟩
  · split
    · rw [updateSelectedNode_tree_nodes]
      exact haf
    · exact haf
  · split
    · rw [updateSelectedNode_tree_nodes]
      exact hbf
    · exact hbf
  · split
    · rw [updateSelectedNode_tree_nodes]
      exact hcf
    · exact hcf
  · intro gn hgn
    split
    · rw [updateSelectedNode_tree_nodes]
      exact hdf gn hgn
    · exact hdf gn hgn
  · intro m hm hmb hmc
    split
    · rw [updateSelectedNode_tree_nodes]
      exact hef m hm hmb hmc
    · exact hef m hm hmb hmc
  · intro hsel
    have hcondsel : (s.tree.selected_node_id == some bid
        || s.tree.selected_node_id == some cont.id) = true := by
      rcases hsel with h | h <;> simp [h]
    rw [if_pos hcondsel, setNodes_sel]
    apply updateSelectedNode_sel_some
    show (lookupNode nodes2 parent.id).isSome = true
    rw [ha2]
    rfl

/-- Witness for the amended recombination theorem: on the concrete bridge
state the hypotheses hold and recombination merges the continuation text
into the parent and removes both nodes. -/
theorem C4_witness :
    lookupNode (maybeRemoveEmptyNode c4St 1).tree.nodes c4A.id
      = some { c4A with text := c4A.text ++ c4C.text } ∧
    lookupNode (maybeRemoveEmptyNode c4St 1).tree.nodes 1 = none ∧
    lookupNode (maybeRemoveEmptyNode c4St 1).tree.nodes c4C.id = none :=
  have h := C4_recombination c4St 1 c4B c4A c4C (fun i => (i : Rat))
    (by decide) (by decide) (by decide) (by decide) (by decide) (by decide)
    (by decide) (by decide) (by decide) (by decide)
  ⟨h.1, h.2.1, h.2.2.1⟩

/-! ## Live-split shrink: no silent loss (amended) -/

/-- Counterexample to C1 as stated: on an AI node whose text begins with a
whitespace character, the backspace that removes that first character is
handled (`true`) by the boundary-whitespace special case, which performs a
silent edit: no hidden child is created (no node is created at all, and no
live-split state is entered) and the removed character survives nowhere in
the graph. -/
theorem C1_counterexample :
    (handleLiveSplitBackspace c1ws 1).fst = true ∧
    (handleLiveSplitBackspace c1ws 1).snd.tree.nodes = [mkNode 0 [] ['a'] NType.ai] ∧
    (handleLiveSplitBackspace c1ws 1).snd.nextId = c1ws.nextId ∧
    (handleLiveSplitBackspace c1ws 1).snd.ed.liveSplitHiddenId = none := by
  exact ⟨by decide, by decide, by decide, by decide⟩

/-! ## Acyclicity invariant: toolkit -/

theorem bounded_mono {nodes : List Node} {b b' : Nat} (h : b ≤ b')
    (hb : Bounded nodes b) : Bounded nodes b' := by
  intro n hn
  obtain ⟨h1, h2⟩ := hb n hn
  exact ⟨lt_of_lt_of_le h1 h, fun p hp => lt_of_lt_of_le (h2 p hp) h⟩

theorem bounded_sub {nodes nodes' : List Node} {b : Nat}
    (hsub : ∀ x ∈ nodes', x ∈ nodes) (hb : Bounded nodes b) : Bounded nodes' b :=
  fun n hn => hb n (hsub n hn)

theorem rankedBy_sub {nodes nodes' : List Node} {r : Nat → Rat}
    (hsub : ∀ x ∈ nodes', x ∈ nodes) (hr : RankedBy nodes r) : RankedBy nodes' r :=
  fun n hn => hr n (hsub n hn)

theorem mem_removeNode {nodes : List Node} {i : Nat} {x : Node}
    (hx : x ∈ removeNode nodes i) : x ∈ nodes :=
  (List.mem_filter.mp hx).1

theorem mem_updateNode_cases {nodes : List Node} {i : Nat} {f : Node → Node}
    {x : Node} (hx : x ∈ updateNode nodes i f) :
    ∃ n ∈ nodes, (x = n ∧ n.id ≠ i) ∨ (x = f n ∧ n.id = i) := by
  obtain ⟨n, hn, he⟩ := List.mem_map.mp hx
  by_cases hni : (n.id == i) = true
  · exact ⟨n, hn, Or.inr ⟨by rw [← he, if_pos hni], by simpa using hni⟩⟩
  · exact ⟨n, hn, Or.inl ⟨by rw [← he, if_neg hni], by simpa using hni⟩⟩

theorem foldl_update_mem_rel (cs base : List Node) (g : Node → Node)
    (Q : Node → Node → Prop)
    (hself : ∀ n, Q n (g n)) (htrans : ∀ n m x, Q n m → Q m x → Q n x) :
    ∀ x ∈ cs.foldl (fun acc c => updateNode acc c.id g) base,
      ∃ n ∈ base, x = n ∨ (Q n x ∧ ∃ c ∈ cs, c.id = n.id) := by
  induction cs generalizing base with
  | nil =>
    intro x hx
    exact ⟨x, hx, Or.inl rfl⟩
  | cons c0 rest ih =>
    intro x hx
    simp only [List.foldl_cons] at hx
    obtain ⟨n', hn', hcase⟩ := ih (updateNode base c0.id g) x hx
    obtain ⟨n, hn, hcase2⟩ := mem_updateNode_cases hn'
    rcases hcase2 with ⟨he, hne⟩ | ⟨he, hid⟩
    · subst he
      rcases hcase with he2 | ⟨hq, c, hc, hcid⟩
      · exact ⟨n', hn, Or.inl he2⟩
      · exact ⟨n', hn, Or.inr ⟨hq, c, List.mem_cons_of_mem _ hc, hcid⟩⟩
    · subst he
      rcases hcase with he2 | ⟨hq, c, hc, hcid⟩
      · exact ⟨n, hn, Or.inr ⟨he2 ▸ hself n, c0, List.mem_cons_self _ _, hid.symm⟩⟩
      · exact ⟨n, hn, Or.inr ⟨htrans n (g n) x (hself n) hq, c0,
          List.mem_cons_self _ _, hid.symm⟩⟩

theorem mem_fold_addUnique (pids : List Nat) :
    ∀ (init : List Nat) (x : Nat),
      x ∈ pids.foldl (fun l pid => if l.contains pid then l else l ++ [pid]) init →
      x ∈ init ∨ x ∈ pids := by
  induction pids with
  | nil =>
    intro init x hx
    exact Or.inl hx
  | cons p ps ih =>
    intro init x hx
    simp only [List.foldl_cons] at hx
    rcases ih _ x hx with h | h
    · by_cases hc : (init.contains p) = true
      · rw [if_pos hc] at h
        exact Or.inl h
      · rw [if_neg hc] at h
        rcases List.mem_append.mp h with h2 | h2
        · exact Or.inl h2
        · exact Or.inr (List.mem_cons.mpr (Or.inl (by simpa using h2)))
    · exact Or.inr (List.mem_cons_of_mem _ h)

theorem listMinD_le {l : List Rat} {x : Rat} (hx : x ∈ l) (d : Rat) :
    listMinD l d ≤ x := by
  induction l with
  | nil => cases hx
  | cons a as ih =>
    rcases List.mem_cons.mp hx with h | h
    · subst h
      exact min_le_left _ _
    · exact le_trans (min_le_right _ _) (ih h)

theorem lt_listMinD {l : List Rat} {a d : Rat} (hd : a < d)
    (hl : ∀ x ∈ l, a < x) : a < listMinD l d := by
  induction l with
  | nil => exact hd
  | cons b bs ih =>
    simp only [listMinD, lt_min_iff]
    exact ⟨hl b (List.mem_cons_self _ _), ih (fun x hx => hl x (List.mem_cons_of_mem _ hx))⟩

theorem le_listMaxD {l : List Rat} {x : Rat} (hx : x ∈ l) (d : Rat) :
    x ≤ listMaxD l d := by
  induction l with
  | nil => cases hx
  | cons a as ih =>
    rcases List.mem_cons.mp hx with h | h
    · subst h
      exact le_max_left _ _
    · exact le_trans (ih h) (le_max_right _ _)

theorem rext_self (r : Nat → Rat) (i : Nat) (v : Rat) : rext r i v i = v := by
  simp [rext]

theorem rext_ne (r : Nat → Rat) {i j : Nat} (v : Rat) (h : j ≠ i) :
    rext r i v j = r j := by
  simp [rext, h]

theorem rankedBy_rext {nodes : List Node} {b : Nat} {r : Nat → Rat}
    (hb : Bounded nodes b) (hr : RankedBy nodes r) {i : Nat} (hi : b ≤ i)
    (v : Rat) : RankedBy nodes (rext r i v) := by
  intro n hn p hp
  have h1 := (hb n hn).1
  have h2 := (hb n hn).2 p hp
  rw [rext_ne r v (by omega), rext_ne r v (by omega)]
  exact hr n hn p hp

theorem rankedBy_irrefl {nodes : List Node} {r : Nat → Rat}
    (hr : RankedBy nodes r) : ∀ i, ¬ Relation.TransGen (Edge nodes) i i := by
  have key : ∀ a b, Relation.TransGen (Edge nodes) a b → r a < r b := by
    intro a b h
    induction h with
    | single he =>
      obtain ⟨n, hn, hid, hpar⟩ := he
      exact hid ▸ hr n hn _ hpar
    | tail _ he ih =>
      obtain ⟨n, hn, hid, hpar⟩ := he
      exact lt_trans ih (hid ▸ hr n hn _ hpar)
  intro i hcyc
  exact lt_irrefl _ (key i i hcyc)

theorem foldl_guard_mem_rel (cs base : List Node) (g : Node → Node) (P : Node → Bool)
    (Q : Node → Node → Prop)
    (hself : ∀ n, Q n (g n)) (htrans : ∀ n m x, Q n m → Q m x → Q n x) :
    ∀ x ∈ cs.foldl (fun acc c => if P c then updateNode acc c.id g else acc) base,
      ∃ n ∈ base, x = n ∨ (Q n x ∧ ∃ c ∈ cs, c.id = n.id ∧ P c = true) := by
  induction cs generalizing base with
  | nil =>
    intro x hx
    exact ⟨x, hx, Or.inl rfl⟩
  | cons c0 rest ih =>
    intro x hx
    simp only [List.foldl_cons] at hx
    by_cases hP : P c0 = true
    · rw [if_pos hP] at hx
      obtain ⟨n', hn', hcase⟩ := ih (updateNode base c0.id g) x hx
      obtain ⟨n, hn, hcase2⟩ := mem_updateNode_cases hn'
      rcases hcase2 with ⟨he, hne⟩ | ⟨he, hid⟩
      · subst he
        rcases hcase with he2 | ⟨hq, c, hc, hcid, hpc⟩
        · exact ⟨n', hn, Or.inl he2⟩
        · exact ⟨n', hn, Or.inr ⟨hq, c, List.mem_cons_of_mem _ hc, hcid, hpc⟩⟩
      · subst he
        rcases hcase with he2 | ⟨hq, c, hc, hcid, hpc⟩
        · exact ⟨n, hn, Or.inr ⟨he2 ▸ hself n, c0, List.mem_cons_self _ _, hid.symm, hP⟩⟩
        · exact ⟨n, hn, Or.inr ⟨htrans n (g n) x (hself n) hq, c0,
            List.mem_cons_self _ _, hid.symm, hP⟩⟩
    · rw [if_neg hP] at hx
      obtain ⟨n, hn, hcase⟩ := ih base x hx
      rcases hcase with he | ⟨hq, c, hc, hcid, hpc⟩
      · exact ⟨n, hn, Or.inl he⟩
      · exact ⟨n, hn, Or.inr ⟨hq, c, List.mem_cons_of_mem _ hc, hcid, hpc⟩⟩

theorem goodN_deleteNodePreserveChildren {nodes : List Node} {b : Nat}
    (hb : Bounded nodes b) {r : Nat → Rat} (hr : RankedBy nodes r) (nid : Nat) :
    Bounded (deleteNodePreserveChildren nodes nid) b ∧
    RankedBy (deleteNodePreserveChildren nodes nid) r := by
  unfold deleteNodePreserveChildren
  cases hlk : lookupNode nodes nid with
  | none => exact ⟨hb, hr⟩
  | some node =>
    dsimp only
    have hnodemem : node ∈ nodes := lookupNode_mem hlk
    have hnodeid : node.id = nid := lookupNode_id hlk
    set g0 : Node → Node := fun n => { n with parent_ids := (getParentIds node).foldl (fun l pid => if l.contains pid then l else l ++ [pid]) (n.parent_ids.filter (fun pid => pid != nid)) } with hg0
    have hmem := foldl_update_mem_rel (getChildren nodes nid) nodes g0
      (fun n x => x.id = n.id ∧
        ∀ p ∈ x.parent_ids, p ∈ n.parent_ids ∨ p ∈ getParentIds node)
      (by
        intro n
        refine ⟨rfl, ?_⟩
        intro p hp
        rcases mem_fold_addUnique _ _ p hp with h | h
        · exact Or.inl (List.mem_filter.mp h).1
        · exact Or.inr h)
      (by
        rintro n m x ⟨h1, h2⟩ ⟨h3, h4⟩
        refine ⟨h3.trans h1, ?_⟩
        intro p hp
        rcases h4 p hp with h | h
        · exact h2 p h
        · exact Or.inr h)
    constructor
    · intro x hx
      obtain ⟨n, hn, hcase⟩ := hmem x (mem_removeNode hx)
      rcases hcase with he | ⟨⟨hid, hpar⟩, -⟩
      · exact he ▸ hb n hn
      · refine ⟨hid ▸ (hb n hn).1, ?_⟩
        intro p hp
        rcases hpar p hp with h | h
        · exact (hb n hn).2 p h
        · exact (hb node hnodemem).2 p h
    · intro x hx p hp
      obtain ⟨n, hn, hcase⟩ := hmem x (mem_removeNode hx)
      rcases hcase with he | ⟨⟨hid, hpar⟩, c, hc, hcid⟩
      · exact he ▸ hr n hn p (he ▸ hp)
      · have hcm := (mem_getChildren_iff _ _ _).mp hc
        have hcrank : r nid < r c.id := hr c hcm.1 nid hcm.2
        rw [hid]
        rcases hpar p hp with h | h
        · exact hr n hn p h
        · have h1 : r p < r node.id := hr node hnodemem p h
          rw [hnodeid] at h1
          exact lt_trans h1 (hcid ▸ hcrank)

theorem setNodes_ed (z : St) (ns : List Node) : (setNodes z ns).ed = z.ed := rfl

theorem setNodes_nextId (z : St) (ns : List Node) : (setNodes z ns).nextId = z.nextId := rfl

theorem setNodes_nodes (z : St) (ns : List Node) : (setNodes z ns).tree.nodes = ns := rfl

theorem markStructureChanged_tree (z : St) : (markStructureChanged z).tree = z.tree := rfl

theorem markStructureChanged_nextId (z : St) :
    (markStructureChanged z).nextId = z.nextId := rfl

theorem markStructureChanged_lsn (z : St) :
    (markStructureChanged z).ed.liveSplitNodeId = z.ed.liveSplitNodeId := rfl

theorem markStructureChanged_lsh (z : St) :
    (markStructureChanged z).ed.liveSplitHiddenId = z.ed.liveSplitHiddenId := rfl

theorem updateSelectedNode_ed (z : St) (x : Option Nat) :
    (updateSelectedNode z x).ed = z.ed := by
  unfold updateSelectedNode
  cases x with
  | none => rfl
  | some nid =>
    dsimp only
    split <;> rfl

theorem updateSelectedNode_nextId (z : St) (x : Option Nat) :
    (updateSelectedNode z x).nextId = z.nextId := by
  unfold updateSelectedNode
  cases x with
  | none => rfl
  | some nid =>
    dsimp only
    split <;> rfl

theorem refreshSegments_lsn (z : St) :
    (refreshSegments z).ed.liveSplitNodeId = z.ed.liveSplitNodeId := by
  unfold refreshSegments
  split <;> rfl

theorem refreshSegments_lsh (z : St) :
    (refreshSegments z).ed.liveSplitHiddenId = z.ed.liveSplitHiddenId := by
  unfold refreshSegments
  split <;> rfl

theorem refreshSegments_mode (z : St) :
    (refreshSegments z).ed.liveSplitMode = z.ed.liveSplitMode := by
  unfold refreshSegments
  split <;> rfl

theorem refreshSegments_nextId (z : St) :
    (refreshSegments z).nextId = z.nextId := by
  unfold refreshSegments
  split <;> rfl

theorem inv_of_goodA {s : St} (h : GoodA s) : StInv s := by
  obtain ⟨hb, hn, hh, r, hr⟩ := h
  refine ⟨hb, fun _ => ⟨hn, hh⟩, r, hr, ?_⟩
  intro i j hi
  rw [hn] at hi
  cases hi

theorem goodA_exitLiveSplitMode {s : St} (h : StInv s) :
    GoodA (exitLiveSplitMode s) ∧ (exitLiveSplitMode s).tree = s.tree ∧
      (exitLiveSplitMode s).nextId = s.nextId := by
  obtain ⟨hb, hmode, r, hr, -⟩ := h
  refine ⟨?_, exitLiveSplitMode_tree s, exitLiveSplitMode_nextId s⟩
  unfold exitLiveSplitMode
  split
  · exact ⟨hb, rfl, rfl, r, hr⟩
  · next hm =>
    have := hmode (by revert hm; cases s.ed.liveSplitMode <;> simp)
    exact ⟨hb, this.1, this.2, r, hr⟩

theorem goodA_refreshSegments {s : St} (h : GoodA s) : GoodA (refreshSegments s) := by
  obtain ⟨hb, hn, hh, r, hr⟩ := h
  rw [GoodA, refreshSegments_tree, refreshSegments_nextId, refreshSegments_lsn,
    refreshSegments_lsh]
  exact ⟨hb, hn, hh, r, hr⟩

theorem goodA_updateSelectedNode {s : St} (h : GoodA s) (x : Option Nat) :
    GoodA (updateSelectedNode s x) := by
  obtain ⟨hb, hn, hh, r, hr⟩ := h
  rw [GoodA, updateSelectedNode_tree_nodes, updateSelectedNode_nextId,
    updateSelectedNode_ed]
  exact ⟨hb, hn, hh, r, hr⟩

theorem goodA_markStructureChanged {s : St} (h : GoodA s) :
    GoodA (markStructureChanged s) := by
  obtain ⟨hb, hn, hh, r, hr⟩ := h
  exact ⟨hb, hn, hh, r, hr⟩

theorem maybeRemoveEmptyNode_ed (s : St) (nid : Nat) :
    (maybeRemoveEmptyNode s nid).ed.liveSplitNodeId = s.ed.liveSplitNodeId ∧
    (maybeRemoveEmptyNode s nid).ed.liveSplitHiddenId = s.ed.liveSplitHiddenId ∧
    (maybeRemoveEmptyNode s nid).nextId = s.nextId := by
  unfold maybeRemoveEmptyNode
  split
  · exact ⟨rfl, rfl, rfl⟩
  · dsimp only
    repeat' split
    all_goals refine ⟨?_, ?_, ?_⟩ <;>
      simp only [updateSelectedNode_ed, setNodes_ed, markStructureChanged_lsn,
        markStructureChanged_lsh, updateSelectedNode_nextId, setNodes_nextId,
        markStructureChanged_nextId]

theorem promotedChildId_lt (t : TreeState) (rootId defId : Nat) {b : Nat}
    (hb : Bounded t.nodes b) (hdef : defId < b) :
    promotedChildId t rootId defId < b := by
  unfold promotedChildId
  cases hsel : t.selected_node_id with
  | none => exact hdef
  | some sel =>
    dsimp only
    by_cases hsr : (sel != rootId) = true
    · rw [if_pos hsr]
      cases hpath : getPathToNode t.nodes sel t.selected_path with
      | nil => exact hdef
      | cons a rest =>
        cases rest with
        | nil => exact hdef
        | cons b2 rest2 =>
          dsimp only
          by_cases haid : (a.id == rootId) = true
          · rw [if_pos haid]
            have hb2 : b2 ∈ t.nodes :=
              @getPathToNode_mem t.nodes t.selected_path sel b2
                (by rw [hpath]; exact List.mem_cons_of_mem _ (List.mem_cons_self _ _))
            exact (hb b2 hb2).1
          · rw [if_neg haid]
            exact hdef
    · rw [if_neg hsr]
      exact hdef

theorem goodN_maybeRemoveEmptyNode (s : St) (nid : Nat) {b : Nat}
    (hb : Bounded s.tree.nodes b) {r : Nat → Rat} (hr : RankedBy s.tree.nodes r) :
    Bounded (maybeRemoveEmptyNode s nid).tree.nodes b ∧
    ∃ r' : Nat → Rat, RankedBy (maybeRemoveEmptyNode s nid).tree.nodes r' := by
  unfold maybeRemoveEmptyNode
  split
  · exact ⟨hb, r, hr⟩
  next node hlk =>
    dsimp only
    simp only [markStructureChanged_tree]
    have hmem0 : node ∈ s.tree.nodes := lookupNode_mem hlk
    have hid0 : node.id = nid := lookupNode_id hlk
    split
    · -- emptied root
      split
      · -- childless: the graph is cleared
        constructor
        · rw [updateSelectedNode_tree_nodes, setNodes_nodes]
          intro n hn
          cases hn
        · refine ⟨r, ?_⟩
          rw [updateSelectedNode_tree_nodes, setNodes_nodes]
          intro n hn
          cases hn
      · -- promotion: the promoted child is re-ranked below everything
        next hch =>
        set cs := getChildren s.tree.nodes node.id with hcs
        set nrId := promotedChildId s.tree node.id (cs.headD node).id with hnr
        set nodes1 := updateNode s.tree.nodes nrId (fun n => { n with parent_ids := ([] : List Nat) }) with hn1
        set nodes2 := cs.foldl (fun acc c => if (c.id != nrId) = true then updateNode acc c.id (fun n => { n with parent_ids := [nrId] }) else acc) nodes1 with hn2
        set nodes3 := removeNode nodes2 node.id with hn3
        have hdefb : (cs.headD node).id < b := by
          have hne : cs ≠ [] := by
            intro h
            rw [h] at hch
            exact hch rfl
          obtain ⟨c0, cs', hcse⟩ := List.exists_cons_of_ne_nil hne
          rw [hcse, List.headD_cons]
          have : c0 ∈ cs := by rw [hcse]; exact List.mem_cons_self _ _
          have hc0 : c0 ∈ s.tree.nodes := ((mem_getChildren_iff _ _ _).mp (hcs ▸ this)).1
          exact (hb c0 hc0).1
        have hnrb : nrId < b := by
          rw [hnr]
          exact promotedChildId_lt _ _ _ hb hdefb
        set low := listMinD (s.tree.nodes.map (fun n => r n.id)) 0 - 1 with hlowdef
        have hlowlt : ∀ n ∈ s.tree.nodes, low < r n.id := by
          intro n hn
          have h1 : listMinD (s.tree.nodes.map (fun m => r m.id)) 0 ≤ r n.id :=
            listMinD_le (List.mem_map.mpr ⟨n, hn, rfl⟩) 0
          rw [hlowdef]
          linarith
        have hmemrel := foldl_guard_mem_rel cs nodes1
          (fun n => { n with parent_ids := [nrId] })
          (fun c => c.id != nrId)
          (fun n x => x.id = n.id ∧ x.parent_ids = [nrId])
          (fun n => ⟨rfl, rfl⟩)
          (by rintro n m x ⟨a1, a2⟩ ⟨a3, a4⟩; exact ⟨a3.trans a1, a4⟩)
        have hcore : Bounded nodes3 b ∧ RankedBy nodes3 (fun x => if x = nrId then low else r x) := by
          constructor
          · intro x hx
            have hx2 : x ∈ nodes2 := mem_removeNode (hn3 ▸ hx)
            rw [hn2] at hx2
            obtain ⟨n1, hn1m, hcase⟩ := hmemrel x hx2
            rw [hn1] at hn1m
            obtain ⟨n, hn, hcase1⟩ := mem_updateNode_cases hn1m
            rcases hcase with he | ⟨⟨hxid, hxpar⟩, c, hc, hcid, hPc⟩
            · subst he
              rcases hcase1 with ⟨he1, hne1⟩ | ⟨he1, heq1⟩
              · exact he1 ▸ hb n hn
              · subst he1
                refine ⟨(hb n hn).1, ?_⟩
                intro p hp
                simp at hp
            · constructor
              · rw [hxid]
                rcases hcase1 with ⟨he1, -⟩ | ⟨he1, -⟩
                · rw [he1]
                  exact (hb n hn).1
                · rw [he1]
                  exact (hb n hn).1
              · intro p hp
                rw [hxpar] at hp
                have hpe : p = nrId := by simpa using hp
                rw [hpe]
                exact hnrb
          · intro x hx p hp
            dsimp only
            have hx2 : x ∈ nodes2 := mem_removeNode (hn3 ▸ hx)
            rw [hn2] at hx2
            obtain ⟨n1, hn1m, hcase⟩ := hmemrel x hx2
            rw [hn1] at hn1m
            obtain ⟨n, hn, hcase1⟩ := mem_updateNode_cases hn1m
            rcases hcase with he | ⟨⟨hxid, hxpar⟩, c, hc, hcid, hPc⟩
            · subst he
              rcases hcase1 with ⟨he1, hne1⟩ | ⟨he1, heq1⟩
              · rw [he1] at hp ⊢
                by_cases hpn : p = nrId
                · subst hpn
                  rw [if_pos rfl, if_neg hne1]
                  exact hlowlt n hn
                · rw [if_neg hpn, if_neg hne1]
                  exact hr n hn p hp
              · rw [he1] at hp
                simp at hp
            · rw [hxpar] at hp
              have hpe : p = nrId := by simpa using hp
              subst hpe
              rw [if_pos rfl]
              have hxid2 : x.id = n.id := by
                rw [hxid]
                rcases hcase1 with ⟨he1, -⟩ | ⟨he1, -⟩
                · rw [he1]
                · rw [he1]
              have hne2 : x.id ≠ nrId := by
                rw [hxid, ← hcid]
                simpa using hPc
              rw [if_neg hne2, hxid2]
              exact hlowlt n hn
        constructor
        · split
          · rw [updateSelectedNode_tree_nodes, setNodes_nodes]
            exact hcore.1
          · rw [setNodes_nodes]
            exact hcore.1
        · refine ⟨fun x => if x = nrId then low else r x, ?_⟩
          split
          · rw [updateSelectedNode_tree_nodes, setNodes_nodes]
            exact hcore.2
          · rw [setNodes_nodes]
            exact hcore.2
    · -- emptied non-root
      split
      · -- recombination
        rename_i hpids hrec
        split
        next parent c heq1 heq2 =>
          have hparmem : parent ∈ s.tree.nodes := lookupNode_mem heq1
          have hparid : parent.id = (getParentIds node).headD 0 := lookupNode_id heq1
          have hpne : getParentIds node ≠ [] := by
            simpa [List.isEmpty_iff] using hpids
          have hheadmem : (getParentIds node).headD 0 ∈ getParentIds node := by
            cases hgp : getParentIds node with
            | nil => exact absurd hgp hpne
            | cons a l => rw [List.headD_cons]; exact List.mem_cons_self _ _
          have h1 : r parent.id < r node.id := by
            rw [hparid]
            exact hr node hmem0 _ hheadmem
          have hcch : c ∈ getChildren s.tree.nodes node.id := by
            rw [heq2]
            exact List.mem_cons_self _ _
          have hcm := (mem_getChildren_iff _ _ _).mp hcch
          have h2 : r node.id < r c.id := hr c hcm.1 _ hcm.2
          set nodes1 := updateNode s.tree.nodes parent.id (fun n => { n with text := n.text ++ c.text }) with hn1
          set contCh := getChildren nodes1 c.id with hcc
          set nodes2 := contCh.foldl (fun acc g => updateNode acc g.id (fun n => { n with parent_ids := [parent.id] })) nodes1 with hn2
          have hmemrel := foldl_update_mem_rel contCh nodes1
            (fun n => { n with parent_ids := [parent.id] })
            (fun n x => x.id = n.id ∧ x.parent_ids = [parent.id])
            (fun n => ⟨rfl, rfl⟩)
            (by rintro n m x ⟨a1, a2⟩ ⟨a3, a4⟩; exact ⟨a3.trans a1, a4⟩)
          have hskel : ∀ x ∈ nodes1, ∃ n ∈ s.tree.nodes, x.id = n.id ∧
              x.parent_ids = n.parent_ids := by
            intro x hx
            rw [hn1] at hx
            obtain ⟨n, hn, hcase⟩ := mem_updateNode_cases hx
            rcases hcase with ⟨he, -⟩ | ⟨he, -⟩
            · exact ⟨n, hn, by rw [he], by rw [he]⟩
            · exact ⟨n, hn, by rw [he], by rw [he]⟩
          have hcore : Bounded (removeNode (removeNode nodes2 node.id) c.id) b ∧
              RankedBy (removeNode (removeNode nodes2 node.id) c.id) r := by
            constructor
            · intro x hx
              have hx2 : x ∈ nodes2 := mem_removeNode (mem_removeNode hx)
              rw [hn2] at hx2
              obtain ⟨n1, hn1m, hcase⟩ := hmemrel x hx2
              rcases hcase with he | ⟨⟨hxid, hxpar⟩, c2, hc2, hcid2⟩
              · subst he
                obtain ⟨n, hn, hidX, hparX⟩ := hskel x hn1m
                refine ⟨hidX ▸ (hb n hn).1, ?_⟩
                intro p hp
                rw [hparX] at hp
                exact (hb n hn).2 p hp
              · obtain ⟨n, hn, hidX, -⟩ := hskel n1 hn1m
                constructor
                · rw [hxid, hidX]
                  exact (hb n hn).1
                · intro p hp
                  rw [hxpar] at hp
                  have hpe : p = parent.id := by simpa using hp
                  rw [hpe]
                  exact (hb parent hparmem).1
            · intro x hx p hp
              have hx2 : x ∈ nodes2 := mem_removeNode (mem_removeNode hx)
              rw [hn2] at hx2
              obtain ⟨n1, hn1m, hcase⟩ := hmemrel x hx2
              rcases hcase with he | ⟨⟨hxid, hxpar⟩, c2, hc2, hcid2⟩
              · subst he
                obtain ⟨n, hn, hidX, hparX⟩ := hskel x hn1m
                rw [hidX]
                rw [hparX] at hp
                exact hr n hn p hp
              · rw [hxpar] at hp
                have hpe : p = parent.id := by simpa using hp
                subst hpe
                have hc2m : c2 ∈ getChildren nodes1 c.id := by
                  rw [← hcc]
                  exact hc2
                have hc2f := (mem_getChildren_iff _ _ _).mp hc2m
                obtain ⟨n2, hn2m, hid2, hpar2⟩ := hskel c2 hc2f.1
                have h3 : r c.id < r c2.id := by
                  rw [hid2]
                  exact hr n2 hn2m c.id (by rw [← hpar2]; exact hc2f.2)
                rw [hxid, ← hcid2]
                exact lt_trans (lt_trans h1 h2) h3
          constructor
          · rw [setNodes_nodes]
            split
            · rw [updateSelectedNode_tree_nodes, setNodes_nodes]
              exact hcore.1
            · rw [setNodes_nodes]
              exact hcore.1
          · refine ⟨r, ?_⟩
            rw [setNodes_nodes]
            split
            · rw [updateSelectedNode_tree_nodes, setNodes_nodes]
              exact hcore.2
            · rw [setNodes_nodes]
              exact hcore.2
        all_goals exact ⟨hb, r, hr⟩
      · -- plain delete preserving children
        have hdel := goodN_deleteNodePreserveChildren hb hr node.id
        constructor
        · rw [setNodes_nodes]
          split
          · rw [updateSelectedNode_tree_nodes, markStructureChanged_tree]
            exact hdel.1
          · rw [markStructureChanged_tree]
            exact hdel.1
        · refine ⟨r, ?_⟩
          rw [setNodes_nodes]
          split
          · rw [updateSelectedNode_tree_nodes, markStructureChanged_tree]
            exact hdel.2
          · rw [markStructureChanged_tree]
            exact hdel.2

theorem goodN_updateNode_skel {nodes : List Node} {b : Nat} {r : Nat → Rat}
    (hb : Bounded nodes b) (hr : RankedBy nodes r) (i : Nat) (f : Node → Node)
    (hfid : ∀ n, (f n).id = n.id) (hfpar : ∀ n, (f n).parent_ids = n.parent_ids) :
    Bounded (updateNode nodes i f) b ∧ RankedBy (updateNode nodes i f) r := by
  constructor
  · intro x hx
    obtain ⟨n, hn, hcase⟩ := mem_updateNode_cases hx
    rcases hcase with ⟨he, -⟩ | ⟨he, -⟩
    · exact he ▸ hb n hn
    · refine ⟨?_, ?_⟩
      · rw [he, hfid]
        exact (hb n hn).1
      · intro p hp
        rw [he, hfpar] at hp
        exact (hb n hn).2 p hp
  · intro x hx p hp
    obtain ⟨n, hn, hcase⟩ := mem_updateNode_cases hx
    rcases hcase with ⟨he, -⟩ | ⟨he, -⟩
    · exact he ▸ hr n hn p (he ▸ hp)
    · rw [he, hfid]
      rw [he, hfpar] at hp
      exact hr n hn p hp

theorem goodA_setNodes_skel {s : St} (h : GoodA s) (i : Nat) (f : Node → Node)
    (hfid : ∀ n, (f n).id = n.id) (hfpar : ∀ n, (f n).parent_ids = n.parent_ids) :
    GoodA (setNodes s (updateNode s.tree.nodes i f)) := by
  obtain ⟨hb, hn, hh, r, hr⟩ := h
  obtain ⟨hb', hr'⟩ := goodN_updateNode_skel hb hr i f hfid hfpar
  exact ⟨hb', hn, hh, r, hr'⟩

theorem goodA_maybeRemoveEmptyNode {s : St} (h : GoodA s) (nid : Nat) :
    GoodA (maybeRemoveEmptyNode s nid) := by
  obtain ⟨hb, hn, hh, r, hr⟩ := h
  obtain ⟨e1, e2, e3⟩ := maybeRemoveEmptyNode_ed s nid
  obtain ⟨hb', r', hr'⟩ := goodN_maybeRemoveEmptyNode s nid hb hr
  refine ⟨?_, ?_, ?_, r', hr'⟩
  · rw [e3]
    exact hb'
  · rw [e1]
    exact hn
  · rw [e2]
    exact hh

theorem bounded_append_single {nodes : List Node} {b : Nat} (hb : Bounded nodes b)
    {new : Node} {b' : Nat} (hble : b ≤ b') (hid : new.id < b')
    (hpar : ∀ p ∈ new.parent_ids, p < b') : Bounded (nodes ++ [new]) b' := by
  intro x hx
  rcases List.mem_append.mp hx with h | h
  · exact bounded_mono hble hb x h
  · have : x = new := by simpa using h
    subst this
    exact ⟨hid, hpar⟩

theorem rankedBy_append_single {nodes : List Node} {r : Nat → Rat}
    (hr : RankedBy nodes r) {new : Node}
    (hnew : ∀ p ∈ new.parent_ids, r p < r new.id) :
    RankedBy (nodes ++ [new]) r := by
  intro x hx
  rcases List.mem_append.mp hx with h | h
  · exact hr x h
  · have : x = new := by simpa using h
    subst this
    exact hnew

theorem goodN_reparent_fold {base : List Node} {b' : Nat} {r' : Nat → Rat}
    (hbb : Bounded base b') (hrb : RankedBy base r')
    (cs : List Node) (q : Nat) (hq : q < b')
    (hcsrank : ∀ c ∈ cs, r' q < r' c.id) :
    Bounded (cs.foldl (fun acc c => updateNode acc c.id
      (fun n => { n with parent_ids := [q] })) base) b' ∧
    RankedBy (cs.foldl (fun acc c => updateNode acc c.id
      (fun n => { n with parent_ids := [q] })) base) r' := by
  have hmemrel := foldl_update_mem_rel cs base
    (fun n => { n with parent_ids := [q] })
    (fun n x => x.id = n.id ∧ x.parent_ids = [q])
    (fun n => ⟨rfl, rfl⟩)
    (by rintro n m x ⟨a1, a2⟩ ⟨a3, a4⟩; exact ⟨a3.trans a1, a4⟩)
  constructor
  · intro x hx
    obtain ⟨n, hn, hcase⟩ := hmemrel x hx
    rcases hcase with he | ⟨⟨hxid, hxpar⟩, c, hc, hcid⟩
    · exact he ▸ hbb n hn
    · refine ⟨hxid ▸ (hbb n hn).1, ?_⟩
      intro p hp
      rw [hxpar] at hp
      have : p = q := by simpa using hp
      rw [this]
      exact hq
  · intro x hx p hp
    obtain ⟨n, hn, hcase⟩ := hmemrel x hx
    rcases hcase with he | ⟨⟨hxid, hxpar⟩, c, hc, hcid⟩
    · exact he ▸ hrb n hn p (he ▸ hp)
    · rw [hxpar] at hp
      have hpe : p = q := by simpa using hp
      subst hpe
      rw [hxid, ← hcid]
      exact hcsrank c hc

theorem goodA_handleDestructiveDelete {s : St} (h : GoodA s) (position count : Nat) :
    GoodA (handleDestructiveDelete s position count) := by
  unfold handleDestructiveDelete
  have key : ∀ (dels : List Deletion) (st : St), GoodA st →
      GoodA (dels.foldl (fun st del =>
        match lookupNode st.tree.nodes del.nodeId with
        | none => st
        | some node =>
          let ntext := normalizeText node.text
          let newText := ntext.take del.startOffset ++ ntext.drop del.endOffset
          let st1 := setNodes st (updateNode st.tree.nodes node.id
            (fun n => { n with text := newText }))
          if newText.isEmpty then maybeRemoveEmptyNode st1 node.id else st1) st) := by
    intro dels
    induction dels with
    | nil =>
      intro st hst
      exact hst
    | cons d ds ih =>
      intro st hst
      simp only [List.foldl_cons]
      apply ih
      split
      · exact hst
      · next node hlk =>
        split
        · exact goodA_maybeRemoveEmptyNode
            (goodA_setNodes_skel hst node.id
              (fun n => { n with text := List.take d.startOffset (normalizeText node.text) ++ List.drop d.endOffset (normalizeText node.text) })
              (fun n => rfl) (fun n => rfl)) node.id
        · exact goodA_setNodes_skel hst node.id
            (fun n => { n with text := List.take d.startOffset (normalizeText node.text) ++ List.drop d.endOffset (normalizeText node.text) })
            (fun n => rfl) (fun n => rfl)
  exact key _ s h

theorem bounded_append {A B : List Node} {b : Nat} (hA : Bounded A b)
    (hB : Bounded B b) : Bounded (A ++ B) b := by
  intro x hx
  rcases List.mem_append.mp hx with h | h
  · exact hA x h
  · exact hB x h

theorem rankedBy_append {A B : List Node} {r : Nat → Rat} (hA : RankedBy A r)
    (hB : RankedBy B r) : RankedBy (A ++ B) r := by
  intro x hx
  rcases List.mem_append.mp hx with h | h
  · exact hA x h
  · exact hB x h

theorem getChildren_facts {g : List Node} {b : Nat} {r : Nat → Rat}
    (hbg : Bounded g b) (hrg : RankedBy g r) (i : Nat) :
    ∀ c ∈ getChildren g i, c.id < b ∧ r i < r c.id := by
  intro c hc
  have hcf := (mem_getChildren_iff _ _ _).mp hc
  exact ⟨(hbg c hcf.1).1, hrg c hcf.1 i hcf.2⟩

theorem rank_ceiling {cs : List Node} {r : Nat → Rat} {a : Rat}
    (h : ∀ c ∈ cs, a < r c.id) :
    a < listMinD (cs.map (fun c => r c.id)) (a + 1) ∧
    ∀ c ∈ cs, listMinD (cs.map (fun c => r c.id)) (a + 1) ≤ r c.id := by
  constructor
  · refine lt_listMinD (by linarith) ?_
    intro x hx
    obtain ⟨c, hc, he⟩ := List.mem_map.mp hx
    exact he ▸ h c hc
  · intro c hc
    exact listMinD_le (List.mem_map.mpr ⟨c, hc, rfl⟩) _

theorem interval2 {a B : Rat} (h : a < B) :
    a < a + (B - a) / 3 ∧ a + (B - a) / 3 < a + (B - a) * 2 / 3 ∧
      a + (B - a) * 2 / 3 < B := by
  refine ⟨by linarith, by linarith, by linarith⟩

theorem goodN_append_leaf {nodes : List Node} {b : Nat} {r : Nat → Rat}
    (hb : Bounded nodes b) (hr : RankedBy nodes r) (new : Node)
    (hid : new.id = b) (hpar : ∀ p ∈ new.parent_ids, p < b) :
    Bounded (nodes ++ [new]) (b + 1) ∧ ∃ r', RankedBy (nodes ++ [new]) r' := by
  constructor
  · exact bounded_append_single hb (Nat.le_succ b) (by omega)
      (fun p hp => lt_trans (hpar p hp) (Nat.lt_succ_self b))
  · refine ⟨rext r b (listMaxD (new.parent_ids.map r) 0 + 1), ?_⟩
    apply rankedBy_append_single
    · exact rankedBy_rext hb hr (le_refl b) _
    · intro p hp
      rw [rext_ne _ _ (Nat.ne_of_lt (hpar p hp)), hid, rext_self]
      have := @le_listMaxD (new.parent_ids.map r) (r p) (List.mem_map.mpr ⟨p, hp, rfl⟩) 0
      linarith

theorem goodA_splitNodeForInsertion {s : St} (h : GoodA s) (nodeId offset : Nat)
    (insertText : List Char) :
    GoodA (splitNodeForInsertion s nodeId offset insertText) := by
  obtain ⟨hb, hn, hh, r, hr⟩ := h
  unfold splitNodeForInsertion
  split
  · exact ⟨hb, hn, hh, r, hr⟩
  next node hlk =>
    dsimp only
    simp only [markStructureChanged_tree, setNodes_nodes]
    have hmem0 : node ∈ s.tree.nodes := lookupNode_mem hlk
    have hska := goodN_updateNode_skel hb hr node.id
      (fun n => { n with text := normalizeText node.text }) (fun n => rfl) (fun n => rfl)
    split
    · -- inserting at the end
      split
      · -- append a human child
        obtain ⟨hb2, r2, hr2⟩ := goodN_append_leaf hska.1 hska.2
          (createNode s.nextId [node.id] insertText NType.human none) rfl
          (by
            intro p hp
            have hpe : p = node.id := by simpa [createNode] using hp
            rw [hpe]
            exact (hb node hmem0).1)
        split
        · apply goodA_updateSelectedNode
          exact ⟨hb2, hn, hh, r2, hr2⟩
        · exact ⟨hb2, hn, hh, r2, hr2⟩
      · exact ⟨hska.1, hn, hh, r, hska.2⟩
    · split
      · -- human sibling under the first parent
        next hcond =>
        have hpbool : (!(getParentIds node).isEmpty) = true := by
          have h2 := hcond
          simp only [Bool.and_eq_true] at h2
          exact h2.2
        have hpne : getParentIds node ≠ [] := by
          intro hcontra
          rw [hcontra] at hpbool
          simp at hpbool
        have hheadmem : (getParentIds node).headD 0 ∈ getParentIds node := by
          cases hgp : getParentIds node with
          | nil => exact absurd hgp hpne
          | cons a l => rw [List.headD_cons]; exact List.mem_cons_self _ _
        obtain ⟨hb2, r2, hr2⟩ := goodN_append_leaf hska.1 hska.2
          (createNode s.nextId [(getParentIds node).headD 0] insertText NType.human none)
          rfl
          (by
            intro p hp
            have hpe : p = (getParentIds node).headD 0 := by simpa [createNode] using hp
            rw [hpe]
            exact (hb node hmem0).2 _ hheadmem)
        split
        · apply goodA_updateSelectedNode
          exact ⟨hb2, hn, hh, r2, hr2⟩
        · exact ⟨hb2, hn, hh, r2, hr2⟩
      · -- the split: before-text stays, human + continuation spliced in
        have hsk2 := goodN_updateNode_skel hska.1 hska.2 node.id
          (fun n => { n with text := (normalizeText node.text).take offset })
          (fun n => rfl) (fun n => rfl)
        set nodes2 := updateNode (updateNode s.tree.nodes node.id (fun n => { n with text := normalizeText node.text })) node.id (fun n => { n with text := (normalizeText node.text).take offset }) with hnodes2
        set ec := getChildren nodes2 node.id with hecdef
        have hnb : node.id < s.nextId := (hb node hmem0).1
        have hecf := getChildren_facts hsk2.1 hsk2.2 node.id
        obtain ⟨haB, hBle⟩ := rank_ceiling (fun c hc => (hecf c hc).2)
        obtain ⟨hv1, hv12, hv2⟩ := interval2 haB
        set r' := rext (rext r s.nextId (r node.id + (listMinD (ec.map (fun c => r c.id)) (r node.id + 1) - r node.id) / 3)) (s.nextId + 1) (r node.id + (listMinD (ec.map (fun c => r c.id)) (r node.id + 1) - r node.id) * 2 / 3) with hrdef
        have hrv0 : ∀ i, i < s.nextId → r' i = r i := by
          intro i hi
          rw [hrdef, rext_ne _ _ (by omega), rext_ne _ _ (by omega)]
        have hrvH : r' s.nextId
            = r node.id + (listMinD (ec.map (fun c => r c.id)) (r node.id + 1) - r node.id) / 3 := by
          rw [hrdef, rext_ne _ _ (by omega), rext_self]
        have hrvA : r' (s.nextId + 1)
            = r node.id + (listMinD (ec.map (fun c => r c.id)) (r node.id + 1) - r node.id) * 2 / 3 := by
          rw [hrdef, rext_self]
        have hrA : RankedBy nodes2 r' := by
          rw [hrdef]
          exact rankedBy_rext hsk2.1 (rankedBy_rext hsk2.1 hsk2.2 (le_refl _) _)
            (Nat.le_succ _) _
        have h2elem : RankedBy [createNode s.nextId [node.id] insertText NType.human none,
            { createNode (s.nextId + 1) [s.nextId] ((normalizeText node.text).drop offset) node.ntype node.model with splitFrom := some node.id }] r' := by
          intro x hx p hp
          rcases List.mem_cons.mp hx with he | hx2
          · subst he
            have hpe : p = node.id := by simpa [createNode] using hp
            subst hpe
            rw [show (createNode s.nextId [node.id] insertText NType.human none).id
              = s.nextId from rfl, hrvH, hrv0 node.id hnb]
            exact hv1
          · have he : x = { createNode (s.nextId + 1) [s.nextId] ((normalizeText node.text).drop offset) node.ntype node.model with splitFrom := some node.id } := by
              simpa using hx2
            subst he
            have hpe : p = s.nextId := by simpa [createNode] using hp
            subst hpe
            rw [show ({ createNode (s.nextId + 1) [s.nextId] ((normalizeText node.text).drop offset) node.ntype node.model with splitFrom := some node.id } : Node).id = s.nextId + 1 from rfl, hrvA, hrvH]
            exact hv12
        have hrfull : RankedBy (nodes2 ++ [createNode s.nextId [node.id] insertText NType.human none,
            { createNode (s.nextId + 1) [s.nextId] ((normalizeText node.text).drop offset) node.ntype node.model with splitFrom := some node.id }]) r' :=
          rankedBy_append hrA h2elem
        have hbfull : Bounded (nodes2 ++ [createNode s.nextId [node.id] insertText NType.human none,
            { createNode (s.nextId + 1) [s.nextId] ((normalizeText node.text).drop offset) node.ntype node.model with splitFrom := some node.id }]) (s.nextId + 2) := by
          apply bounded_append (bounded_mono (by omega) hsk2.1)
          intro x hx
          rcases List.mem_cons.mp hx with he | hx2
          · subst he
            refine ⟨show s.nextId < s.nextId + 2 by omega, ?_⟩
            intro p hp
            have hpe : p = node.id := by simpa [createNode] using hp
            rw [hpe]
            omega
          · have he : x = { createNode (s.nextId + 1) [s.nextId] ((normalizeText node.text).drop offset) node.ntype node.model with splitFrom := some node.id } := by
              simpa using hx2
            subst he
            refine ⟨show s.nextId + 1 < s.nextId + 2 by omega, ?_⟩
            intro p hp
            have hpe : p = s.nextId := by simpa [createNode] using hp
            rw [hpe]
            omega
        have hfold := goodN_reparent_fold hbfull hrfull ec (s.nextId + 1) (by omega)
          (by
            intro c hc
            rw [hrvA, hrv0 c.id (hecf c hc).1]
            have h1 := hBle c hc
            have h2 := (hecf c hc).2
            linarith)
        split
        · apply goodA_updateSelectedNode
          exact ⟨hfold.1, hn, hh, r', hfold.2⟩
        · exact ⟨hfold.1, hn, hh, r', hfold.2⟩

theorem goodA_handleInsert {s : St} (h : GoodA s) (position : Nat) (text : List Char) :
    GoodA (handleInsert s position text) := by
  obtain ⟨hb, hn, hh, r, hr⟩ := h
  unfold handleInsert
  dsimp only
  simp only [markStructureChanged_tree, setNodes_nodes]
  split
  · -- no segment under the cursor
    split
    · -- a node is selected
      split
      · exact goodA_setNodes_skel ⟨hb, hn, hh, r, hr⟩ _ _ (fun n => rfl) (fun n => rfl)
      · exact ⟨hb, hn, hh, r, hr⟩
    · -- fresh root
      obtain ⟨hb2, r2, hr2⟩ := goodN_append_leaf hb hr
        (createNode s.nextId [] text NType.human none) rfl
        (by intro p hp; simp [createNode] at hp)
      apply goodA_updateSelectedNode
      exact ⟨hb2, hn, hh, r2, hr2⟩
  next seg hseg =>
    split
    · -- stale segment: fresh root
      obtain ⟨hb2, r2, hr2⟩ := goodN_append_leaf hb hr
        (createNode s.nextId [] text NType.human none) rfl
        (by intro p hp; simp [createNode] at hp)
      apply goodA_updateSelectedNode
      exact ⟨hb2, hn, hh, r2, hr2⟩
    · next node hlk =>
      have hmem0 : node ∈ s.tree.nodes := lookupNode_mem hlk
      have hska := goodN_updateNode_skel hb hr node.id
        (fun n => { n with text := normalizeText node.text }) (fun n => rfl) (fun n => rfl)
      split
      · -- human node
        split
        · -- append a human child at the end
          obtain ⟨hb2, r2, hr2⟩ := goodN_append_leaf hska.1 hska.2
            (createNode s.nextId [node.id] text NType.human none) rfl
            (by
              intro p hp
              have hpe : p = node.id := by simpa [createNode] using hp
              rw [hpe]
              exact (hb node hmem0).1)
          apply goodA_updateSelectedNode
          exact ⟨hb2, hn, hh, r2, hr2⟩
        · -- in-place edit
          have hsk2 := goodN_updateNode_skel hska.1 hska.2 node.id
            (fun n => { n with text := (normalizeText node.text).take (position - seg.startPos) ++ text ++ (normalizeText node.text).drop (position - seg.startPos) })
            (fun n => rfl) (fun n => rfl)
          exact ⟨hsk2.1, hn, hh, r, hsk2.2⟩
      · -- AI node
        have hs1 : GoodA (setNodes s (updateNode s.tree.nodes node.id
            (fun n => { n with text := normalizeText node.text }))) :=
          goodA_setNodes_skel ⟨hb, hn, hh, r, hr⟩ node.id _ (fun n => rfl) (fun n => rfl)
        split
        · -- merge into the previous segment node (or fall through to a split)
          split
          · split
            · exact goodA_setNodes_skel ⟨hb, hn, hh, r, hr⟩ _ _ (fun n => rfl) (fun n => rfl)
            · exact goodA_splitNodeForInsertion hs1 _ _ _
          · exact goodA_splitNodeForInsertion hs1 _ _ _
        · split
          · split
            · split
              · split
                · exact goodA_setNodes_skel hs1 _ _ (fun n => rfl) (fun n => rfl)
                · exact goodA_splitNodeForInsertion hs1 _ _ _
              · exact goodA_splitNodeForInsertion hs1 _ _ _
            · exact goodA_splitNodeForInsertion hs1 _ _ _
          · exact goodA_splitNodeForInsertion hs1 _ _ _

theorem goodN_updateNode_parents {nodes : List Node} {b : Nat} {r : Nat → Rat}
    (hb : Bounded nodes b) (hr : RankedBy nodes r) (i : Nat) (P : List Nat)
    (hPb : ∀ p ∈ P, p < b) (hPr : ∀ p ∈ P, r p < r i) :
    Bounded (updateNode nodes i (fun n => { n with parent_ids := P })) b ∧
    RankedBy (updateNode nodes i (fun n => { n with parent_ids := P })) r := by
  constructor
  · intro x hx
    obtain ⟨n, hn, hcase⟩ := mem_updateNode_cases hx
    rcases hcase with ⟨he, -⟩ | ⟨he, hi⟩
    · rw [he]
      exact hb n hn
    · rw [he]
      exact ⟨(hb n hn).1, fun p hp => hPb p hp⟩
  · intro x hx p hp
    obtain ⟨n, hn, hcase⟩ := mem_updateNode_cases hx
    rcases hcase with ⟨he, -⟩ | ⟨he, hi⟩
    · rw [he] at hp ⊢
      exact hr n hn p hp
    · rw [he] at hp ⊢
      show r p < r n.id
      rw [hi]
      exact hPr p hp

theorem headD_mem_of_not_isEmpty {l : List Nat} (h : l.isEmpty = false) (d : Nat) :
    l.headD d ∈ l := by
  cases l with
  | nil => simp at h
  | cons a t => simp [List.headD]

theorem stage2_good (sbase : St) (node : Node) (insertText : List Char)
    (nodesS : List Node) (branchPointId : Option Nat) (existingChildren : List Node)
    (remainderText : List Char) (nidS : Nat) (aiN1 aiN2 : Node)
    (hids : sbase.ed.liveSplitNodeId = none) (hidh : sbase.ed.liveSplitHiddenId = none)
    (hbS : Bounded nodesS nidS)
    (r' : Nat → Rat) (aV B : Rat) (hrS : RankedBy nodesS r')
    (haB : aV < B)
    (hbp : ∀ i, branchPointId = some i → i < nidS ∧ r' i ≤ aV)
    (hec : ∀ c ∈ existingChildren, c.id < nidS ∧ B ≤ r' c.id)
    (hai1 : aiN1.id = nidS + 1)
    (hai1p : ∀ p ∈ aiN1.parent_ids, p = nidS ∨ (p < nidS ∧ r' p < aV + (B - aV) * 2 / 3))
    (hai2 : aiN2.id = nidS)
    (hai2p : branchPointId.isSome = true → ∀ p ∈ aiN2.parent_ids, p < nidS ∧ r' p < aV + (B - aV) / 3) :
    GoodA (
      let sS := { sbase with
        tree := { sbase.tree with nodes := nodesS }, nextId := nidS }
      if !insertText.isEmpty && branchPointId.isSome then
        let bp := branchPointId.getD 0
        let humanId := sS.nextId
        let humanNode := createNode humanId [bp] insertText NType.human none
        let nodesH := sS.tree.nodes ++ [humanNode]
        let sH := { sS with
          tree := { sS.tree with nodes := nodesH }, nextId := sS.nextId + 1 }
        if !remainderText.isEmpty then
          let nodesA := sH.tree.nodes ++ [aiN1]
          let nodesB := existingChildren.foldl (fun acc c =>
            updateNode acc c.id (fun n => { n with parent_ids := [nidS + 1] })) nodesA
          let sA := { sH with
            tree := { sH.tree with nodes := nodesB }, nextId := sH.nextId + 1 }
          let originalSelectedId := sbase.tree.selected_node_id
          let keepOriginal :=
            match originalSelectedId with
            | some orig =>
              orig != node.id &&
              existingChildren.any (fun child =>
                child.id == orig ||
                (getDescendants sA.tree.nodes sA.tree.nodes.length child.id).any
                  (fun d => d.id == orig))
            | none => false
          let newSelectedId := if keepOriginal then originalSelectedId.getD 0 else nidS + 1
          let sB := { sA with ed := { sA.ed with
            cursorNodeId := some humanId, inlineEditNodeId := some humanId } }
          updateSelectedNode sB (some newSelectedId)
        else
          updateSelectedNode sH (some humanId)
      else if !remainderText.isEmpty && branchPointId.isSome then
        let nodesA := sS.tree.nodes ++ [aiN2]
        let nodesB := existingChildren.foldl (fun acc c =>
          updateNode acc c.id (fun n => { n with parent_ids := [nidS] })) nodesA
        let sA := { sS with
          tree := { sS.tree with nodes := nodesB }, nextId := sS.nextId + 1 }
        updateSelectedNode sA (some nidS)
      else
        match branchPointId with
        | some bp =>
          let bpText :=
            match lookupNode sS.tree.nodes bp with
            | some bpNode => jsTrim bpNode.text
            | none => []
          if bpText.isEmpty then
            match getChildren sS.tree.nodes bp with
            | c :: _ => updateSelectedNode sS (some c.id)
            | [] => updateSelectedNode sS (some bp)
          else updateSelectedNode sS (some bp)
        | none => sS) := by
  obtain ⟨hv1, hv12, hv2⟩ := interval2 haB
  dsimp only
  split
  · -- typed text goes to a fresh human child of the branch point
    next hc1 =>
    have hbpsome : branchPointId.isSome = true := by
      have h2 := hc1
      simp only [Bool.and_eq_true] at h2
      exact h2.2
    obtain ⟨bpv, hbpv⟩ := Option.isSome_iff_exists.mp hbpsome
    have hbpf := hbp bpv hbpv
    have hgd : branchPointId.getD 0 = bpv := by rw [hbpv]; rfl
    set r2 := rext (rext r' nidS (aV + (B - aV) / 3)) (nidS + 1) (aV + (B - aV) * 2 / 3) with hr2def
    have hrv0 : ∀ i, i < nidS → r2 i = r' i := by
      intro i hi
      rw [hr2def, rext_ne _ _ (by omega), rext_ne _ _ (by omega)]
    have hrvH : r2 nidS = aV + (B - aV) / 3 := by
      rw [hr2def, rext_ne _ _ (by omega), rext_self]
    have hrvA : r2 (nidS + 1) = aV + (B - aV) * 2 / 3 := by
      rw [hr2def, rext_self]
    have hrS2 : RankedBy nodesS r2 := by
      rw [hr2def]
      exact rankedBy_rext hbS (rankedBy_rext hbS hrS (le_refl _) _) (Nat.le_succ _) _
    have hrH : RankedBy (nodesS ++ [createNode nidS [branchPointId.getD 0] insertText NType.human none]) r2 := by
      apply rankedBy_append_single hrS2
      intro p hp
      have hpe : p = branchPointId.getD 0 := by simpa [createNode] using hp
      rw [hpe, hgd]
      show r2 bpv < r2 nidS
      rw [hrvH, hrv0 bpv hbpf.1]
      have := hbpf.2
      linarith
    have hbH : Bounded (nodesS ++ [createNode nidS [branchPointId.getD 0] insertText NType.human none]) (nidS + 1) := by
      apply bounded_append_single hbS (Nat.le_succ _) (show nidS < nidS + 1 by omega)
      intro p hp
      have hpe : p = branchPointId.getD 0 := by simpa [createNode] using hp
      rw [hpe, hgd]
      omega
    split
    · -- continuation node follows the typed text
      have hrA2 : RankedBy ((nodesS ++ [createNode nidS [branchPointId.getD 0] insertText NType.human none]) ++ [aiN1]) r2 := by
        apply rankedBy_append_single hrH
        intro p hp
        rw [hai1]
        rcases hai1p p hp with hpe | ⟨hplt, hple⟩
        · subst hpe
          rw [hrvH, hrvA]
          linarith
        · rw [hrvA, hrv0 p hplt]
          linarith
      have hbA2 : Bounded ((nodesS ++ [createNode nidS [branchPointId.getD 0] insertText NType.human none]) ++ [aiN1]) (nidS + 2) := by
        apply bounded_append_single hbH (by omega)
        · rw [hai1]
          omega
        · intro p hp
          rcases hai1p p hp with hpe | ⟨hplt, -⟩ <;> omega
      have hfold := goodN_reparent_fold hbA2 hrA2 existingChildren (nidS + 1) (by omega)
        (by
          intro c hc
          rw [hrvA, hrv0 c.id (hec c hc).1]
          have := (hec c hc).2
          linarith)
      apply goodA_updateSelectedNode
      exact ⟨hfold.1, hids, hidh, r2, hfold.2⟩
    · -- no remainder: the human child ends the path
      apply goodA_updateSelectedNode
      exact ⟨hbH, hids, hidh, r2, hrH⟩
  · -- no typed text (or no branch point)
    split
    · -- remainder only: continuation node under the branch point
      next hc2 =>
      have hbpsome2 : branchPointId.isSome = true := by
        simp only [Bool.and_eq_true] at hc2
        exact hc2.2
      have hai2pp := hai2p hbpsome2
      set r2 := rext r' nidS (aV + (B - aV) / 3) with hr2def
      have hrv0 : ∀ i, i < nidS → r2 i = r' i := by
        intro i hi
        rw [hr2def, rext_ne _ _ (by omega)]
      have hrvA : r2 nidS = aV + (B - aV) / 3 := by
        rw [hr2def, rext_self]
      have hrS2 : RankedBy nodesS r2 := by
        rw [hr2def]
        exact rankedBy_rext hbS hrS (le_refl _) _
      have hrA2 : RankedBy (nodesS ++ [aiN2]) r2 := by
        apply rankedBy_append_single hrS2
        intro p hp
        rw [hai2]
        obtain ⟨hplt, hple⟩ := hai2pp p hp
        rw [hrvA, hrv0 p hplt]
        linarith
      have hbA2 : Bounded (nodesS ++ [aiN2]) (nidS + 1) := by
        apply bounded_append_single hbS (Nat.le_succ _)
        · rw [hai2]
          omega
        · intro p hp
          have := (hai2pp p hp).1
          omega
      have hfold := goodN_reparent_fold hbA2 hrA2 existingChildren nidS (by omega)
        (by
          intro c hc
          rw [hrvA, hrv0 c.id (hec c hc).1]
          have := (hec c hc).2
          linarith)
      apply goodA_updateSelectedNode
      exact ⟨hfold.1, hids, hidh, r2, hfold.2⟩
    · -- selection housekeeping only
      split
      · split
        · split
          · apply goodA_updateSelectedNode
            exact ⟨hbS, hids, hidh, r', hrS⟩
          · apply goodA_updateSelectedNode
            exact ⟨hbS, hids, hidh, r', hrS⟩
        · apply goodA_updateSelectedNode
          exact ⟨hbS, hids, hidh, r', hrS⟩
      · exact ⟨hbS, hids, hidh, r', hrS⟩

theorem stage2_goodR (sbase : St) (node : Node) (insertText : List Char)
    (nodesS : List Node) (branchPointId : Option Nat) (existingChildren : List Node)
    (remainderText : List Char) (nidS : Nat) (aiN1 aiN2 : Node)
    (hids : sbase.ed.liveSplitNodeId = none) (hidh : sbase.ed.liveSplitHiddenId = none)
    (hbS : Bounded nodesS nidS)
    (r' : Nat → Rat) (aV B : Rat) (hrS : RankedBy nodesS r')
    (haB : aV < B)
    (hbp : ∀ i, branchPointId = some i → i < nidS ∧ r' i ≤ aV)
    (hec : ∀ c ∈ existingChildren, c.id < nidS ∧ B ≤ r' c.id)
    (hai1 : aiN1.id = nidS + 1)
    (hai1p : ∀ p ∈ aiN1.parent_ids, p = nidS ∨ (p < nidS ∧ r' p < aV + (B - aV) * 2 / 3))
    (hai2 : aiN2.id = nidS)
    (hai2p : branchPointId.isSome = true → ∀ p ∈ aiN2.parent_ids, p < nidS ∧ r' p < aV + (B - aV) / 3) :
    GoodA (
      let sS := { sbase with
        tree := { sbase.tree with nodes := nodesS }, nextId := nidS }
      if !insertText.isEmpty && branchPointId.isSome then
        let bp := branchPointId.getD 0
        let humanId := sS.nextId
        let humanNode := createNode humanId [bp] insertText NType.human none
        let nodesH := sS.tree.nodes ++ [humanNode]
        let sH := { sS with
          tree := { sS.tree with nodes := nodesH }, nextId := sS.nextId + 1 }
        let nodesA := sH.tree.nodes ++ [aiN1]
        let nodesB := existingChildren.foldl (fun acc c =>
          updateNode acc c.id (fun n => { n with parent_ids := [nidS + 1] })) nodesA
        let sA := { sH with
          tree := { sH.tree with nodes := nodesB }, nextId := sH.nextId + 1 }
        let originalSelectedId := sbase.tree.selected_node_id
        let keepOriginal :=
          match originalSelectedId with
          | some orig =>
            orig != node.id &&
            existingChildren.any (fun child =>
              child.id == orig ||
              (getDescendants sA.tree.nodes sA.tree.nodes.length child.id).any
                (fun d => d.id == orig))
          | none => false
        let newSelectedId := if keepOriginal then originalSelectedId.getD 0 else nidS + 1
        let sB := { sA with ed := { sA.ed with
          cursorNodeId := some humanId, inlineEditNodeId := some humanId } }
        updateSelectedNode sB (some newSelectedId)
      else if !remainderText.isEmpty && branchPointId.isSome then
        let nodesA := sS.tree.nodes ++ [aiN2]
        let nodesB := existingChildren.foldl (fun acc c =>
          updateNode acc c.id (fun n => { n with parent_ids := [nidS] })) nodesA
        let sA := { sS with
          tree := { sS.tree with nodes := nodesB }, nextId := sS.nextId + 1 }
        updateSelectedNode sA (some nidS)
      else
        match branchPointId with
        | some bp =>
          let bpText :=
            match lookupNode sS.tree.nodes bp with
            | some bpNode => jsTrim bpNode.text
            | none => []
          if bpText.isEmpty then
            match getChildren sS.tree.nodes bp with
            | c :: _ => updateSelectedNode sS (some c.id)
            | [] => updateSelectedNode sS (some bp)
          else updateSelectedNode sS (some bp)
        | none => sS) := by
  obtain ⟨hv1, hv12, hv2⟩ := interval2 haB
  dsimp only
  split
  · -- typed text goes to a fresh human child of the branch point
    next hc1 =>
    have hbpsome : branchPointId.isSome = true := by
      have h2 := hc1
      simp only [Bool.and_eq_true] at h2
      exact h2.2
    obtain ⟨bpv, hbpv⟩ := Option.isSome_iff_exists.mp hbpsome
    have hbpf := hbp bpv hbpv
    have hgd : branchPointId.getD 0 = bpv := by rw [hbpv]; rfl
    set r2 := rext (rext r' nidS (aV + (B - aV) / 3)) (nidS + 1) (aV + (B - aV) * 2 / 3) with hr2def
    have hrv0 : ∀ i, i < nidS → r2 i = r' i := by
      intro i hi
      rw [hr2def, rext_ne _ _ (by omega), rext_ne _ _ (by omega)]
    have hrvH : r2 nidS = aV + (B - aV) / 3 := by
      rw [hr2def, rext_ne _ _ (by omega), rext_self]
    have hrvA : r2 (nidS + 1) = aV + (B - aV) * 2 / 3 := by
      rw [hr2def, rext_self]
    have hrS2 : RankedBy nodesS r2 := by
      rw [hr2def]
      exact rankedBy_rext hbS (rankedBy_rext hbS hrS (le_refl _) _) (Nat.le_succ _) _
    have hrH : RankedBy (nodesS ++ [createNode nidS [branchPointId.getD 0] insertText NType.human none]) r2 := by
      apply rankedBy_append_single hrS2
      intro p hp
      have hpe : p = branchPointId.getD 0 := by simpa [createNode] using hp
      rw [hpe, hgd]
      show r2 bpv < r2 nidS
      rw [hrvH, hrv0 bpv hbpf.1]
      have := hbpf.2
      linarith
    have hbH : Bounded (nodesS ++ [createNode nidS [branchPointId.getD 0] insertText NType.human none]) (nidS + 1) := by
      apply bounded_append_single hbS (Nat.le_succ _) (show nidS < nidS + 1 by omega)
      intro p hp
      have hpe : p = branchPointId.getD 0 := by simpa [createNode] using hp
      rw [hpe, hgd]
      omega
    have hrA2 : RankedBy ((nodesS ++ [createNode nidS [branchPointId.getD 0] insertText NType.human none]) ++ [aiN1]) r2 := by
      apply rankedBy_append_single hrH
      intro p hp
      rw [hai1]
      rcases hai1p p hp with hpe | ⟨hplt, hple⟩
      · subst hpe
        rw [hrvH, hrvA]
        linarith
      · rw [hrvA, hrv0 p hplt]
        linarith
    have hbA2 : Bounded ((nodesS ++ [createNode nidS [branchPointId.getD 0] insertText NType.human none]) ++ [aiN1]) (nidS + 2) := by
      apply bounded_append_single hbH (by omega)
      · rw [hai1]
        omega
      · intro p hp
        rcases hai1p p hp with hpe | ⟨hplt, -⟩ <;> omega
    have hfold := goodN_reparent_fold hbA2 hrA2 existingChildren (nidS + 1) (by omega)
      (by
        intro c hc
        rw [hrvA, hrv0 c.id (hec c hc).1]
        have := (hec c hc).2
        linarith)
    apply goodA_updateSelectedNode
    exact ⟨hfold.1, hids, hidh, r2, hfold.2⟩
  · -- no typed text (or no branch point)
    split
    · -- remainder only: continuation node under the branch point
      next hc2 =>
      have hbpsome2 : branchPointId.isSome = true := by
        simp only [Bool.and_eq_true] at hc2
        exact hc2.2
      have hai2pp := hai2p hbpsome2
      set r2 := rext r' nidS (aV + (B - aV) / 3) with hr2def
      have hrv0 : ∀ i, i < nidS → r2 i = r' i := by
        intro i hi
        rw [hr2def, rext_ne _ _ (by omega)]
      have hrvA : r2 nidS = aV + (B - aV) / 3 := by
        rw [hr2def, rext_self]
      have hrS2 : RankedBy nodesS r2 := by
        rw [hr2def]
        exact rankedBy_rext hbS hrS (le_refl _) _
      have hrA2 : RankedBy (nodesS ++ [aiN2]) r2 := by
        apply rankedBy_append_single hrS2
        intro p hp
        rw [hai2]
        obtain ⟨hplt, hple⟩ := hai2pp p hp
        rw [hrvA, hrv0 p hplt]
        linarith
      have hbA2 : Bounded (nodesS ++ [aiN2]) (nidS + 1) := by
        apply bounded_append_single hbS (Nat.le_succ _)
        · rw [hai2]
          omega
        · intro p hp
          have := (hai2pp p hp).1
          omega
      have hfold := goodN_reparent_fold hbA2 hrA2 existingChildren nidS (by omega)
        (by
          intro c hc
          rw [hrvA, hrv0 c.id (hec c hc).1]
          have := (hec c hc).2
          linarith)
      apply goodA_updateSelectedNode
      exact ⟨hfold.1, hids, hidh, r2, hfold.2⟩
    · -- selection housekeeping only
      split
      · split
        · split
          · apply goodA_updateSelectedNode
            exact ⟨hbS, hids, hidh, r', hrS⟩
          · apply goodA_updateSelectedNode
            exact ⟨hbS, hids, hidh, r', hrS⟩
        · apply goodA_updateSelectedNode
          exact ⟨hbS, hids, hidh, r', hrS⟩
      · exact ⟨hbS, hids, hidh, r', hrS⟩

set_option maxHeartbeats 1000000 in
theorem goodA_handleBranchingEdit (s : St) (position deleteCount : Nat)
    (insertText : List Char) (h : GoodA s) :
    GoodA (handleBranchingEdit s position deleteCount insertText) := by
  have h1 : GoodA (markStructureChanged s) := goodA_markStructureChanged h
  unfold handleBranchingEdit
  dsimp only
  set s1 := markStructureChanged s with hs1
  obtain ⟨hb, hids, hidh, r, hr⟩ := h1
  split
  · split
    · apply goodA_updateSelectedNode
      obtain ⟨hbA, hrA⟩ := goodN_append_leaf hb hr
        (createNode s1.nextId [] insertText NType.human none) rfl
        (fun p hp => by simp [createNode] at hp)
      exact ⟨hbA, hids, hidh, hrA⟩
    · exact ⟨hb, hids, hidh, r, hr⟩
  · split
    · split
      · apply goodA_updateSelectedNode
        obtain ⟨hbA, hrA⟩ := goodN_append_leaf hb hr
          (createNode s1.nextId [] insertText NType.human none) rfl
          (fun p hp => by simp [createNode] at hp)
        exact ⟨hbA, hids, hidh, hrA⟩
      · exact ⟨hb, hids, hidh, r, hr⟩
    · rename_i seg hseg sopt node hlk
      have hmem := lookupNode_mem hlk
      have hnid : node.id < s1.nextId := (hb node hmem).1
      by_cases ho : 0 < position - seg.startPos
      · simp only [if_pos ho]
        have hskel1 := goodN_updateNode_skel hb hr node.id
          (fun n => { n with text := normalizeText node.text })
          (fun n => rfl) (fun n => rfl)
        have hskel2 := goodN_updateNode_skel hskel1.1 hskel1.2 node.id
          (fun n => { n with text := List.take (position - seg.startPos) (normalizeText node.text) })
          (fun n => rfl) (fun n => rfl)
        set EC := getChildren (updateNode (updateNode s1.tree.nodes node.id
          (fun n => { n with text := normalizeText node.text })) node.id
          (fun n => { n with text := List.take (position - seg.startPos) (normalizeText node.text) }))
          node.id with hEC
        have hcf : ∀ c ∈ EC, c.id < s1.nextId ∧ r node.id < r c.id :=
          getChildren_facts hskel2.1 hskel2.2 node.id
        set B := listMinD (EC.map (fun c => r c.id)) (r node.id + 1) with hBdef
        have haB : r node.id < B := by
          rw [hBdef]
          refine lt_listMinD (by linarith) ?_
          intro x hx
          obtain ⟨c, hc, hcx⟩ := List.mem_map.mp hx
          rw [← hcx]
          exact (hcf c hc).2
        by_cases hselc : (!(List.drop (position - seg.startPos)
            (List.take (position - seg.startPos +
              deleteCount ⊓ ((normalizeText node.text).length - (position - seg.startPos)))
              (normalizeText node.text))).isEmpty) = true
        · simp only [if_pos hselc]
          apply stage2_good
          · exact hids
          · exact hidh
          · -- Bounded nodesS nidS
            refine bounded_append_single hskel2.1 (Nat.le_succ _) ?_ ?_
            · show s1.nextId < s1.nextId + 1
              omega
            · intro p hp
              simp [createNode] at hp
              subst hp
              omega
          · -- RankedBy nodesS r2
            apply rankedBy_append_single
              (rankedBy_rext hskel2.1 hskel2.2 (le_refl _) (r node.id + (B - r node.id) / 6))
            intro p hp
            simp [createNode] at hp
            subst hp
            show rext r s1.nextId (r node.id + (B - r node.id) / 6) node.id <
              rext r s1.nextId (r node.id + (B - r node.id) / 6) s1.nextId
            rw [rext_ne r _ (Nat.ne_of_lt hnid), rext_self]
            linarith
          · exact haB
          · -- hbp
            intro i hi
            obtain rfl : node.id = i := Option.some.inj hi
            refine ⟨by omega, ?_⟩
            rw [rext_ne r _ (Nat.ne_of_lt hnid)]
          · -- hec
            intro c hc
            refine ⟨by have := (hcf c hc).1; omega, ?_⟩
            rw [rext_ne r _ (Nat.ne_of_lt (hcf c hc).1)]
            exact listMinD_le (List.mem_map.mpr ⟨c, hc, rfl⟩) _
          · -- hai1
            rfl
          · -- hai1p
            intro p hp
            simp [createNode] at hp
            rcases hp with hp | hp
            · exact Or.inl hp
            · refine Or.inr ⟨by omega, ?_⟩
              rw [hp, rext_self]
              linarith
          · -- hai2
            rfl
          · -- hai2p
            intro hsome p hp
            simp [createNode] at hp
            rcases hp with hp | hp
            · subst hp
              refine ⟨by omega, ?_⟩
              rw [rext_ne r _ (Nat.ne_of_lt hnid)]
              linarith
            · subst hp
              refine ⟨by omega, ?_⟩
              rw [rext_self]
              linarith
        · simp only [if_neg hselc]
          apply stage2_good
          · exact hids
          · exact hidh
          · exact hskel2.1
          · exact hskel2.2
          · exact haB
          · intro i hi
            obtain rfl : node.id = i := Option.some.inj hi
            exact ⟨hnid, le_refl _⟩
          · intro c hc
            exact ⟨(hcf c hc).1, listMinD_le (List.mem_map.mpr ⟨c, hc, rfl⟩) _⟩
          · rfl
          · intro p hp
            simp [createNode] at hp
            exact Or.inl hp
          · rfl
          · intro hsome p hp
            simp [createNode] at hp
            subst hp
            exact ⟨hnid, by linarith⟩
      · simp only [if_neg ho]
        have hskelN := goodN_updateNode_skel hb hr node.id
          (fun n => { n with text := normalizeText node.text })
          (fun n => rfl) (fun n => rfl)
        have hmemN : ({node with text := normalizeText node.text} : Node) ∈
            updateNode s1.tree.nodes node.id
              (fun n => { n with text := normalizeText node.text }) := by
          have hx := List.mem_map_of_mem
            (fun n => if (n.id == node.id) = true then
              { n with text := normalizeText node.text } else n) hmem
          simpa [updateNode] using hx
        have hpar : ∀ q ∈ node.parent_ids, r q < r node.id := by
          intro q hq
          exact hskelN.2 _ hmemN q hq
        set EC := getChildren (updateNode s1.tree.nodes node.id
          (fun n => { n with text := normalizeText node.text })) node.id with hEC
        have hcf : ∀ c ∈ EC, c.id < s1.nextId ∧ r node.id < r c.id :=
          getChildren_facts hskelN.1 hskelN.2 node.id
        set B := listMinD (EC.map (fun c => r c.id)) (r node.id + 1) with hBdef
        have haB : r node.id < B := by
          rw [hBdef]
          refine lt_listMinD (by linarith) ?_
          intro x hx
          obtain ⟨c, hc, hcx⟩ := List.mem_map.mp hx
          rw [← hcx]
          exact (hcf c hc).2
        by_cases hpids : (!(getParentIds node).isEmpty) = true
        · simp only [if_pos hpids]
          have hhd : (getParentIds node).headD 0 ∈ node.parent_ids := by
            have hne : (getParentIds node).isEmpty = false := by simpa using hpids
            exact headD_mem_of_not_isEmpty hne 0
          by_cases hta : (!(List.drop (deleteCount ⊓ ((normalizeText node.text).length - (position - seg.startPos))) (normalizeText node.text)).isEmpty) = true
          · simp only [if_pos hta]
            have hskelB := goodN_updateNode_skel hskelN.1 hskelN.2 node.id
              (fun n => { n with text := List.take (deleteCount ⊓ ((normalizeText node.text).length - (position - seg.startPos))) (normalizeText node.text) })
              (fun n => rfl) (fun n => rfl)
            rcases hlkp : lookupNode (updateNode s1.tree.nodes node.id
                (fun n => { n with text := normalizeText node.text }))
                ((getParentIds node).headD 0) with - | pnode
            · simp only [hlkp, Option.map_none', Option.isSome_none, Bool.and_false,
                Bool.false_eq_true, if_false]
              exact ⟨hskelB.1, hids, hidh, r, hskelB.2⟩
            · simp only [hlkp, Option.map_some']
              have hpm := lookupNode_mem hlkp
              have hpidv := lookupNode_id hlkp
              have hplt : (pnode.id : Nat) < s1.nextId := (hskelN.1 pnode hpm).1
              have hprk : r pnode.id < r node.id := by
                rw [hpidv]
                exact hpar _ hhd
              apply stage2_goodR
              · exact hids
              · exact hidh
              · exact hskelB.1
              · exact hskelB.2
              · exact haB
              · intro i hi
                obtain rfl : pnode.id = i := Option.some.inj hi
                exact ⟨hplt, le_of_lt hprk⟩
              · intro c hc
                exact ⟨(hcf c hc).1, listMinD_le (List.mem_map.mpr ⟨c, hc, rfl⟩) _⟩
              · rfl
              · intro p hp
                simp [createNode] at hp
                rcases hp with hp | hp
                · exact Or.inl hp
                · subst hp
                  exact Or.inr ⟨hnid, by linarith⟩
              · rfl
              · intro hsome p hp
                simp [createNode] at hp
                rcases hp with hp | hp
                · subst hp
                  exact ⟨hplt, by linarith⟩
                · subst hp
                  exact ⟨hnid, by linarith⟩
          · simp only [if_neg hta]
            rcases hlkp : lookupNode (updateNode s1.tree.nodes node.id
                (fun n => { n with text := normalizeText node.text }))
                ((getParentIds node).headD 0) with - | pnode
            · simp only [hlkp, Option.map_none', Option.isSome_none, Bool.and_false,
                Bool.false_eq_true, if_false]
              exact ⟨hskelN.1, hids, hidh, r, hskelN.2⟩
            · simp only [hlkp, Option.map_some']
              have hpm := lookupNode_mem hlkp
              have hpidv := lookupNode_id hlkp
              have hplt : (pnode.id : Nat) < s1.nextId := (hskelN.1 pnode hpm).1
              have hprk : r pnode.id < r node.id := by
                rw [hpidv]
                exact hpar _ hhd
              apply stage2_good
              · exact hids
              · exact hidh
              · exact hskelN.1
              · exact hskelN.2
              · exact haB
              · intro i hi
                obtain rfl : pnode.id = i := Option.some.inj hi
                exact ⟨hplt, le_of_lt hprk⟩
              · intro c hc
                exact ⟨(hcf c hc).1, listMinD_le (List.mem_map.mpr ⟨c, hc, rfl⟩) _⟩
              · rfl
              · intro p hp
                simp [createNode] at hp
                exact Or.inl hp
              · rfl
              · intro hsome p hp
                simp [createNode] at hp
                subst hp
                exact ⟨hplt, by linarith⟩
        · simp only [if_neg hpids]
          have hbA : Bounded (updateNode s1.tree.nodes node.id
              (fun n => { n with text := normalizeText node.text }) ++
              [createNode s1.nextId [] [] NType.human none]) (s1.nextId + 1) :=
            bounded_append_single hskelN.1 (Nat.le_succ _)
              (show s1.nextId < s1.nextId + 1 by omega)
              (by intro p hp; simp [createNode] at hp)
          have hrA : RankedBy (updateNode s1.tree.nodes node.id
              (fun n => { n with text := normalizeText node.text }) ++
              [createNode s1.nextId [] [] NType.human none])
              (rext r s1.nextId (r node.id - 1)) :=
            rankedBy_append_single
              (rankedBy_rext hskelN.1 hskelN.2 (le_refl _) _)
              (by intro p hp; simp [createNode] at hp)
          have hupd := goodN_updateNode_parents hbA hrA node.id [s1.nextId]
            (by intro p hp; simp at hp; omega)
            (by
              intro p hp
              simp at hp
              subst hp
              rw [rext_self, rext_ne r _ (Nat.ne_of_lt hnid)]
              linarith)
          by_cases hta : (!(List.drop (deleteCount ⊓ ((normalizeText node.text).length - (position - seg.startPos))) (normalizeText node.text)).isEmpty) = true
          · simp only [if_pos hta]
            have hskelB2 := goodN_updateNode_skel hupd.1 hupd.2 node.id
              (fun n => { n with text := List.take (deleteCount ⊓ ((normalizeText node.text).length - (position - seg.startPos))) (normalizeText node.text) })
              (fun n => rfl) (fun n => rfl)
            apply stage2_goodR
            · exact hids
            · exact hidh
            · exact hskelB2.1
            · exact hskelB2.2
            · exact haB
            · intro i hi
              obtain rfl : s1.nextId = i := Option.some.inj hi
              refine ⟨by omega, ?_⟩
              rw [rext_self]
              linarith
            · intro c hc
              refine ⟨by have := (hcf c hc).1; omega, ?_⟩
              rw [rext_ne r _ (Nat.ne_of_lt (hcf c hc).1)]
              exact listMinD_le (List.mem_map.mpr ⟨c, hc, rfl⟩) _
            · rfl
            · intro p hp
              simp [createNode] at hp
              rcases hp with hp | hp
              · exact Or.inl hp
              · subst hp
                refine Or.inr ⟨by omega, ?_⟩
                rw [rext_ne r _ (Nat.ne_of_lt hnid)]
                linarith
            · rfl
            · intro hsome p hp
              simp [createNode] at hp
              rcases hp with hp | hp
              · subst hp
                refine ⟨by omega, ?_⟩
                rw [rext_self]
                linarith
              · subst hp
                refine ⟨by omega, ?_⟩
                rw [rext_ne r _ (Nat.ne_of_lt hnid)]
                linarith
          · simp only [if_neg hta]
            apply stage2_good
            · exact hids
            · exact hidh
            · exact hupd.1
            · exact hupd.2
            · exact haB
            · intro i hi
              obtain rfl : s1.nextId = i := Option.some.inj hi
              refine ⟨by omega, ?_⟩
              rw [rext_self]
              linarith
            · intro c hc
              refine ⟨by have := (hcf c hc).1; omega, ?_⟩
              rw [rext_ne r _ (Nat.ne_of_lt (hcf c hc).1)]
              exact listMinD_le (List.mem_map.mpr ⟨c, hc, rfl⟩) _
            · rfl
            · intro p hp
              simp [createNode] at hp
              exact Or.inl hp
            · rfl
            · intro hsome p hp
              simp [createNode] at hp
              subst hp
              refine ⟨by omega, ?_⟩
              rw [rext_self]
              linarith

theorem goodN_reparentP_fold {base : List Node} {b' : Nat} {r' : Nat → Rat}
    (hbb : Bounded base b') (hrb : RankedBy base r')
    (cs : List Node) (P : List Nat) (hPb : ∀ p ∈ P, p < b')
    (hcsrank : ∀ c ∈ cs, ∀ p ∈ P, r' p < r' c.id) :
    Bounded (cs.foldl (fun acc c => updateNode acc c.id
      (fun n => { n with parent_ids := P })) base) b' ∧
    RankedBy (cs.foldl (fun acc c => updateNode acc c.id
      (fun n => { n with parent_ids := P })) base) r' := by
  have hmemrel := foldl_update_mem_rel cs base
    (fun n => { n with parent_ids := P })
    (fun n x => x.id = n.id ∧ x.parent_ids = P)
    (fun n => ⟨rfl, rfl⟩)
    (by rintro n m x ⟨a1, a2⟩ ⟨a3, a4⟩; exact ⟨a3.trans a1, a4⟩)
  constructor
  · intro x hx
    obtain ⟨n, hn, hcase⟩ := hmemrel x hx
    rcases hcase with he | ⟨⟨hxid, hxpar⟩, c, hc, hcid⟩
    · exact he ▸ hbb n hn
    · refine ⟨hxid ▸ (hbb n hn).1, ?_⟩
      intro p hp
      rw [hxpar] at hp
      exact hPb p hp
  · intro x hx p hp
    obtain ⟨n, hn, hcase⟩ := hmemrel x hx
    rcases hcase with he | ⟨⟨hxid, hxpar⟩, c, hc, hcid⟩
    · exact he ▸ hrb n hn p (he ▸ hp)
    · rw [hxpar] at hp
      rw [hxid, ← hcid]
      exact hcsrank c hc p hp

theorem stInv_handleEmptyLiveSplitNode {s' : St} {r : Nat → Rat}
    (emptyId hiddenId : Nat)
    (hb : Bounded s'.tree.nodes s'.nextId)
    (hr : RankedBy s'.tree.nodes r)
    (hmode : s'.ed.liveSplitMode = true)
    (hhid : s'.ed.liveSplitHiddenId = some hiddenId)
    (hpair : ∀ i j, s'.ed.liveSplitNodeId = some i →
      s'.ed.liveSplitHiddenId = some j → r i < r j)
    (hrk : r emptyId < r hiddenId) :
    StInv (handleEmptyLiveSplitNode s' emptyId hiddenId) := by
  unfold handleEmptyLiveSplitNode
  split
  · exact ⟨hb, (by intro hm; rw [hmode] at hm; cases hm), r, hr, hpair⟩
  · rename_i emptyNode hlkE
    have hmE := lookupNode_mem hlkE
    have hidE := lookupNode_id hlkE
    dsimp only
    split
    · -- the empty node was a root: the hidden child takes over as root
      have hgu := goodN_updateNode_parents hb hr hiddenId []
        (by intro p hp; cases hp) (by intro p hp; cases hp)
      have hInv2 : StInv (updateSelectedNode (setNodes s' (updateNode s'.tree.nodes
          hiddenId (fun n => { n with parent_ids := [] }))) (some hiddenId)) := by
        refine ⟨?_, ?_, r, ?_, ?_⟩
        · rw [updateSelectedNode_tree_nodes, updateSelectedNode_nextId]
          exact hgu.1
        · rw [updateSelectedNode_ed, setNodes_ed]
          intro hm
          rw [hmode] at hm
          cases hm
        · rw [updateSelectedNode_tree_nodes]
          exact hgu.2
        · rw [updateSelectedNode_ed, setNodes_ed]
          exact hpair
      obtain ⟨⟨hb3, hn3, hh3, r3, hr3⟩, htr3, hnx3⟩ := goodA_exitLiveSplitMode hInv2
      apply inv_of_goodA
      refine ⟨?_, hn3, hh3, r3, ?_⟩
      · rw [setNodes_nodes, setNodes_nextId]
        exact bounded_sub (fun x hx => mem_removeNode hx) hb3
      · rw [setNodes_nodes]
        exact rankedBy_sub (fun x hx => mem_removeNode hx) hr3
    · -- the hidden child is reparented onto the grandparents
      rename_i hpe
      have hgu := goodN_updateNode_parents hb hr hiddenId (getParentIds emptyNode)
        (by intro p hp; exact (hb emptyNode hmE).2 p hp)
        (by
          intro p hp
          have h1 : r p < r emptyNode.id := hr emptyNode hmE p hp
          rw [hidE] at h1
          linarith)
      have hhdm : (getParentIds emptyNode).headD 0 ∈ emptyNode.parent_ids := by
        rcases hl : getParentIds emptyNode with - | ⟨a, t⟩
        · rw [hl] at hpe
          simp at hpe
        · have hl2 : emptyNode.parent_ids = a :: t := hl
          rw [hl2]
          exact List.mem_cons_self a t
      have hhdr : r ((getParentIds emptyNode).headD 0) < r hiddenId := by
        have h1 : r ((getParentIds emptyNode).headD 0) < r emptyNode.id :=
          hr emptyNode hmE _ hhdm
        rw [hidE] at h1
        linarith
      refine ⟨?_, ?_, r, ?_, ?_⟩
      · rw [setNodes_nodes, setNodes_nextId]
        simp only [updateSelectedNode_tree_nodes, updateSelectedNode_nextId,
          setNodes_nodes, setNodes_nextId]
        exact bounded_sub (fun x hx => mem_removeNode hx) hgu.1
      · rw [setNodes_ed]
        simp only [updateSelectedNode_ed, setNodes_ed]
        intro hm
        rw [hmode] at hm
        cases hm
      · rw [setNodes_nodes]
        simp only [updateSelectedNode_tree_nodes, setNodes_nodes]
        exact rankedBy_sub (fun x hx => mem_removeNode hx) hgu.2
      · rw [setNodes_ed]
        simp only [updateSelectedNode_ed, setNodes_ed]
        intro i j hi hj
        obtain rfl : (getParentIds emptyNode).headD 0 = i := Option.some.inj hi
        rw [hhid] at hj
        obtain rfl : hiddenId = j := Option.some.inj hj
        exact hhdr

set_option maxHeartbeats 1000000 in
theorem stInv_handleLiveSplitBackspace {s : St} (h : StInv s) (position : Nat) :
    StInv (handleLiveSplitBackspace s position).snd := by
  obtain ⟨hb, hmi, r, hr, hpair⟩ := h
  unfold handleLiveSplitBackspace
  split
  · exact ⟨hb, hmi, r, hr, hpair⟩
  · split
    · exact ⟨hb, hmi, r, hr, hpair⟩
    · rename_i seg hseg nopt node hlk
      have hmem := lookupNode_mem hlk
      have hnid : node.id < s.nextId := (hb node hmem).1
      dsimp only
      split
      · exact ⟨hb, hmi, r, hr, hpair⟩
      · split
        · exact ⟨hb, hmi, r, hr, hpair⟩
        · have hskel := goodN_updateNode_skel hb hr node.id
            (fun n => { n with text := normalizeText node.text })
            (fun n => rfl) (fun n => rfl)
          split
          · -- silent AI boundary whitespace edit
            have hskel2 := goodN_updateNode_skel hskel.1 hskel.2 node.id
              (fun n => { n with text := List.take (position - seg.startPos - 1) (normalizeText node.text) ++ List.drop (position - seg.startPos) (normalizeText node.text) })
              (fun n => rfl) (fun n => rfl)
            exact ⟨hskel2.1, hmi, r, hskel2.2, hpair⟩
          · split
            · -- destructive removal of an emptied human node with children
              have hch := getChildren_facts hb hr node.id
              have hInv0 : StInv (markStructureChanged (setNodes s (updateNode
                  s.tree.nodes node.id (fun n => { n with text := normalizeText node.text })))) :=
                ⟨hskel.1, hmi, r, hskel.2, hpair⟩
              obtain ⟨⟨hb1, hn1, hh1, r1x, hr1x⟩, htr1, hnx1⟩ := goodA_exitLiveSplitMode hInv0
              set s1 := exitLiveSplitMode (markStructureChanged (setNodes s (updateNode
                s.tree.nodes node.id (fun n => { n with text := normalizeText node.text })))) with hs1e
              have hbx : Bounded s1.tree.nodes s.nextId := by
                rw [htr1]
                exact hskel.1
              have hrx : RankedBy s1.tree.nodes r := by
                rw [htr1]
                exact hskel.2
              have hnx : s1.nextId = s.nextId := hnx1
              have hfold := goodN_reparentP_fold hbx hrx
                (getChildren s.tree.nodes node.id) (getParentIds node)
                (fun p hp => (hb node hmem).2 p hp)
                (fun c hc p hp => lt_trans (hr node hmem p hp) (hch c hc).2)
              split
              · -- reselect the first grandparent
                apply inv_of_goodA
                refine ⟨?_, ?_, ?_, r, ?_⟩
                · simp only [setNodes_nodes, setNodes_nextId, updateSelectedNode_tree_nodes,
                    updateSelectedNode_nextId, hnx]
                  exact bounded_sub (fun x hx => mem_removeNode hx) hfold.1
                · simp only [setNodes_ed, updateSelectedNode_ed]
                  exact hn1
                · simp only [setNodes_ed, updateSelectedNode_ed]
                  exact hh1
                · simp only [setNodes_nodes, updateSelectedNode_tree_nodes]
                  exact rankedBy_sub (fun x hx => mem_removeNode hx) hfold.2
              · split
                · -- promote the first child to root
                  rename_i fc hfc
                  have hupd := goodN_updateNode_parents hfold.1 hfold.2 fc.id []
                    (by intro p hp; cases hp) (by intro p hp; cases hp)
                  apply inv_of_goodA
                  refine ⟨?_, ?_, ?_, r, ?_⟩
                  · simp only [setNodes_nodes, setNodes_nextId, updateSelectedNode_tree_nodes,
                      updateSelectedNode_nextId, hnx]
                    exact bounded_sub (fun x hx => mem_removeNode hx) hupd.1
                  · simp only [setNodes_ed, updateSelectedNode_ed]
                    exact hn1
                  · simp only [setNodes_ed, updateSelectedNode_ed]
                    exact hh1
                  · simp only [setNodes_nodes, updateSelectedNode_tree_nodes]
                    exact rankedBy_sub (fun x hx => mem_removeNode hx) hupd.2
                · -- no children at all: plain removal
                  apply inv_of_goodA
                  refine ⟨?_, ?_, ?_, r, ?_⟩
                  · simp only [setNodes_nodes, setNodes_nextId, hnx]
                    exact bounded_sub (fun x hx => mem_removeNode hx) hfold.1
                  · simp only [setNodes_ed]
                    exact hn1
                  · simp only [setNodes_ed]
                    exact hh1
                  · simp only [setNodes_nodes]
                    exact rankedBy_sub (fun x hx => mem_removeNode hx) hfold.2
            · split
              · -- continue an active live split
                rename_i hcont
                simp only [Bool.and_eq_true] at hcont
                have hmode : s.ed.liveSplitMode = true := hcont.1.1.1
                have hlsneq : s.ed.liveSplitNodeId = some node.id := eq_of_beq hcont.1.1.2
                obtain ⟨hid0, hlsh⟩ := Option.isSome_iff_exists.mp hcont.1.2
                simp only [hlsh, Option.getD_some, setNodes_nodes]
                have hskelC1 := goodN_updateNode_skel hskel.1 hskel.2 hid0
                  (fun n => { n with text := (normalizeText node.text).getD (position - seg.startPos - 1) ' ' :: n.text })
                  (fun n => rfl) (fun n => rfl)
                have hskelC2 := goodN_updateNode_skel hskelC1.1 hskelC1.2 node.id
                  (fun n => { n with text := List.take (position - seg.startPos - 1) (normalizeText node.text) ++ List.drop (position - seg.startPos) (normalizeText node.text) })
                  (fun n => rfl) (fun n => rfl)
                have hrk : r node.id < r hid0 := hpair node.id hid0 hlsneq hlsh
                split
                · -- the node ran out of text: the hidden child takes over
                  exact stInv_handleEmptyLiveSplitNode node.id hid0
                    hskelC2.1 hskelC2.2 hmode hlsh hpair hrk
                · exact ⟨hskelC2.1, hmi, r, hskelC2.2, hpair⟩
              · -- enter live-split mode
                simp only [markStructureChanged_tree, setNodes_nodes]
                have hskelD2 := goodN_updateNode_skel hskel.1 hskel.2 node.id
                  (fun n => { n with text := List.take (position - seg.startPos - 1) (normalizeText node.text) ++ List.drop (position - seg.startPos) (normalizeText node.text) })
                  (fun n => rfl) (fun n => rfl)
                have hch2 := getChildren_facts hskelD2.1 hskelD2.2 node.id
                set EC2 := getChildren (updateNode (updateNode s.tree.nodes node.id
                  (fun n => { n with text := normalizeText node.text })) node.id
                  (fun n => { n with text := List.take (position - seg.startPos - 1) (normalizeText node.text) ++ List.drop (position - seg.startPos) (normalizeText node.text) }))
                  node.id with hEC2
                set B2 := listMinD (EC2.map (fun c => r c.id)) (r node.id + 1) with hB2def
                have haB2 : r node.id < B2 := by
                  rw [hB2def]
                  refine lt_listMinD (by linarith) ?_
                  intro x hx
                  obtain ⟨c, hc, hcx⟩ := List.mem_map.mp hx
                  rw [← hcx]
                  exact (hch2 c hc).2
                have hbH : Bounded ((updateNode (updateNode s.tree.nodes node.id
                    (fun n => { n with text := normalizeText node.text })) node.id
                    (fun n => { n with text := List.take (position - seg.startPos - 1) (normalizeText node.text) ++ List.drop (position - seg.startPos) (normalizeText node.text) })) ++
                    [createNode s.nextId [node.id] [(normalizeText node.text).getD (position - seg.startPos - 1) ' '] node.ntype node.model])
                    (s.nextId + 1) := by
                  refine bounded_append_single hskelD2.1 (Nat.le_succ _)
                    (show s.nextId < s.nextId + 1 by omega) ?_
                  intro p hp
                  simp [createNode] at hp
                  subst hp
                  omega
                have hrH : RankedBy ((updateNode (updateNode s.tree.nodes node.id
                    (fun n => { n with text := normalizeText node.text })) node.id
                    (fun n => { n with text := List.take (position - seg.startPos - 1) (normalizeText node.text) ++ List.drop (position - seg.startPos) (normalizeText node.text) })) ++
                    [createNode s.nextId [node.id] [(normalizeText node.text).getD (position - seg.startPos - 1) ' '] node.ntype node.model])
                    (rext r s.nextId (r node.id + (B2 - r node.id) / 3)) := by
                  apply rankedBy_append_single
                    (rankedBy_rext hskelD2.1 hskelD2.2 (le_refl _) _)
                  intro p hp
                  simp [createNode] at hp
                  subst hp
                  show rext r s.nextId (r node.id + (B2 - r node.id) / 3) node.id <
                    rext r s.nextId (r node.id + (B2 - r node.id) / 3) s.nextId
                  rw [rext_ne r _ (Nat.ne_of_lt hnid), rext_self]
                  linarith
                have hfold := goodN_reparent_fold hbH hrH EC2 s.nextId
                  (show s.nextId < s.nextId + 1 by omega)
                  (by
                    intro c hc
                    rw [rext_self, rext_ne r _ (Nat.ne_of_lt (hch2 c hc).1)]
                    have hle := @listMinD_le (EC2.map (fun c => r c.id)) (r c.id)
                      (List.mem_map.mpr ⟨c, hc, rfl⟩) (r node.id + 1)
                    rw [← hB2def] at hle
                    linarith)
                have hpair2 : ∀ i j, (some node.id : Option Nat) = some i →
                    (some s.nextId : Option Nat) = some j →
                    rext r s.nextId (r node.id + (B2 - r node.id) / 3) i <
                    rext r s.nextId (r node.id + (B2 - r node.id) / 3) j := by
                  intro i j hi hj
                  obtain rfl : node.id = i := Option.some.inj hi
                  obtain rfl : s.nextId = j := Option.some.inj hj
                  rw [rext_ne r _ (Nat.ne_of_lt hnid), rext_self]
                  linarith
                have hrkD : rext r s.nextId (r node.id + (B2 - r node.id) / 3) node.id <
                    rext r s.nextId (r node.id + (B2 - r node.id) / 3) s.nextId := by
                  rw [rext_ne r _ (Nat.ne_of_lt hnid), rext_self]
                  linarith
                split
                · -- the node emptied immediately: hand over to the hidden child
                  exact stInv_handleEmptyLiveSplitNode node.id s.nextId
                    hfold.1 hfold.2 rfl rfl hpair2 hrkD
                · exact ⟨hfold.1, (by intro hm; exact Bool.noConfusion (show true = false from hm)),
                    rext r s.nextId (r node.id + (B2 - r node.id) / 3), hfold.2, hpair2⟩

theorem stInv_refreshSegments {s : St} (h : StInv s) : StInv (refreshSegments s) := by
  obtain ⟨hb, hmi, r, hr, hpair⟩ := h
  refine ⟨?_, ?_, r, ?_, ?_⟩
  · rw [refreshSegments_tree, refreshSegments_nextId]
    exact hb
  · rw [refreshSegments_mode, refreshSegments_lsn, refreshSegments_lsh]
    exact hmi
  · rw [refreshSegments_tree]
    exact hr
  · rw [refreshSegments_lsn, refreshSegments_lsh]
    exact hpair

set_option maxHeartbeats 1000000 in
theorem stInv_applyChangesToTree {s : St} (h : StInv s) (changes : Changes) :
    StInv (applyChangesToTree s changes) := by
  obtain ⟨hgA1, htr1, hnx1⟩ := goodA_exitLiveSplitMode h
  cases changes with
  | cnone =>
    unfold applyChangesToTree
    dsimp only
    split
    · rename_i hx
      exact Changes.noConfusion hx
    · exact h
    · exact stInv_refreshSegments h
  | insert st text =>
    unfold applyChangesToTree
    dsimp only
    obtain ⟨hbg, hng, hhg, rg, hrg⟩ := goodA_markStructureChanged hgA1
    split
    · rename_i st2 tx2 hq1 hq2
      apply inv_of_goodA
      apply goodA_refreshSegments
      apply goodA_updateSelectedNode
      obtain ⟨hbA, hrA⟩ := goodN_append_leaf hbg hrg
        (createNode (markStructureChanged (exitLiveSplitMode s)).nextId [] tx2 NType.human none)
        rfl (by intro p hp; simp [createNode] at hp)
      exact ⟨hbA, hng, hhg, hrA⟩
    · rename_i hx
      exact (hx st text rfl).elim
    · exact inv_of_goodA (goodA_refreshSegments (goodA_handleInsert hgA1 _ _))
  | delete st count =>
    unfold applyChangesToTree
    dsimp only
    split
    · rename_i hx
      exact Changes.noConfusion hx
    · exact h
    · split
      · split
        · apply stInv_refreshSegments
          exact stInv_handleLiveSplitBackspace h _
        · split
          · apply inv_of_goodA
            apply goodA_refreshSegments
            apply goodA_markStructureChanged
            apply goodA_updateSelectedNode
            obtain ⟨hb1, hn1, hh1, r1, hr1⟩ := hgA1
            refine ⟨?_, hn1, hh1, r1, ?_⟩
            · intro n hn
              exact absurd hn (List.not_mem_nil n)
            · intro n hn
              exact absurd hn (List.not_mem_nil n)
          · split
            · exact inv_of_goodA (goodA_refreshSegments
                (goodA_handleBranchingEdit _ _ _ _ hgA1))
            · exact inv_of_goodA (goodA_refreshSegments
                (goodA_handleDestructiveDelete hgA1 _ _))
      · split
        · rename_i hx
          simp at hx
        · split
          · apply inv_of_goodA
            apply goodA_refreshSegments
            apply goodA_markStructureChanged
            apply goodA_updateSelectedNode
            obtain ⟨hb1, hn1, hh1, r1, hr1⟩ := hgA1
            refine ⟨?_, hn1, hh1, r1, ?_⟩
            · intro n hn
              exact absurd hn (List.not_mem_nil n)
            · intro n hn
              exact absurd hn (List.not_mem_nil n)
          · split
            · exact inv_of_goodA (goodA_refreshSegments
                (goodA_handleBranchingEdit _ _ _ _ hgA1))
            · exact inv_of_goodA (goodA_refreshSegments
                (goodA_handleDestructiveDelete hgA1 _ _))
  | replace st dc text =>
    unfold applyChangesToTree
    dsimp only
    split
    · rename_i hx
      exact Changes.noConfusion hx
    · exact h
    · split
      · apply inv_of_goodA
        apply goodA_refreshSegments
        apply goodA_updateSelectedNode
        obtain ⟨hb1, hn1, hh1, r1, hr1⟩ := hgA1
        have hbE : Bounded ([] : List Node)
            (markStructureChanged (setNodes (exitLiveSplitMode s) [])).nextId :=
          fun n hn => absurd hn (List.not_mem_nil n)
        have hrE : RankedBy ([] : List Node) (fun _ => (0 : Rat)) :=
          fun n hn => absurd hn (List.not_mem_nil n)
        obtain ⟨hbA, hrA⟩ := goodN_append_leaf hbE hrE
          (createNode (markStructureChanged (setNodes (exitLiveSplitMode s) [])).nextId
            [] text NType.human none)
          rfl (by intro p hp; simp [createNode] at hp)
        exact ⟨hbA, hn1, hh1, hrA⟩
      · split
        · exact inv_of_goodA (goodA_refreshSegments
            (goodA_handleBranchingEdit _ _ _ _ hgA1))
        · exact inv_of_goodA (goodA_refreshSegments (goodA_handleInsert
            (goodA_refreshSegments (goodA_handleDestructiveDelete hgA1 _ _)) _ _))

/-- C6: acyclicity is an invariant of every edit-classifier mutation.
Starting from a state satisfying the structural invariant `StInv` — every
node id and parent reference lies below the id allocator (so mutations only
ever add nodes whose parent links point at already-existing, previously
allocated nodes), live-split bookkeeping is consistent, and a rank function
orders every parent strictly below its child — any sequence of
`applyChangesToTree` edits (the classifier dispatching the in-place edit,
split-for-insertion, live-split backspace, branching edit, destructive
delete and recombination paths) preserves the invariant, and in the
resulting graph no node is its own ancestor. -/
theorem C6_acyclicity_invariant (s : St) (chs : List Changes) (h : StInv s) :
    StInv (applySeq chs s) ∧
    ∀ i, ¬ Relation.TransGen (Edge (applySeq chs s).tree.nodes) i i := by
  have hseq : ∀ s0 : St, StInv s0 → StInv (applySeq chs s0) := by
    induction chs with
    | nil =>
      intro s0 h0
      exact h0
    | cons c t ih =>
      intro s0 h0
      exact ih _ (stInv_applyChangesToTree h0 c)
  have hInv := hseq s h
  refine ⟨hInv, ?_⟩
  obtain ⟨-, -, r, hr, -⟩ := hInv
  exact rankedBy_irrefl hr

/-- Witness: the two-node Human→AI document satisfies the structural
invariant, and C6 applies to it for a concrete one-edit sequence. -/
theorem C6_witness : StInv w2St ∧
    (StInv (applySeq [Changes.insert 0 ['z']] w2St) ∧
     ∀ i, ¬ Relation.TransGen
       (Edge (applySeq [Changes.insert 0 ['z']] w2St).tree.nodes) i i) := by
  have hInv : StInv w2St := by
    refine ⟨?_, by decide, fun i => (i : Rat), ?_, ?_⟩
    · unfold Bounded
      decide
    · unfold RankedBy
      decide
    · intro i j hi hj
      rw [show w2St.ed.liveSplitNodeId = none by decide] at hi
      cases hi
  exact ⟨hInv, C6_acyclicity_invariant w2St [Changes.insert 0 ['z']] hInv⟩

/-! ## Live-split shrink on arbitrary graphs: the amended no-silent-loss claim -/

theorem lookup_none_of_bounded {nodes : List Node} {b : Nat}
    (hb : Bounded nodes b) : lookupNode nodes b = none := by
  unfold lookupNode
  rw [List.find?_eq_none]
  intro x hx
  simp only [beq_iff_eq]
  have := (hb x hx).1
  omega

theorem lookup_append_some {l1 l2 : List Node} {i : Nat} {n : Node}
    (h : lookupNode l1 i = some n) : lookupNode (l1 ++ l2) i = some n := by
  unfold lookupNode at *
  rw [List.find?_append, h]
  rfl

theorem lookup_append_none {l1 l2 : List Node} {i : Nat}
    (h : lookupNode l1 i = none) : lookupNode (l1 ++ l2) i = lookupNode l2 i := by
  unfold lookupNode at *
  rw [List.find?_append, h]
  rfl

theorem lookup_foldl_update_ne (cs : List Node) (base : List Node)
    (g : Node → Node) (hg : ∀ n, (g n).id = n.id) (j : Nat)
    (hnot : ∀ c ∈ cs, c.id ≠ j) :
    lookupNode (cs.foldl (fun acc c => updateNode acc c.id g) base) j
      = lookupNode base j := by
  induction cs generalizing base with
  | nil => rfl
  | cons c rest ih =>
    show lookupNode (rest.foldl _ (updateNode base c.id g)) j = _
    rw [ih (updateNode base c.id g)
      (fun x hx => hnot x (List.mem_cons_of_mem _ hx)),
      lookup_updateNode_ne base c.id g hg j
        (Ne.symm (hnot c (List.mem_cons_self _ _)))]

theorem shrinkState_refresh {nid hid : Nat} {node0 : Node} {t : List Char}
    {m b : Nat} {s : St} (h : ShrinkState nid hid node0 t m b s) :
    ShrinkState nid hid node0 t m b (refreshSegments s) := by
  obtain ⟨h1, h2, h3, h4, h5, h6⟩ := h
  refine ⟨?_, ?_, ?_, ?_, ?_, ?_⟩
  · rw [refreshSegments_tree]
    exact h1
  · rw [refreshSegments_tree]
    exact h2
  · rw [refreshSegments_mode]
    exact h3
  · rw [refreshSegments_lsn]
    exact h4
  · rw [refreshSegments_lsh]
    exact h5
  · rw [refreshSegments_nextId]
    exact h6

set_option maxHeartbeats 1000000 in
theorem c1gen_entry (s : St) (pos : Nat) (nid : Nat) (node0 : Node)
    (hb : Bounded s.tree.nodes s.nextId) (r : Nat → Rat)
    (hr : RankedBy s.tree.nodes r)
    (hmode : s.ed.liveSplitMode = false)
    (hlk : lookupNode s.tree.nodes nid = some node0)
    (hai : node0.ntype = NType.ai)
    (hnt : normalizeText node0.text = node0.text)
    (hL : 2 ≤ node0.text.length)
    (hland : EndOfNode nid s pos) :
    ShrinkState nid s.nextId node0 node0.text (node0.text.length - 1)
      (s.nextId + 1) (bsAt s pos) := by
  obtain ⟨seg, nodeX, hfse, hsid, hlkX, hofs⟩ := hland
  rw [hlk] at hlkX
  obtain rfl : node0 = nodeX := Option.some.inj hlkX
  have hid0 : node0.id = nid := lookupNode_id hlk
  have hofs2 : pos - seg.startPos = node0.text.length := by rw [hofs, hnt]
  apply shrinkState_refresh
  unfold handleLiveSplitBackspace
  rw [hfse]
  dsimp only
  rw [hsid, hlk]
  dsimp only
  rw [hid0, hnt, hofs2]
  split
  · next hcond =>
    rw [hai] at hcond
    simp at hcond
  · split
    · next hcond =>
      simp only [beq_iff_eq] at hcond
      omega
    · split
      · next hcond =>
        rw [hai] at hcond
        simp only [Bool.and_eq_true, beq_iff_eq] at hcond
        obtain ⟨⟨-, h1⟩, -⟩ := hcond
        omega
      · split
        · next hcond =>
          rw [hai] at hcond
          simp at hcond
        · split
          · next hcond =>
            rw [hmode] at hcond
            simp at hcond
          · dsimp only
            simp only [markStructureChanged_tree, setNodes_nodes]
            have htext : node0.text.take (node0.text.length - 1) ++
                node0.text.drop node0.text.length
                = node0.text.take (node0.text.length - 1) := by
              rw [List.drop_length]
              exact List.append_nil _
            have hie : (node0.text.take (node0.text.length - 1)).isEmpty = false := by
              have hlen1 : (node0.text.take (node0.text.length - 1)).length
                  = node0.text.length - 1 := by
                rw [List.length_take]
                omega
              cases h : node0.text.take (node0.text.length - 1) with
              | nil =>
                rw [h] at hlen1
                simp at hlen1
                omega
              | cons a l => rfl
            split
            · next hempty =>
              rw [htext, hie] at hempty
              simp at hempty
            · -- the live split has been entered
              have hskel1 := goodN_updateNode_skel hb hr nid
                (fun n => { n with text := node0.text })
                (fun n => rfl) (fun n => rfl)
              have hskel2 := goodN_updateNode_skel hskel1.1 hskel1.2 nid
                (fun n => { n with text := node0.text.take (node0.text.length - 1) ++ node0.text.drop node0.text.length })
                (fun n => rfl) (fun n => rfl)
              have hcs : ∀ c ∈ getChildren (updateNode (updateNode s.tree.nodes nid
                  (fun n => { n with text := node0.text })) nid
                  (fun n => { n with text := node0.text.take (node0.text.length - 1) ++ node0.text.drop node0.text.length })) nid,
                  c.id ≠ nid ∧ c.id ≠ s.nextId := by
                intro c hc
                have h2 := (mem_getChildren_iff _ _ _).mp hc
                have hrk := hskel2.2 c h2.1 nid h2.2
                have hbd := (hskel2.1 c h2.1).1
                constructor
                · intro he
                  rw [he] at hrk
                  exact lt_irrefl _ hrk
                · omega
              have hl1 : lookupNode (updateNode (updateNode s.tree.nodes nid
                  (fun n => { n with text := node0.text })) nid
                  (fun n => { n with text := node0.text.take (node0.text.length - 1) ++ node0.text.drop node0.text.length })) nid
                  = some { node0 with text := node0.text.take (node0.text.length - 1) } := by
                rw [lookup_updateNode_self _ nid (fun n => { n with text := node0.text.take (node0.text.length - 1) ++ node0.text.drop node0.text.length }) (fun n => rfl),
                  lookup_updateNode_self _ nid (fun n => { n with text := node0.text }) (fun n => rfl), hlk]
                simp only [Option.map_some', List.drop_length, List.append_nil]
              refine ⟨?_, ?_, rfl, rfl, rfl, rfl⟩
              · rw [lookup_foldl_update_ne _ _ (fun n => { n with parent_ids := [s.nextId] }) (fun n => rfl) nid
                  (fun c hc => (hcs c hc).1), lookup_append_some hl1]
              · have hlnone : lookupNode (updateNode (updateNode s.tree.nodes nid
                    (fun n => { n with text := node0.text })) nid
                    (fun n => { n with text := node0.text.take (node0.text.length - 1) ++ node0.text.drop node0.text.length })) s.nextId
                    = none := lookup_none_of_bounded hskel2.1
                rw [lookup_foldl_update_ne _ _ (fun n => { n with parent_ids := [s.nextId] }) (fun n => rfl) s.nextId
                  (fun c hc => (hcs c hc).2), lookup_append_none hlnone]
                refine ⟨createNode s.nextId [nid]
                  [node0.text.getD (node0.text.length - 1) ' '] node0.ntype node0.model,
                  ?_, ?_, rfl, rfl⟩
                · simp [lookupNode, createNode]
                · show [node0.text.getD (node0.text.length - 1) ' ']
                    = node0.text.drop (node0.text.length - 1)
                  have hm1 : node0.text.length - 1 < node0.text.length := by omega
                  rw [List.drop_eq_getElem_cons hm1, List.getD_eq_getElem _ _ hm1,
                    show node0.text.length - 1 + 1 = node0.text.length by omega,
                    List.drop_length]

set_option maxHeartbeats 1000000 in
theorem c1gen_step (s : St) (pos : Nat) (nid hid : Nat) (node0 : Node)
    (t : List Char) (m b : Nat)
    (hS : ShrinkState nid hid node0 t m b s)
    (hneq : nid ≠ hid)
    (hai : node0.ntype = NType.ai)
    (hnt : normalizeText (t.take m) = t.take m)
    (hm : 2 ≤ m) (hmL : m ≤ t.length)
    (hland : EndOfNode nid s pos) :
    ShrinkState nid hid node0 t (m - 1) b (bsAt s pos) := by
  obtain ⟨hlkN, ⟨hn, hlkH, hhtext, hhpar, hhty⟩, hmode, hlsn, hlsh, hnx⟩ := hS
  obtain ⟨seg, nodeX, hfse, hsid, hlkX, hofs⟩ := hland
  rw [hlkN] at hlkX
  obtain rfl : ({ node0 with text := t.take m } : Node) = nodeX := Option.some.inj hlkX
  have hid0 : node0.id = nid := by
    have h2 := lookupNode_id hlkN
    exact h2
  have hlen : (t.take m).length = m := by
    rw [List.length_take]
    omega
  have hofs2 : pos - seg.startPos = m := by
    have h2 : pos - seg.startPos = (normalizeText (t.take m)).length := hofs
    rw [hnt, hlen] at h2
    exact h2
  have htk : (t.take m).take (m - 1) = t.take (m - 1) := by
    rw [List.take_take]
    congr 1
    omega
  have hdr : (t.take m).drop m = [] := by
    apply List.drop_eq_nil_of_le
    rw [hlen]
  have hgd : (t.take m).getD (m - 1) ' ' = t.getD (m - 1) ' ' := by
    have h2 : m - 1 < (t.take m).length := by
      rw [hlen]
      omega
    have h3 : m - 1 < t.length := by omega
    rw [List.getD_eq_getElem _ _ h2, List.getD_eq_getElem _ _ h3]
    exact List.getElem_take t
  have hdc : t.getD (m - 1) ' ' :: t.drop m = t.drop (m - 1) := by
    have h3 : m - 1 < t.length := by omega
    rw [List.drop_eq_getElem_cons h3, show m - 1 + 1 = m by omega,
      List.getD_eq_getElem _ _ h3]
  have hie : (t.take (m - 1)).isEmpty = false := by
    have hlen1 : (t.take (m - 1)).length = m - 1 := by
      rw [List.length_take]
      omega
    cases h : t.take (m - 1) with
    | nil =>
      rw [h] at hlen1
      simp at hlen1
      omega
    | cons a l => rfl
  apply shrinkState_refresh
  unfold handleLiveSplitBackspace
  rw [hfse]
  dsimp only
  rw [hsid, hlkN]
  dsimp only
  rw [hid0, hnt, hofs2]
  split
  · next hcond =>
    rw [hai] at hcond
    simp at hcond
  · split
    · next hcond =>
      simp only [beq_iff_eq] at hcond
      omega
    · split
      · next hcond =>
        simp only [hai, Bool.and_eq_true, beq_iff_eq] at hcond
        obtain ⟨⟨-, h1⟩, -⟩ := hcond
        omega
      · split
        · next hcond =>
          rw [hai] at hcond
          simp at hcond
        · split
          · -- continue in live-split mode
            simp only [hlsh, Option.getD_some, setNodes_nodes]
            split
            · next hempty =>
              rw [htk, hdr, List.append_nil, hie] at hempty
              simp at hempty
            · refine ⟨?_, ?_, hmode, hlsn, hlsh, hnx⟩
              · simp only [markStructureChanged_tree, setNodes_nodes]
                rw [lookup_updateNode_self _ nid
                  (fun n => { n with text := (t.take m).take (m - 1) ++ (t.take m).drop m }) (fun n => rfl),
                  lookup_updateNode_ne _ hid
                  (fun n => { n with text := (t.take m).getD (m - 1) ' ' :: n.text }) (fun n => rfl) nid hneq,
                  lookup_updateNode_self _ nid
                  (fun n => { n with text := t.take m }) (fun n => rfl), hlkN]
                simp only [Option.map_some', htk, hdr, List.append_nil]
              · refine ⟨{ hn with text := (t.take m).getD (m - 1) ' ' :: hn.text }, ?_, ?_, ?_, ?_⟩
                · simp only [markStructureChanged_tree, setNodes_nodes]
                  rw [lookup_updateNode_ne _ nid
                    (fun n => { n with text := (t.take m).take (m - 1) ++ (t.take m).drop m }) (fun n => rfl) hid
                    (Ne.symm hneq),
                    lookup_updateNode_self _ hid
                    (fun n => { n with text := (t.take m).getD (m - 1) ' ' :: n.text }) (fun n => rfl),
                    lookup_updateNode_ne _ nid
                    (fun n => { n with text := t.take m }) (fun n => rfl) hid (Ne.symm hneq), hlkH]
                  rfl
                · show (t.take m).getD (m - 1) ' ' :: hn.text = t.drop (m - 1)
                  rw [hhtext, hgd, hdc]
                · exact hhpar
                · exact hhty
          · next hcond =>
            -- the live-split guard is in fact satisfied
            exfalso
            apply hcond
            rw [hmode, hlsn, hlsh]
            simp only [setNodes_nodes, Option.getD_some, Option.isSome_some,
              beq_self_eq_true, Bool.and_true, Bool.true_and]
            unfold hasNode
            rw [lookup_updateNode_ne _ nid
              (fun n => { n with text := t.take m }) (fun n => rfl) hid (Ne.symm hneq), hlkH]
            rfl

set_option maxHeartbeats 1000000 in
theorem c1gen_iter (s0 : St) (nid : Nat) (node0 : Node)
    (hb : Bounded s0.tree.nodes s0.nextId) (r : Nat → Rat)
    (hr : RankedBy s0.tree.nodes r)
    (hmode : s0.ed.liveSplitMode = false)
    (hlk : lookupNode s0.tree.nodes nid = some node0)
    (hai : node0.ntype = NType.ai)
    (hcr : ∀ c ∈ node0.text, c ≠ '\r')
    (ps : List Nat)
    (hk1 : 1 ≤ ps.length) (hk2 : ps.length ≤ node0.text.length - 1)
    (hland : ∀ i, (hi : i < ps.length) →
      EndOfNode nid (bsSeq (ps.take i) s0) (ps.get ⟨i, hi⟩)) :
    ShrinkState nid s0.nextId node0 node0.text (node0.text.length - ps.length)
      (s0.nextId + 1) (bsSeq ps s0) := by
  have hL : 2 ≤ node0.text.length := by omega
  have key : ∀ i, 1 ≤ i → i ≤ ps.length →
      ShrinkState nid s0.nextId node0 node0.text (node0.text.length - i)
        (s0.nextId + 1) (bsSeq (ps.take i) s0) := by
    intro i
    induction i with
    | zero => intro h1 _; omega
    | succ n ih =>
      intro h1 h2
      have hnlt : n < ps.length := by omega
      by_cases hn0 : n = 0
      · subst hn0
        have htake : ps.take 1 = [ps.get ⟨0, hnlt⟩] := by
          cases ps with
          | nil => cases hnlt
          | cons a l => rfl
        rw [htake]
        have hE : EndOfNode nid s0 (ps.get ⟨0, hnlt⟩) := hland 0 hnlt
        exact c1gen_entry s0 (ps.get ⟨0, hnlt⟩) nid node0 hb r hr hmode hlk hai
          (normalizeText_eq_self _ hcr) hL hE
      · have hn1 : 1 ≤ n := by omega
        have hprev := ih hn1 (by omega)
        have htake : ps.take (n + 1) = ps.take n ++ [ps.get ⟨n, hnlt⟩] := by
          rw [List.take_succ, List.getElem?_eq_getElem hnlt]
          rfl
        rw [htake]
        have hstep : bsSeq (ps.take n ++ [ps.get ⟨n, hnlt⟩]) s0
            = bsAt (bsSeq (ps.take n) s0) (ps.get ⟨n, hnlt⟩) := by
          unfold bsSeq
          rw [List.foldl_append]
          rfl
        rw [hstep]
        have hE : EndOfNode nid (bsSeq (ps.take n) s0) (ps.get ⟨n, hnlt⟩) :=
          hland n hnlt
        have hneq : nid ≠ s0.nextId := by
          have hmem := lookupNode_mem hlk
          have hidv := lookupNode_id hlk
          have := (hb node0 hmem).1
          omega
        have hnt : normalizeText (node0.text.take (node0.text.length - n))
            = node0.text.take (node0.text.length - n) :=
          normalizeText_eq_self _ (fun c hc => hcr c (List.take_subset _ _ hc))
        have hans := c1gen_step (bsSeq (ps.take n) s0) (ps.get ⟨n, hnlt⟩) nid
          s0.nextId node0 node0.text (node0.text.length - n) (s0.nextId + 1)
          hprev hneq hai hnt (by omega) (by omega) hE
        have harith : node0.text.length - n - 1 = node0.text.length - (n + 1) := by
          omega
        rw [harith] at hans
        exact hans
  have h := key ps.length hk1 le_rfl
  rw [List.take_length] at h
  exact h

/-- C1 (amended): no loss on AI shrink away from the node boundary, for an
AI node in an arbitrary well-formed graph.  Starting outside live-split mode,
a sequence of backspaces each landing at the end of the node's rendered text
(never emptying it: at least one character stays visible) creates the hidden
child on the first backspace and reuses it afterwards: the visible node keeps
the untouched prefix, the hidden child holds the removed suffix in original
order with the node as sole parent, and visible ++ hidden reconstructs the
pre-edit text.  (The original claim's "every removed character" is too
strong: a backspace that removes a whitespace character at offset 1 of an AI
node discards it — see the counterexample.) -/
theorem C1_shrink_reconstructs (s0 : St) (nid : Nat) (node0 : Node)
    (hb : Bounded s0.tree.nodes s0.nextId) (r : Nat → Rat)
    (hr : RankedBy s0.tree.nodes r)
    (hmode : s0.ed.liveSplitMode = false)
    (hlk : lookupNode s0.tree.nodes nid = some node0)
    (hai : node0.ntype = NType.ai)
    (hcr : ∀ c ∈ node0.text, c ≠ '\r')
    (ps : List Nat)
    (hk1 : 1 ≤ ps.length) (hk2 : ps.length ≤ node0.text.length - 1)
    (hland : ∀ i, (hi : i < ps.length) →
      EndOfNode nid (bsSeq (ps.take i) s0) (ps.get ⟨i, hi⟩)) :
    lookupNode (bsSeq ps s0).tree.nodes nid
        = some { node0 with
            text := node0.text.take (node0.text.length - ps.length) } ∧
    (∃ hn : Node, lookupNode (bsSeq ps s0).tree.nodes s0.nextId = some hn ∧
      hn.text = node0.text.drop (node0.text.length - ps.length) ∧
      hn.parent_ids = [nid] ∧ hn.ntype = node0.ntype ∧
      node0.text.take (node0.text.length - ps.length) ++ hn.text = node0.text) ∧
    (bsSeq ps s0).ed.liveSplitNodeId = some nid ∧
    (bsSeq ps s0).ed.liveSplitHiddenId = some s0.nextId := by
  obtain ⟨h1, ⟨hn, hlkH, htext, hpar, hty⟩, _, h4, h5, _⟩ :=
    c1gen_iter s0 nid node0 hb r hr hmode hlk hai hcr ps hk1 hk2 hland
  exact ⟨h1, ⟨hn, hlkH, htext, hpar, hty, by rw [htext, List.take_append_drop]⟩,
    h4, h5⟩

/-- Witness for the corrected shrink claim: the AI root hey shrunk by two
end-of-text backspaces. -/
theorem C1_witness :
    lookupNode (bsSeq [3, 2] (c1Base ['h', 'e', 'y'])).tree.nodes 0
        = some { mkNode 0 [] ['h', 'e', 'y'] NType.ai with
            text := List.take 1 ['h', 'e', 'y'] } ∧
    (∃ hn : Node,
      lookupNode (bsSeq [3, 2] (c1Base ['h', 'e', 'y'])).tree.nodes 100
          = some hn ∧
      hn.text = List.drop 1 ['h', 'e', 'y'] ∧
      hn.parent_ids = [0] ∧ hn.ntype = NType.ai ∧
      List.take 1 ['h', 'e', 'y'] ++ hn.text = ['h', 'e', 'y']) ∧
    (bsSeq [3, 2] (c1Base ['h', 'e', 'y'])).ed.liveSplitNodeId = some 0 ∧
    (bsSeq [3, 2] (c1Base ['h', 'e', 'y'])).ed.liveSplitHiddenId = some 100 :=
  C1_shrink_reconstructs (c1Base ['h', 'e', 'y']) 0
    (mkNode 0 [] ['h', 'e', 'y'] NType.ai)
    (by unfold Bounded; decide) (fun i => (i : Rat))
    (by unfold RankedBy; decide) (by decide) (by decide) (by decide)
    (by decide) [3, 2] (by decide) (by decide)
    (by
      intro i hi
      have h0 : EndOfNode 0 (bsSeq (List.take 0 [3, 2])
          (c1Base ['h', 'e', 'y'])) 3 :=
        ⟨⟨0, 0, 3, ['h', 'e', 'y']⟩, mkNode 0 [] ['h', 'e', 'y'] NType.ai,
          by decide, by decide, by decide, by decide⟩
      have h1 : EndOfNode 0 (bsSeq (List.take 1 [3, 2])
          (c1Base ['h', 'e', 'y'])) 2 :=
        ⟨⟨0, 0, 2, ['h', 'e']⟩,
          { mkNode 0 [] ['h', 'e', 'y'] NType.ai with text := ['h', 'e'] },
          by decide, by decide, by decide, by decide⟩
      match i, hi with
      | 0, _ => exact h0
      | 1, _ => exact h1)

end Webloom
